import Mathlib

/-!
The v3io-tsdb storage engine: chunk metadata word, chunk store state machine, partition
addressing, sample cache and collector.

A shallow embedding of `chunkenc/chunk.go`, `appender/store.go`, `partmgr/partmgr.go`,
`pkg/appender/tvcache.go` and `pkg/pquerier/collector.go`.

Conventions of the embedding:
* Go `uintN` values are natural numbers, reduced `% 2 ^ N` wherever the Go operation truncates.
* Go `int64`/`int` values are integers; `wrapInt64` is applied where an `int64` operation can
  leave the range; Go `/` on signed integers truncates toward zero and is `Int.tdiv`.
* A `float64` sample value is carried as its IEEE-754 bit pattern: the store never computes on it.
* A nil dereference is a run-time panic and is an explicit outcome of the embedded function.
-/

/-- The two's-complement value an `int64` holds after an operation whose exact result is `x`. -/
def wrapInt64 (x : Int) : Int := (x + 2 ^ 63) % 2 ^ 64 - 2 ^ 63

/-- A `float64`, as its 64-bit pattern. -/
abbrev float64 : Type := Nat

namespace chunkenc

/-- Source: `EncNone Encoding = 0`. -/
def EncNone : Nat := 0

/-- Source: `EncXOR Encoding = 1`. -/
def EncXOR : Nat := 1

/-- Source: `type ChunkMetadata struct`: `Count, Length, Private uint16`, `Encode Encoding` (a `uint8`),
`Bits uint8`. -/
structure ChunkMetadata where
  Count : Nat
  Length : Nat
  Private : Nat
  Encode : Nat
  Bits : Nat
deriving DecidableEq

/-- Source: `func getMetadata(data uint64) ChunkMetadata`: each field is a shift followed by the
truncating conversion to the field's width. -/
def getMetadata (data : Nat) : ChunkMetadata :=
  { Count := data % 2 ^ 16,
    Length := (data >>> 32) % 2 ^ 16,
    Private := (data >>> 16) % 2 ^ 16,
    Encode := (data >>> 56) % 2 ^ 8,
    Bits := (data >>> 48) % 2 ^ 8 }

/-- Source: `func toMetadata(count, length, priv uint16, bits, encode uint8) uint64`: every operand is
widened to `uint64` and shifted within 64 bits, then the five words are or-ed. -/
def toMetadata (count length priv bits encode : Nat) : Nat :=
  ((encode <<< 56) % 2 ^ 64) ||| ((bits <<< 48) % 2 ^ 64) ||| ((length <<< 32) % 2 ^ 64)
    ||| ((priv <<< 16) % 2 ^ 64) ||| count

/-- The `bstream` a chunk reads from: the byte `stream` and the `count` of valid bits in the
current byte (a `uint8`). -/
structure bstream where
  stream : List Nat
  count : Nat
deriving DecidableEq

/-- The `XORChunk` value built by `FromData` and `FromBuffer`: its bit stream and its sample
count (a `uint16`). -/
structure XORChunk where
  b : bstream
  samples : Nat
deriving DecidableEq

/-- Source: `func FromData(e Encoding, d []byte, samples uint16) (Chunk, error)`. -/
def FromData (e : Nat) (d : List Nat) (samples : Nat) : Except String XORChunk :=
  if e = EncXOR then
    .ok { b := { count := 0, stream := d }, samples := samples }
  else
    .error ("unknown chunk encoding: " ++ toString e)

/-- Source: `func FromBuffer(metaint uint64, buffer []byte) (Chunk, error)`. -/
def FromBuffer (metaint : Nat) (buffer : List Nat) : Except String XORChunk :=
  let m := getMetadata metaint
  if m.Encode = EncXOR then
    .ok { b := { count := m.Bits, stream := buffer }, samples := m.Count }
  else
    .error ("unknown chunk encoding: " ++ toString m.Encode)

/-- Source: `binary.LittleEndian.Uint64` on a slice of (at least) eight bytes. -/
def leUint64 (bs : List Nat) : Nat :=
  (bs.take 8).foldr (fun b acc => b % 256 + 256 * acc) 0

/-- The little-endian serialisation of a 64-bit word (`binary.LittleEndian.PutUint64`): its
eight bytes, lowest first. -/
def leBytes (w : Nat) : List Nat :=
  [w % 256, w / 256 % 256, w / 256 ^ 2 % 256, w / 256 ^ 3 % 256, w / 256 ^ 4 % 256,
    w / 256 ^ 5 % 256, w / 256 ^ 6 % 256, w / 256 ^ 7 % 256]

/-- The second loop of `ToUint64`: one word per complete group of eight bytes. -/
def toWords : Nat → List Nat → List Nat
  | 0, _ => []
  | fuel + 1, bs => if 8 ≤ bs.length then leUint64 bs :: toWords fuel (bs.drop 8) else []

/-- Source: `func ToUint64(bytes []byte) []uint64`: pad with zero bytes to a multiple of eight, then read
little-endian words. -/
def ToUint64 (bytes : List Nat) : List Nat :=
  let rem := bytes.length - (bytes.length / 8) * 8
  let padded := if rem > 0 then bytes ++ List.replicate (8 - rem) 0 else bytes
  toWords padded.length padded

end chunkenc

namespace appender

open chunkenc

/-- Source: `var MaxArraySize = 1024`. -/
def MaxArraySize : Int := 1024

/-- Source: `const MAX_LATE_WRITE = 59 * 3600 * 1000`. -/
def MAX_LATE_WRITE : Int := 59 * 3600 * 1000

/-- The methods of the `chunkenc.Appender` / `chunkenc.Chunk` interfaces that the chunk store
calls, over the state `A` of one appender together with its chunk. -/
structure ChunkOps (A : Type) where
  /-- Source: `appender.Append(t, v)`. -/
  Append : A → Int → float64 → A
  /-- Source: `appender.Chunk().NumSamples()`. -/
  NumSamples : A → Int
  /-- Source: `appender.Chunk().GetChunkBuffer()`: metadata word, byte offset, bytes. -/
  GetChunkBuffer : A → Nat × Int × List Nat
  /-- Source: `appender.Chunk().MoveOffset(num)` with `num` a `uint16`; its error result is dropped by
  the only caller. -/
  MoveOffset : A → Nat → A

/-- What `store.go` calls outside itself: the chunk implementation behind the interfaces and the
`utils` helpers in the signatures used by the store. -/
structure Deps (A : Type) where
  chunk : ChunkOps A
  /-- Source: `chunkenc.NewXORChunk().Appender()`. -/
  NewAppender : Except String A
  /-- Source: `utils.Time2MinMax(dpo, t)`. -/
  Time2MinMax : Int → Int → Int × Int
  /-- Source: `utils.Time2TableID(t)`. -/
  Time2TableID : Int → Int
  /-- Source: `utils.TimeToChunkId(dpo, t)`, returning the chunk index and the hours per chunk. -/
  TimeToChunkId : Int → Int → Int × Int
  /-- Source: `utils.ChunkID2Attr(col, idx, hrInChunk)`. -/
  ChunkID2Attr : String → Int → Int → String

/-- Source: `type attrAppender struct`; a nil `appender` is `none`. -/
structure attrAppender (A : Type) where
  appender : Option A
  updMarker : Int
  updCount : Int
  lastT : Int
  mint : Int
  maxt : Int
  writing : Bool
deriving DecidableEq

/-- Source: `func (a *attrAppender) clear()`. -/
def attrAppender.clear {A : Type} (a : attrAppender A) : attrAppender A :=
  { a with updCount := 0, updMarker := 0, lastT := 0, writing := false }

/-- Source: `type pendingData struct`. -/
structure pendingData where
  t : Int
  v : float64
deriving DecidableEq

/-- Source: `type storeState uint8` with its four constants. -/
inductive storeState where
  | storeStateInit
  | storeStateGet
  | storeStateReady
  | storeStateUpdate
deriving DecidableEq

/-- Source: `type chunkStore struct`; `chunks [2]*attrAppender` is the pair `chunks0`, `chunks1`, and
`curChunk` only ever holds the index 0 or 1. -/
structure chunkStore (A : Type) where
  state : storeState
  curChunk : Fin 2
  pending : List pendingData
  chunks0 : attrAppender A
  chunks1 : attrAppender A
deriving DecidableEq

/-- The index `i ^ 1`. -/
def xor1 (i : Fin 2) : Fin 2 := if i = 0 then 1 else 0

/-- The slot `cs.chunks[i]`. -/
def chunkStore.chunks {A : Type} (cs : chunkStore A) (i : Fin 2) : attrAppender A :=
  if i = 0 then cs.chunks0 else cs.chunks1

/-- The store after the slot `cs.chunks[i]` was updated through its pointer to `c`. -/
def chunkStore.setChunk {A : Type} (cs : chunkStore A) (i : Fin 2) (c : attrAppender A) :
    chunkStore A :=
  if i = 0 then { cs with chunks0 := c } else { cs with chunks1 := c }

/-- Source: `func NewChunkStore() *chunkStore`. -/
def NewChunkStore (A : Type) : chunkStore A :=
  let z : attrAppender A :=
    { appender := none, updMarker := 0, updCount := 0, lastT := 0, mint := 0, maxt := 0,
      writing := false }
  { state := .storeStateInit, curChunk := 0, pending := [], chunks0 := z, chunks1 := z }

/-- Source: `func (cs *chunkStore) IsReady() bool`. -/
def chunkStore.IsReady {A : Type} (cs : chunkStore A) : Bool :=
  decide (cs.state = .storeStateReady)

/-- Source: `func (cs *chunkStore) GetChunksState(mc, t)`. -/
def GetChunksState {A : Type} (cs : chunkStore A) : chunkStore A :=
  { cs with state := .storeStateGet }

/-- Outcome of a method that mutates the store: it returned nil, it returned an error, or it
panicked. -/
inductive Result (σ : Type) where
  | ok (s : σ)
  | err (e : String) (s : σ)
  | panic
deriving DecidableEq

/-- The outcome with `f` applied to the store it carries. -/
def Result.map {σ τ : Type} (f : σ → τ) : Result σ → Result τ
  | .ok s => .ok (f s)
  | .err e s => .err e (f s)
  | .panic => .panic

/-- The error value `fmt.Errorf("Error, append beyound cur chunk while IO in flight to prev", t)`:
the format has no verb, so the argument is reported as extra. -/
def errInFlight (t : Int) : String :=
  "Error, append beyound cur chunk while IO in flight to prev%!(EXTRA int64="
    ++ toString t ++ ")"

/-- The statements `x.appender.Append(t, v); if t > x.lastT { x.lastT = t }` on a slot;
`none` when `x.appender` is nil. -/
def appendTo {A : Type} (d : Deps A) (x : attrAppender A) (t : Int) (v : float64) :
    Option (attrAppender A) :=
  match x.appender with
  | none => none
  | some a =>
    let x1 := { x with appender := some (d.chunk.Append a t v) }
    some (if t > x1.lastT then { x1 with lastT := t } else x1)

/-- Source: `func (cs *chunkStore) Append(t int64, vif interface{}) error`, called with a `float64`. -/
def Append {A : Type} (d : Deps A) (cs : chunkStore A) (t : Int) (v : float64) :
    Result (chunkStore A) :=
  if cs.state = .storeStateGet ∨ cs.state = .storeStateInit then
    .ok { cs with pending := cs.pending ++ [{ t := t, v := v }] }
  else
    let cur := cs.chunks cs.curChunk
    if t ≥ cur.mint ∧ t < cur.maxt then
      match appendTo d cur t v with
      | none => .panic
      | some cur1 => .ok (cs.setChunk cs.curChunk cur1)
    else if t ≥ cur.maxt then
      let nxt := cs.chunks (xor1 cs.curChunk)
      if nxt.writing then
        .err (errInFlight t) cs
      else
        match d.NewAppender with
        | .error e => .err e cs
        | .ok app =>
          let n1 := { nxt.clear with appender := some app }
          let n2 := { n1 with mint := (d.Time2MinMax 0 t).1, maxt := (d.Time2MinMax 0 t).2 }
          match appendTo d n2 t v with
          | none => .panic
          | some n3 =>
            .ok { cs.setChunk (xor1 cs.curChunk) n3 with curChunk := xor1 cs.curChunk }
    else
      let prev := cs.chunks (xor1 cs.curChunk)
      if t ≥ prev.mint ∧ t < prev.maxt ∧ t > wrapInt64 (cur.lastT - MAX_LATE_WRITE) then
        match appendTo d prev t v with
        | none => .panic
        | some prev1 => .ok (cs.setChunk (xor1 cs.curChunk) prev1)
      else
        .ok cs

/-- The conversion `int64(x)` of a `uint64`. -/
def int64OfUint64 (x : Nat) : Int :=
  if x % 2 ^ 64 < 2 ^ 63 then ((x % 2 ^ 64 : Nat) : Int) else ((x % 2 ^ 64 : Nat) : Int) - 2 ^ 64

/-- The conversion `uint16(x)` of an `int`. -/
def uint16OfInt (x : Int) : Nat := (x % 2 ^ 16).toNat

/-- The loop of `Chunkbuf2Expr` over the words `ui`: one assignment per word, at consecutive
indices from `offset`. -/
def wordsExpr (attr : String) : Int → List Nat → String
  | _, [] => ""
  | offset, w :: ws =>
    attr ++ "[" ++ toString offset ++ "]=" ++ toString (int64OfUint64 w) ++ "; "
      ++ wordsExpr attr (offset + 1) ws

/-- Source: `func Chunkbuf2Expr(offsetByte int, meta uint64, bytes []byte, mint, maxt int64) string`. -/
def Chunkbuf2Expr {A : Type} (d : Deps A) (offsetByte : Int) (meta : Nat) (bytes : List Nat)
    (mint maxt : Int) : String :=
  let offset := offsetByte.tdiv 8
  let ui := ToUint64 bytes
  let idx := (d.TimeToChunkId 0 mint).1
  let hrInChunk := (d.TimeToChunkId 0 mint).2
  let attr := d.ChunkID2Attr "v" idx hrInChunk
  let e0 := if offsetByte = 0 then
      attr ++ "=init_array(" ++ toString MaxArraySize ++ ",'int'); "
    else ""
  let e1 := e0 ++ "_meta_v[" ++ toString idx ++ "]=" ++ toString meta ++ "; "
  let e2 := e1 ++ wordsExpr attr offset ui
  e2 ++ "_maxtime=" ++ toString maxt

/-- Source: `labels.Label`. -/
structure Label where
  Name : String
  Value : String
deriving DecidableEq

/-- The fields of `MetricState` read by `WriteChunks`. -/
structure MetricState where
  Lset : List Label
  key : String
  name : String
  hash : Nat
deriving DecidableEq

/-- The local variables of `WriteChunks` that live across its loop, with the store. -/
structure WriteAcc (A : Type) where
  cs : chunkStore A
  tableId : Int
  expr : String
  notInitialized : Bool

/-- One iteration of `for i := 1; i < 3; i++` in `WriteChunks`, on the slot
`cs.chunks[cs.curChunk^(i&1)]`. -/
def writeChunk {A : Type} (d : Deps A) (acc : WriteAcc A) (i : Nat) : WriteAcc A :=
  let slot : Fin 2 := if i % 2 = 1 then xor1 acc.cs.curChunk else acc.cs.curChunk
  let chunk := acc.cs.chunks slot
  let tid := d.Time2TableID chunk.mint
  match chunk.appender with
  | none => acc
  | some a =>
    if acc.tableId = -1 ∨ acc.tableId = tid then
      let samples := d.chunk.NumSamples a
      if samples > chunk.updCount then
        let buf := d.chunk.GetChunkBuffer a
        let offsetByte := buf.2.1
        let b := buf.2.2
        let chunk1 : attrAppender A :=
          { chunk with
              updMarker := wrapInt64 ((wrapInt64 (offsetByte + b.length - 1)).tdiv 8 * 8),
              updCount := samples,
              writing := true }
        { cs := { acc.cs.setChunk slot chunk1 with state := .storeStateUpdate },
          tableId := tid,
          expr := acc.expr ++ Chunkbuf2Expr d offsetByte buf.1 b chunk.mint chunk.lastT,
          notInitialized := decide (offsetByte = 0) }
      else acc
    else acc

/-- The label prefix built by `WriteChunks` when `notInitialized` holds. -/
def lblExpr : List Label → String
  | [] => ""
  | lbl :: rest =>
    (if lbl.Name ≠ "__name__" then lbl.Name ++ "='" ++ lbl.Value ++ "'; "
      else "_name='" ++ lbl.Value ++ "'; ") ++ lblExpr rest

/-- What `WriteChunks` leaves behind: the store, and the `UpdateItem` request (item path and
update expression) it submitted, if it got that far. -/
structure WriteOut (A : Type) where
  cs : chunkStore A
  request : Option (String × String)

/-- Source: `func (cs *chunkStore) WriteChunks(mc *MetricsCache, metric *MetricState) error`, up to and
including the call of `mc.container.UpdateItem`; `cfgPath` is `mc.cfg.Path`. The store is
mutated before the request is submitted, so it is the same whether or not the submission
succeeds. -/
def WriteChunks {A : Type} (d : Deps A) (cfgPath : String) (metric : MetricState)
    (cs : chunkStore A) : WriteOut A :=
  if cs.state = .storeStateGet then
    { cs := cs, request := none }
  else
    let acc0 : WriteAcc A := { cs := cs, tableId := -1, expr := "", notInitialized := false }
    let acc := writeChunk d (writeChunk d acc0 1) 2
    let expr :=
      if acc.notInitialized then
        lblExpr metric.Lset ++ ("_lset='" ++ metric.key ++ "'; _meta_v=init_array("
          ++ toString (24 : Int) ++ ",'int'); ") ++ acc.expr
      else acc.expr
    let path := cfgPath ++ "/" ++ metric.name ++ "." ++ toString metric.hash
    { cs := acc.cs, request := some (path, expr) }

/-- The body of the first loop of `ProcessWriteResp` on one slot; `none` when the slot is
`writing` with a nil appender. -/
def ackChunk {A : Type} (d : Deps A) (c : attrAppender A) : Option (attrAppender A) :=
  if c.writing then
    match c.appender with
    | none => none
    | some a =>
      some { c with appender := some (d.chunk.MoveOffset a (uint16OfInt c.updMarker)),
                    writing := false }
  else some c

/-- The loop `for _, data := range cs.pending { cs.Append(data.t, data.v) }`: the error result
of each `Append` is dropped. -/
def replay {A : Type} (d : Deps A) : chunkStore A → List pendingData → Option (chunkStore A)
  | cs, [] => some cs
  | cs, p :: ps =>
    match Append d cs p.t p.v with
    | .ok cs1 => replay d cs1 ps
    | .err _ cs1 => replay d cs1 ps
    | .panic => none

/-- Source: `func (cs *chunkStore) ProcessWriteResp()`; `none` when it panics. -/
def ProcessWriteResp {A : Type} (d : Deps A) (cs : chunkStore A) : Option (chunkStore A) :=
  match ackChunk d cs.chunks0 with
  | none => none
  | some c0 =>
    match ackChunk d cs.chunks1 with
    | none => none
    | some c1 =>
      let cs1 := { cs with chunks0 := c0, chunks1 := c1, state := .storeStateReady }
      replay d cs1 cs1.pending

end appender

namespace partmgr

/-- The fields of `PartitionManager` that the partition methods read. -/
structure PartitionManager where
  cyclic : Bool
  ignoreWrap : Bool
deriving DecidableEq

/-- Source: `type DBPartition struct`; the string field holding the path prefix is `pathPrefix`. -/
structure DBPartition where
  manager : PartitionManager
  partID : Int
  startTime : Int
  days : Int
  hoursInChunk : Int
  pathPrefix : String
  retentionDays : Int
deriving DecidableEq

/-- Source: `func TimeToDHM(tmilli int64) (int, int)`, returning the pair `(d, h)`. -/
def TimeToDHM (tmilli : Int) : Int × Int :=
  let t := tmilli.tdiv 1000
  let h := t.tdiv 3600 - ((t.tdiv 3600).tdiv 24) * 24
  let d := (t.tdiv 3600).tdiv 24
  (d, h)

/-- Source: `func (p *DBPartition) TimeToChunkId(t int64) int`; `none` is the integer-divide-by-zero
panic. The subtraction `t - p.startTime` is an `int64` operation; `d` and `h` are bounded by the
range of `tmilli`, so the later products stay in range. -/
def DBPartition.TimeToChunkId (p : DBPartition) (t : Int) : Option Int :=
  let dh := TimeToDHM (wrapInt64 (t - p.startTime))
  let d := dh.1
  let h := dh.2
  if p.days ≤ 1 then some h
  else if p.hoursInChunk = 0 then none
  else
    let dayIndex := d - (d.tdiv p.days) * p.days
    some ((dayIndex * 24).tdiv p.hoursInChunk + h.tdiv p.hoursInChunk)

/-- Source: `func (p *DBPartition) GetChunkMint(t int64) int64`; `none` is the integer-divide-by-zero
panic. Every product is an `int64` operation. -/
def DBPartition.GetChunkMint (p : DBPartition) (t : Int) : Option Int :=
  if p.hoursInChunk = 0 then none
  else
    let q := ((t.tdiv 3600).tdiv 1000).tdiv p.hoursInChunk
    some (wrapInt64 (wrapInt64 (wrapInt64 (q * 3600) * 1000) * p.hoursInChunk))

/-- Source: `func (p *DBPartition) InChunkRange(mint, t int64) bool`. -/
def DBPartition.InChunkRange (p : DBPartition) (mint t : Int) : Bool :=
  decide (t ≥ mint ∧ t < wrapInt64 (mint + wrapInt64 (3600000 * p.hoursInChunk)))

/-- Source: `func (p *DBPartition) IsAheadOfChunk(mint, t int64) bool`. -/
def DBPartition.IsAheadOfChunk (p : DBPartition) (mint t : Int) : Bool :=
  decide (t ≥ wrapInt64 (mint + wrapInt64 (3600000 * p.hoursInChunk)))

/-- Source: `func (p *DBPartition) TimeRange() (int64, int64)`. -/
def DBPartition.TimeRange (p : DBPartition) : Int × Int :=
  (p.startTime,
    wrapInt64 (p.startTime
      + wrapInt64 (wrapInt64 (wrapInt64 (wrapInt64 (p.days * 24) * 3600) * 1000))))

/-- Source: `func (p *DBPartition) CyclicMinTime(mint, maxt int64) int64`; `now` is the value of
`time.Now().Unix()`, read only when the manager does not ignore the wrap. -/
def DBPartition.CyclicMinTime (now : Int) (p : DBPartition) (mint maxt : Int) : Int :=
  let maxSec := if !p.manager.ignoreWrap then now else maxt.tdiv 1000
  let newMin :=
    wrapInt64 (wrapInt64 (wrapInt64 (wrapInt64 (maxSec.tdiv 3600 - wrapInt64 (p.days * 24)) + 1)
      * 3600) * 1000)
  if mint > newMin then mint else newMin

/-- Source: `func (p *DBPartition) ChunkID2Attr(col string, id int) string`. -/
def DBPartition.ChunkID2Attr (p : DBPartition) (col : String) (id : Int) : String :=
  "_" ++ col ++ toString (wrapInt64 (id * p.hoursInChunk))

/-- The values of `i` in a loop `for i := lo; i < hi; i++`. -/
def intRange (lo hi : Int) : List Int :=
  (List.range (hi - lo).toNat).map (fun k => lo + (k : Int))

/-- Source: `func (p *DBPartition) Range2Cids(mint, maxt int64) []int`; `none` when
`TimeToChunkId` panics. The local `end` is `last`. -/
def DBPartition.Range2Cids (p : DBPartition) (mint maxt : Int) : Option (List Int) :=
  match p.TimeToChunkId mint, p.TimeToChunkId maxt with
  | some start, some last =>
    if last < start then some (intRange start 24 ++ intRange 0 (last + 1))
    else some (intRange start (last + 1))
  | _, _ => none

/-- Source: `func (p *DBPartition) Range2Attrs(col string, mint, maxt int64) ([]string, []int)`. -/
def DBPartition.Range2Attrs (p : DBPartition) (col : String) (mint maxt : Int) :
    Option (List String × List Int) :=
  match p.Range2Cids mint maxt with
  | some list => some (list.map (p.ChunkID2Attr col), list)
  | none => none

/-- Source: `func NewDBPartition(pmgr *PartitionManager) *DBPartition`, with the three fields of the
configuration that it reads. -/
def NewDBPartition (pmgr : PartitionManager) (DaysPerObj HrInChunk DaysRetention : Int) :
    DBPartition :=
  { manager := pmgr, partID := 1, startTime := 0, days := DaysPerObj, hoursInChunk := HrInChunk,
    pathPrefix := "", retentionDays := DaysRetention }

/-- Source: `func NewPartitionMngr(cfg *config.TsdbConfig) *PartitionManager`: the manager, and the
head partition it creates. -/
def NewPartitionMngr (DaysPerObj HrInChunk DaysRetention : Int) :
    PartitionManager × DBPartition :=
  let newMngr : PartitionManager := { cyclic := true, ignoreWrap := true }
  (newMngr, NewDBPartition newMngr DaysPerObj HrInChunk DaysRetention)

/-- A partition of two days with five-hour chunks, starting at time 0. -/
def part2x5 : DBPartition :=
  { manager := { cyclic := true, ignoreWrap := true }, partID := 1, startTime := 0, days := 2,
    hoursInChunk := 5, pathPrefix := "", retentionDays := 2 }

/-- A partition of two days with one-hour chunks, starting one millisecond before time 0. -/
def part2x1 : DBPartition :=
  { manager := { cyclic := true, ignoreWrap := true }, partID := 1, startTime := -1, days := 2,
    hoursInChunk := 1, pathPrefix := "", retentionDays := 2 }

/-- A partition of five days with two-hour chunks, starting at time 0. -/
def part5x2 : DBPartition :=
  { manager := { cyclic := true, ignoreWrap := true }, partID := 1, startTime := 0, days := 5,
    hoursInChunk := 2, pathPrefix := "", retentionDays := 5 }

/-- A partition of one day with two-hour chunks, starting at time 0. -/
def part1x2 : DBPartition :=
  { manager := { cyclic := true, ignoreWrap := true }, partID := 1, startTime := 0, days := 1,
    hoursInChunk := 2, pathPrefix := "", retentionDays := 1 }

/-- A partition of two days with seven-hour chunks, starting at time 0. -/
def part2x7 : DBPartition :=
  { manager := { cyclic := true, ignoreWrap := true }, partID := 1, startTime := 0, days := 2,
    hoursInChunk := 7, pathPrefix := "", retentionDays := 2 }

/-- A partition of five days with one-hour chunks, starting at time 0. -/
def part5x1 : DBPartition :=
  { manager := { cyclic := true, ignoreWrap := true }, partID := 1, startTime := 0, days := 5,
    hoursInChunk := 1, pathPrefix := "", retentionDays := 5 }

end partmgr

namespace appender

/-- A slot without an appender has the empty window `[0, 0)` it was created with. -/
def attrAppender.NilEmpty {A : Type} (c : attrAppender A) : Prop :=
  c.appender = none → c.mint = 0 ∧ c.maxt = 0

/-- The chunk store invariant on one slot: a slot without an appender has the empty window, the
window is not inverted, and `lastT` is a non-negative `int64`. -/
def attrAppender.WF {A : Type} (c : attrAppender A) : Prop :=
  c.NilEmpty ∧ c.mint ≤ c.maxt ∧ 0 ≤ c.lastT ∧ c.lastT < 2 ^ 63

/-- The chunk store invariant: both slots satisfy the slot invariant, and the timestamps of the
pending samples are `int64` values. -/
def chunkStore.WF {A : Type} (cs : chunkStore A) : Prop :=
  cs.chunks0.WF ∧ cs.chunks1.WF ∧ ∀ p ∈ cs.pending, -(2 : Int) ^ 63 ≤ p.t ∧ p.t < 2 ^ 63

instance attrAppender.decidableNilEmpty {A : Type} [DecidableEq A] (c : attrAppender A) :
    Decidable c.NilEmpty := by
  unfold attrAppender.NilEmpty
  infer_instance

instance attrAppender.decidableWF {A : Type} [DecidableEq A] (c : attrAppender A) :
    Decidable c.WF := by
  unfold attrAppender.WF
  infer_instance

instance chunkStore.decidableWF {A : Type} [DecidableEq A] (cs : chunkStore A) :
    Decidable cs.WF := by
  unfold chunkStore.WF
  infer_instance

/-- The time windows produced by `utils.Time2MinMax` are not inverted. -/
def Deps.WindowOk {A : Type} (d : Deps A) : Prop :=
  ∀ t, (d.Time2MinMax 0 t).1 ≤ (d.Time2MinMax 0 t).2

/-- A call on a chunk store: `Append(t, v)`, `WriteChunks(mc, metric)` with a submission that
succeeds, or `ProcessWriteResp()`. -/
inductive Op where
  | append (t : Int) (v : float64)
  | writeChunks (cfgPath : String) (metric : MetricState)
  | processWriteResp
deriving DecidableEq

/-- The store after one call; `none` when the call panics, or when the timestamp of an `Append`
is not an `int64`. An error returned by `Append` is reported to the caller and the store goes
on. -/
def step {A : Type} (d : Deps A) (cs : chunkStore A) : Op → Option (chunkStore A)
  | .append t v =>
    if -(2 : Int) ^ 63 ≤ t ∧ t < 2 ^ 63 then
      match Append d cs t v with
      | .ok cs1 => some cs1
      | .err _ cs1 => some cs1
      | .panic => none
    else none
  | .writeChunks cfgPath metric => some (WriteChunks d cfgPath metric cs).cs
  | .processWriteResp => ProcessWriteResp d cs

/-- The store after a sequence of calls. -/
def run {A : Type} (d : Deps A) : chunkStore A → List Op → Option (chunkStore A)
  | cs, [] => some cs
  | cs, op :: ops =>
    match step d cs op with
    | none => none
    | some cs1 => run d cs1 ops

/-- The chunk stores that arise from `NewChunkStore()` by a sequence of calls of `Append`,
`WriteChunks` and `ProcessWriteResp`. -/
def Reachable {A : Type} (d : Deps A) (cs : chunkStore A) : Prop :=
  ∃ ops, run d (NewChunkStore A) ops = some cs

/-- A caller appending the samples `xs` one by one, in order: one call of `Append` per sample,
each on the store left by the previous call; `none` when a call panics. -/
def appendEach {A : Type} (d : Deps A) : chunkStore A → List pendingData → Option (chunkStore A)
  | cs, [] => some cs
  | cs, x :: xs =>
    match Append d cs x.t x.v with
    | .ok cs1 => appendEach d cs1 xs
    | .err _ cs1 => appendEach d cs1 xs
    | .panic => none

end appender

namespace model

open chunkenc appender

/-- Modelled from the spec: the XOR chunk with its appender (`NewXORChunk`, `Appender`,
`NumSamples`, `GetChunkBuffer`, `MoveOffset`) is not among the sources. Per the spec a chunk is
an append-only buffer of encoded samples whose `sampleCount` is the number of pairs encoded,
together with an "already sent" byte marker. -/
structure Chunk where
  samples : List (Int × float64)
  offset : Nat
deriving DecidableEq

/-- Modelled from the spec: the bit-level sample encoding is not among the sources; this
stand-in writes the 64-bit patterns of `t` and `v` as sixteen little-endian bytes per sample. -/
def encode : List (Int × float64) → List Nat
  | [] => []
  | (t, v) :: rest =>
    (List.range 8).map (fun i => ((t % 2 ^ 64).toNat / 256 ^ i) % 256)
      ++ (List.range 8).map (fun i => (v / 256 ^ i) % 256) ++ encode rest

/-- Modelled from the spec: the chunk methods (absent from the sources). `Append` writes one
sample to the tail and updates the sample count; `GetChunkBuffer` returns the metadata word,
the current byte offset and the bytes not yet sent; `MoveOffset n` advances the "already sent"
marker to `n` and never moves it back. -/
def chunkOps : ChunkOps Chunk where
  Append := fun c t v => { c with samples := c.samples ++ [(t, v)] }
  NumSamples := fun c => c.samples.length
  GetChunkBuffer := fun c =>
    (toMetadata (c.samples.length % 2 ^ 16) ((encode c.samples).length % 2 ^ 16) 0 0 EncXOR,
      (c.offset : Int), (encode c.samples).drop c.offset)
  MoveOffset := fun c n => { c with offset := max c.offset n }

/-- Modelled from the spec: the `utils` helpers called by the store (`Time2MinMax`,
`Time2TableID`, the two-valued `TimeToChunkId`, the three-argument `ChunkID2Attr`) are not among
the sources. Per the spec the window of a new buffer is the chunk bucket of `t` (one hour per
chunk here), there is one item per metric and partition (one table), the chunk index of a
single-day partition is the hour of day, and the attribute name is `_<col><id*hoursPerChunk>`. -/
def deps : Deps Chunk where
  chunk := chunkOps
  NewAppender := .ok { samples := [], offset := 0 }
  Time2MinMax := fun _ t => ((t.tdiv 3600000) * 3600000, (t.tdiv 3600000) * 3600000 + 3600000)
  Time2TableID := fun _ => 0
  TimeToChunkId := fun _ t => ((t.tdiv 3600000) - ((t.tdiv 3600000).tdiv 24) * 24, 1)
  ChunkID2Attr := fun col idx hr => "_" ++ col ++ toString (idx * hr)

/-- A metric with one label besides its name. -/
def metric : MetricState :=
  { Lset := [{ Name := "__name__", Value := "cpu" }, { Name := "host", Value := "a" }],
    key := "cpu.host=a", name := "cpu", hash := 7 }

/-- The store after `ProcessWriteResp`, `Append(0, 5)`, `WriteChunks` and `Append(3600000, 6)`
on a new store: the current buffer is slot 0 with window `[3600000, 7200000)`, the previous
buffer is slot 1 with window `[0, 3600000)` and an outstanding flush. -/
def store2 : chunkStore Chunk :=
  { state := .storeStateUpdate, curChunk := 0, pending := [],
    chunks0 := { appender := some { samples := [(3600000, 6)], offset := 0 },
                 updMarker := 0, updCount := 0, lastT := 3600000,
                 mint := 3600000, maxt := 7200000, writing := false },
    chunks1 := { appender := some { samples := [(0, 5)], offset := 0 },
                 updMarker := 8, updCount := 1, lastT := 0,
                 mint := 0, maxt := 3600000, writing := true } }

/-- Calls after which both buffers are flushed by one `WriteChunks`: the store becomes ready,
one sample goes to the hour `[0, 3600000)` and one to the next hour, then the flush. -/
def opsOneFlush : List Op :=
  [.processWriteResp, .append 0 5, .append 3600000 6, .writeChunks "p" metric]

/-- The calls of `opsOneFlush` before the flush: after them both buffers hold one sample that
was not written yet. -/
def opsBeforeFlush : List Op :=
  [.processWriteResp, .append 0 5, .append 3600000 6]

/-- The store after `opsBeforeFlush` on a new store: the current buffer is slot 0 with window
`[3600000, 7200000)`, the previous buffer is slot 1 with window `[0, 3600000)`, and nothing was
flushed. -/
def storeTwoBuffers : chunkStore Chunk :=
  { state := .storeStateReady, curChunk := 0, pending := [],
    chunks0 := { appender := some { samples := [(3600000, 6)], offset := 0 },
                 updMarker := 0, updCount := 0, lastT := 3600000,
                 mint := 3600000, maxt := 7200000, writing := false },
    chunks1 := { appender := some { samples := [(0, 5)], offset := 0 },
                 updMarker := 0, updCount := 0, lastT := 0,
                 mint := 0, maxt := 3600000, writing := false } }

/-- The store after `ProcessWriteResp` and `Append(0, 5)` on a new store: only the current
buffer, slot 1, holds a sample, and nothing was flushed. -/
def storeOneBuffer : chunkStore Chunk :=
  { state := .storeStateReady, curChunk := 1, pending := [],
    chunks0 := { appender := none, updMarker := 0, updCount := 0, lastT := 0,
                 mint := 0, maxt := 0, writing := false },
    chunks1 := { appender := some { samples := [(0, 5)], offset := 0 },
                 updMarker := 0, updCount := 0, lastT := 0,
                 mint := 0, maxt := 3600000, writing := false } }

/-- Calls with two flushes and no response in between: the first `WriteChunks` flushes the
buffer of the hour `[0, 3600000)`, the second one the buffer of the next hour. -/
def opsTwoFlushes : List Op :=
  [.processWriteResp, .append 0 5, .writeChunks "p" metric, .append 3600000 6,
    .writeChunks "p" metric]

/-- The store after `ProcessWriteResp`, `Append(0, 5)` and `WriteChunks` on a new store: the
flush of slot 1 is outstanding and nothing was appended since. -/
def store1 : chunkStore Chunk :=
  { state := .storeStateUpdate, curChunk := 1, pending := [],
    chunks0 := { appender := none, updMarker := 0, updCount := 0, lastT := 0,
                 mint := 0, maxt := 0, writing := false },
    chunks1 := { appender := some { samples := [(0, 5)], offset := 0 },
                 updMarker := 8, updCount := 1, lastT := 0,
                 mint := 0, maxt := 3600000, writing := true } }

/-- The store after `ProcessWriteResp`, `Append(0, 5)`, `WriteChunks` and `Append(5, 7)` on a
new store: the flush of slot 1 is outstanding and one sample was appended to it since. -/
def store4 : chunkStore Chunk :=
  { state := .storeStateUpdate, curChunk := 1, pending := [],
    chunks0 := { appender := none, updMarker := 0, updCount := 0, lastT := 0,
                 mint := 0, maxt := 0, writing := false },
    chunks1 := { appender := some { samples := [(0, 5), (5, 7)], offset := 0 },
                 updMarker := 8, updCount := 1, lastT := 5,
                 mint := 0, maxt := 3600000, writing := true } }

/-- The calls that lead to `store4`. -/
def opsStore4 : List Op :=
  [.processWriteResp, .append 0 5, .writeChunks "p" metric, .append 5 7]

/-- One sample arrives before the state of the store is known, then one write response. -/
def opsOneResponse : List Op :=
  [.append 5 9, .processWriteResp]

/-- A new store whose state request is outstanding. -/
def storeGet : chunkStore Chunk := GetChunksState (NewChunkStore Chunk)

/-- Three samples, not sorted by time. -/
def samples3 : List pendingData :=
  [{ t := 10, v := 1 }, { t := 5, v := 2 }, { t := 3600000, v := 3 }]

/-- One sample arrives before the state of the store is known, then two write responses. -/
def opsTwoResponses : List Op :=
  [.append 5 9, .processWriteResp, .processWriteResp]

/-- A sample for the hour `[0, 3600000)`, a sample two hours later, then a sample at `t = 1000`,
which is 7199 seconds behind the newest one. -/
def opsLate : List Op :=
  [.processWriteResp, .append 0 5, .append 7200000 6, .append 1000 7]

/-- The calls that lead to `store2`. -/
def opsStore2 : List Op :=
  [.processWriteResp, .append 0 5, .writeChunks "p" metric, .append 3600000 6]

end model

namespace tvcache

/-- Source: `type pendingData struct` of `tvcache.go`; the value is of any type `V`. -/
structure pendingData (V : Type) where
  t : Int
  v : V
deriving DecidableEq

/-- Source: `type samplesList struct`; `data` is the `pendingList`. -/
structure samplesList (V : Type) where
  unordered : Bool
  maxtime : Int
  sentPtr : Int
  historyPtr : Int
  data : List (pendingData V)
deriving DecidableEq

/-- The zero value of `samplesList`: the empty list. -/
def samplesList.empty (V : Type) : samplesList V :=
  { unordered := false, maxtime := 0, sentPtr := 0, historyPtr := 0, data := [] }

/-- The loop of `sort.Search`, on the bounds `i` and `j`: binary search for the least index in
`[i, j)` at which `f` holds. The fuel is the number of iterations left. -/
def searchLoop (f : Nat → Bool) : Nat → Nat → Nat → Nat
  | 0, i, _ => i
  | fuel + 1, i, j =>
    if i < j then
      let h := (i + j) / 2
      if !f h then searchLoop f fuel (h + 1) j else searchLoop f fuel i h
    else i

/-- Source: `sort.Search(n, f)` of the Go library; every iteration halves `j - i`, so `n`
iterations are enough. -/
def Search (n : Nat) (f : Nat → Bool) : Nat := searchLoop f n 0 n

/-- The test `l.data[i].t >= t` of `append`, at an index inside the list. -/
def timeAtLeast {V : Type} (data : List (pendingData V)) (t : Int) (i : Nat) : Bool :=
  match data[i]? with
  | some d => decide (d.t ≥ t)
  | none => false

/-- The test `i == l.data.Len() || l.data[i].t == t` of `append`. -/
def isDuplicateAt {V : Type} (data : List (pendingData V)) (t : Int) (i : Nat) : Bool :=
  if i = data.length then true
  else
    match data[i]? with
    | some d => decide (d.t = t)
    | none => false

/-- Source: `func (l *samplesList) append(t int64, v interface{}) bool`: the result and the list
after the call. -/
def samplesList.append {V : Type} (l : samplesList V) (t : Int) (v : V) :
    Bool × samplesList V :=
  if t ≤ l.maxtime ∧ isDuplicateAt l.data t (Search l.data.length (timeAtLeast l.data t)) = true
  then (true, l)
  else
    let l1 := if t > l.maxtime then { l with maxtime := t } else { l with unordered := true }
    (false, { l1 with data := l1.data ++ [{ t := t, v := v }] })

/-- The list after `append(10, 1)` and `append(5, 2)` on the empty list. -/
def list105 : samplesList Nat :=
  ((samplesList.empty Nat).append 10 1).2.append 5 2 |>.2

/-- Source: the slice expression `s[low:]` of Go; `none` is the slice-bounds panic, raised
unless `0 ≤ low ≤ len(s)`. -/
def sliceFrom {V : Type} (s : List V) (low : Int) : Option (List V) :=
  if 0 ≤ low ∧ low ≤ s.length then some (s.drop low.toNat) else none

/-- Source: `func (l *samplesList) getPending() pendingList`. -/
def samplesList.getPending {V : Type} (l : samplesList V) : Option (List (pendingData V)) :=
  sliceFrom l.data l.historyPtr

/-- Source: `func (l *samplesList) updateSentIndex(index int)`; the sum is an `int` operation. -/
def samplesList.updateSentIndex {V : Type} (l : samplesList V) (index : Int) : samplesList V :=
  { l with sentPtr := wrapInt64 (l.historyPtr + index) }

/-- Source: `func (l *samplesList) sendConfirmed()`; `none` is the slice-bounds panic of
`l.data[l.historyPtr:]`. The difference is an `int` operation. -/
def samplesList.sendConfirmed {V : Type} (l : samplesList V) : Option (samplesList V) :=
  match sliceFrom l.data l.historyPtr with
  | none => none
  | some data =>
    let historyPtr := wrapInt64 (l.sentPtr - l.historyPtr)
    some { l with data := data, historyPtr := historyPtr, sentPtr := historyPtr }

/-- A list of four samples at the times 1 to 4 whose first sample is history. -/
def list4 : samplesList Nat :=
  { unordered := false, maxtime := 4, sentPtr := 1, historyPtr := 1,
    data := [{ t := 1, v := 10 }, { t := 2, v := 20 }, { t := 3, v := 30 }, { t := 4, v := 40 }] }

end tvcache

namespace utils

/-- The field of `config.TsdbConfig` that `TimeToChunkId` reads. -/
structure TsdbConfig where
  DaysPerObj : Int
deriving DecidableEq

/-- Source: `func TimeToDHM(tmilli int64) (int, int)` of `utils.go`, returning the pair
`(d, h)`. -/
def TimeToDHM (tmilli : Int) : Int × Int :=
  let t := tmilli.tdiv 1000
  let h := t.tdiv 3600 - ((t.tdiv 3600).tdiv 24) * 24
  let d := (t.tdiv 3600).tdiv 24
  (d, h)

/-- Source: `func TimeToChunkId(cfg *config.TsdbConfig, tmilli int64) int` of `utils.go`, for a
non-nil `cfg`; `none` is the integer-divide-by-zero panic, of `d / dpo` or of the division by
`dpo / 2`. The day `d` and the hour `h` are bounded by the range of `tmilli`, so the products
stay in range. -/
def TimeToChunkId (cfg : TsdbConfig) (tmilli : Int) : Option Int :=
  let dh := TimeToDHM tmilli
  let d := dh.1
  let h := dh.2
  let dpo := cfg.DaysPerObj
  if dpo = 1 then some h
  else if dpo = 0 then none
  else
    let dayIndex := d - (d.tdiv dpo) * dpo
    if dpo.tdiv 2 = 0 then none
    else some ((dayIndex * 24 + h).tdiv (dpo.tdiv 2))

end utils

namespace pquerier

open chunkenc

/-- Source: `math.NaN()` of the Go library: the `float64` with the bits `0x7FF8000000000001`. -/
def NaN : float64 := 0x7FF8000000000001

/-- The position of the highest set bit of `n`, for `n` below `2 ^ fuel`. -/
def log2Loop : Nat → Nat → Nat
  | 0, _ => 0
  | fuel + 1, n => if n ≥ 2 then log2Loop fuel (n / 2) + 1 else 0

/-- The conversion `float64(val)` of a `uint64`: the nearest `float64`, ties to even, as its bit
pattern (exponent field times `2 ^ 52` plus the 52 mantissa bits; a mantissa rounded up to
`2 ^ 53` carries into the exponent). -/
def float64OfUint64 (n : Nat) : float64 :=
  if n = 0 then 0
  else
    let e := log2Loop 64 n
    if e ≤ 52 then (e + 1023) * 2 ^ 52 + (n * 2 ^ (52 - e) - 2 ^ 52)
    else
      let sh := e - 52
      let q := n / 2 ^ sh
      let r := n % 2 ^ sh
      let half := 2 ^ (sh - 1)
      let m := if r > half ∨ (r = half ∧ q % 2 = 1) then q + 1 else q
      (e + 1023) * 2 ^ 52 + (m - 2 ^ 52)

/-- Source: `math.Float64frombits(val)`: the `float64` with the bits `val`. -/
def Float64frombits (val : Nat) : float64 := val % 2 ^ 64

/-- What `aggregateServerAggregates` reads of a column: `GetColumnSpec().metric`,
`GetColumnSpec().function` and `GetColumnSpec().isConcrete()`. -/
structure columnSpec where
  metric : String
  function : Nat
  concrete : Bool
deriving DecidableEq

/-- What `aggregateServerAggregates` reads of the query context and of the query result:
`ctx.mint`, `res.name`, the columns of `res.frame`, the byte arrays of `res.fields`, the start
time of the partition, the rollup time and the interval of the aggregation parameters, and the
two helpers `aggregate.ToAttrName` and `aggregate.IsCountAggregate`. -/
structure ServerAggInput where
  mint : Int
  name : String
  columns : List columnSpec
  fields : String → Option (List Nat)
  startTime : Int
  rollupTime : Int
  interval : Int
  ToAttrName : Nat → String
  IsCountAggregate : Nat → Bool

/-- The bucket `int(currentCell)` of the cell at byte offset `i` of the array: the statements
`currentValueIndex := (i - 16) / 8`, `currentValueTime := ...` and `currentCell := ...`, for a
non-zero interval. -/
def currentCell (inp : ServerAggInput) (i : Nat) : Int :=
  let currentValueIndex : Int := ((i : Int) - 16).tdiv 8
  let currentValueTime :=
    wrapInt64 (inp.startTime + wrapInt64 (wrapInt64 (currentValueIndex + 1) * inp.rollupTime))
  wrapInt64 ((wrapInt64 (currentValueTime - inp.mint)).tdiv inp.interval)

/-- The loop `for i := 16; i+8 <= len(bytes); i += 8` of `aggregateServerAggregates` on the
array of the function `fn`, from the offset `i` on: the calls `col.SetDataAt(cell, value)` in
order; `none` is the integer-divide-by-zero panic. -/
def cellsLoop (inp : ServerAggInput) (fn : Nat) (bytes : List Nat) :
    Nat → Nat → Option (List (Int × float64))
  | 0, _ => some []
  | fuel + 1, i =>
    if i + 8 ≤ bytes.length then
      if inp.interval = 0 then none
      else
        let val := leUint64 (bytes.drop i)
        let floatVal :=
          if inp.IsCountAggregate fn then float64OfUint64 val else Float64frombits val
        match cellsLoop inp fn bytes fuel (i + 8) with
        | none => none
        | some rest => some ((currentCell inp i, floatVal) :: rest)
    else some []

/-- The body of the loop over the columns in `aggregateServerAggregates`: the calls
`col.SetDataAt(cell, value)` made on the column `col`, in order. -/
def columnCalls (inp : ServerAggInput) (col : columnSpec) : Option (List (Int × float64)) :=
  if col.metric = inp.name ∧ col.function ≠ 0 ∧ col.concrete = true then
    match inp.fields (inp.ToAttrName col.function) with
    | none => some []
    | some bytes => cellsLoop inp col.function bytes bytes.length 16
  else some []

/-- The loop over the columns, from the column list `cols` on. -/
def columnsLoop (inp : ServerAggInput) : List columnSpec → Option (List (List (Int × float64)))
  | [] => some []
  | col :: cols =>
    match columnCalls inp col with
    | none => none
    | some calls =>
      match columnsLoop inp cols with
      | none => none
      | some rest => some (calls :: rest)

/-- Source: `func aggregateServerAggregates(ctx *selectQueryContext, res *qryResults)`: for every
column of the frame, the calls `col.SetDataAt(cell, value)` it makes on it. -/
def aggregateServerAggregates (inp : ServerAggInput) : Option (List (List (Int × float64))) :=
  columnsLoop inp inp.columns

/-- The methods of the raw chunk iterator called by `downsampleRawData`, over the state `I` of
the iterator. -/
structure RawIter (I : Type) where
  /-- Source: `it.Seek(t)`: whether a sample at or after `t` was found, and the iterator after. -/
  Seek : I → Int → Bool × I
  /-- Source: `it.At()`. -/
  At : I → Int × float64
  /-- Source: `it.PeakBack()`. -/
  PeakBack : I → Int × float64

/-- What `downsampleRawData` reads of the query context and of the column: `ctx.mint`,
`ctx.step`, `col.Len()`, the two results of `col.GetInterpolationFunction()`, and the iterator
methods. -/
structure DownsampleInput (I : Type) where
  mint : Int
  step : Int
  colLen : Nat
  interpolateFunc : Int → Int → Int → float64 → float64 → Int × float64
  tolerance : Int
  iter : RawIter I

/-- The variables of `downsampleRawData` that live across its loop. -/
structure DownsampleState (I : Type) where
  it : I
  lastT : Int
  lastV : float64

/-- The body of the loop of `downsampleRawData` for the bucket `currBucket`: the state after
it, and the value passed to `col.SetDataAt(currBucket, ·)`; `none` is the
integer-divide-by-zero panic. -/
def downsampleBucket {I : Type} (inp : DownsampleInput I)
    (previousPartitionLastTime : Int) (previousPartitionLastValue : float64)
    (st : DownsampleState I) (currBucket : Nat) : Option (DownsampleState I × float64) :=
  let currBucketTime := wrapInt64 (wrapInt64 ((currBucket : Int) * inp.step) + inp.mint)
  let sk := inp.iter.Seek st.it currBucketTime
  if sk.1 then
    let t := (inp.iter.At sk.2).1
    let v := (inp.iter.At sk.2).2
    if inp.step = 0 then none
    else
      let tBucketIndex := wrapInt64 ((wrapInt64 (t - inp.mint)).tdiv inp.step)
      if t = currBucketTime then some ({ st with it := sk.2 }, v)
      else if tBucketIndex = (currBucket : Int) then
        let pk := inp.iter.PeakBack sk.2
        let prevT := if pk.1 = 0 then previousPartitionLastTime else pk.1
        let prevV := if pk.1 = 0 then previousPartitionLastValue else pk.2
        if prevT ≠ 0 ∧ wrapInt64 (t - prevT) > inp.tolerance then
          some ({ st with it := sk.2 }, NaN)
        else
          some ({ st with it := sk.2 },
            (inp.interpolateFunc prevT t currBucketTime prevV v).2)
      else some ({ st with it := sk.2 }, NaN)
  else
    some ({ it := sk.2, lastT := (inp.iter.At sk.2).1, lastV := (inp.iter.At sk.2).2 }, NaN)

/-- The loop `for currBucket := 0; currBucket < col.Len(); currBucket++` of
`downsampleRawData`, with `n` buckets left from `currBucket` on: the calls
`col.SetDataAt(bucket, value)` in order, and the state after the loop. -/
def downsampleLoop {I : Type} (inp : DownsampleInput I)
    (previousPartitionLastTime : Int) (previousPartitionLastValue : float64) :
    Nat → Nat → DownsampleState I → Option (List (Nat × float64) × DownsampleState I)
  | 0, _, st => some ([], st)
  | n + 1, currBucket, st =>
    match downsampleBucket inp previousPartitionLastTime previousPartitionLastValue st
        currBucket with
    | none => none
    | some (st1, value) =>
      match downsampleLoop inp previousPartitionLastTime previousPartitionLastValue n
          (currBucket + 1) st1 with
      | none => none
      | some (calls, st2) => some ((currBucket, value) :: calls, st2)

/-- Source: `func downsampleRawData(ctx, res, previousPartitionLastTime, previousPartitionLastValue)
(int64, float64)`, on the new iterator `it0`: the calls `col.SetDataAt(bucket, value)` in order,
and the returned pair `(lastT, lastV)`. -/
def downsampleRawData {I : Type} (inp : DownsampleInput I) (it0 : I)
    (previousPartitionLastTime : Int) (previousPartitionLastValue : float64) :
    Option (List (Nat × float64) × (Int × float64)) :=
  match downsampleLoop inp previousPartitionLastTime previousPartitionLastValue inp.colLen 0
      { it := it0, lastT := 0, lastV := 0 } with
  | none => none
  | some (calls, st) => some (calls, (st.lastT, st.lastV))

/-- An example response for the metric `cpu` with one concrete column of the aggregate
function 1, a count aggregate stored in the attribute `_v_count`, whose array is `bytes`; the
partition starts at 0, and the rollup time and the interval are one hour. -/
def countInput (bytes : List Nat) : ServerAggInput :=
  { mint := 0, name := "cpu",
    columns := [{ metric := "cpu", function := 1, concrete := true }],
    fields := fun a => if a = "_v_count" then some bytes else none,
    startTime := 0, rollupTime := 3600000, interval := 3600000,
    ToAttrName := fun _ => "_v_count",
    IsCountAggregate := fun f => decide (f = 1) }

/-- The example response `countInput bytes` with the interval zero. -/
def countInputZero (bytes : List Nat) : ServerAggInput :=
  { countInput bytes with interval := 0 }

/-- An array with a header of 8 bytes followed by one cell holding 8. -/
def header8Cell : List Nat := [0, 0, 0, 0, 0, 0, 0, 0] ++ [8, 0, 0, 0, 0, 0, 0, 0]

/-- An array with a header of 16 bytes followed by one cell holding 8. -/
def header16Cell : List Nat :=
  [0, 0, 0, 0, 0, 0, 0, 0, 0, 0, 0, 0, 0, 0, 0, 0] ++ [8, 0, 0, 0, 0, 0, 0, 0]

/-- Modelled from the spec: the raw chunk iterator (`newRawChunkIterator`, `Seek`, `At`,
`PeakBack`) is not among the sources. Per the spec it is a forward-only sequence of decoded
`(t, v)` pairs in time order; this one walks a list of samples from the position `pos`. -/
structure ListIter where
  samples : List (Int × float64)
  pos : Nat
deriving DecidableEq

/-- Modelled from the spec: the iterator methods (absent from the sources). `Seek t` moves
forward to the first sample at or after `t` and reports whether there is one, `At` is the
sample at the position, and `PeakBack` is the sample before it, with time 0 when there is
none. -/
def listIter : RawIter ListIter where
  Seek := fun it t =>
    let pos1 := it.pos + ((it.samples.drop it.pos).takeWhile (fun s => decide (s.1 < t))).length
    (decide (pos1 < it.samples.length), { it with pos := pos1 })
  At := fun it => it.samples.getD it.pos (0, 0)
  PeakBack := fun it => if it.pos = 0 then (0, 0) else it.samples.getD (it.pos - 1) (0, 0)

/-- An example column of three buckets of width 10 from time 0 on, with the tolerance
`tolerance` and an interpolation function that returns the previous value, read through the
list iterator. -/
def stepInput (tolerance : Int) : DownsampleInput ListIter :=
  { mint := 0, step := 10, colLen := 3,
    interpolateFunc := fun _ _ tSeek prevV _ => (tSeek, prevV),
    tolerance := tolerance, iter := listIter }

/-- An iterator at the start of two samples, at the times 5 and 15. -/
def twoSamples : ListIter := { samples := [(5, 100), (15, 200)], pos := 0 }

/-- An iterator at the start of two samples that are `2^63` apart, at the times `11 - 2^63`
and 11. -/
def farSamples : ListIter :=
  { samples := [(-9223372036854775797, 100), (11, 200)], pos := 0 }

end pquerier

/-! ## Chunk metadata word -/

namespace chunkenc

theorem mul_pow_or_eq_add (a b i : Nat) (h : b < 2 ^ i) : a * 2 ^ i ||| b = a * 2 ^ i + b := by
  rw [Nat.mul_comm a (2 ^ i)]
  exact (Nat.mul_add_lt_is_or h a).symm

/-- On in-range fields the or of the shifted fields is their sum: the fields do not overlap. -/
theorem toMetadata_eq_sum (count length priv bits encode : Nat)
    (hc : count < 2 ^ 16) (hl : length < 2 ^ 16) (hp : priv < 2 ^ 16)
    (hb : bits < 2 ^ 8) (he : encode < 2 ^ 8) :
    toMetadata count length priv bits encode
      = encode * 2 ^ 56 + bits * 2 ^ 48 + length * 2 ^ 32 + priv * 2 ^ 16 + count := by
  unfold toMetadata
  simp only [Nat.shiftLeft_eq]
  have e1 : (encode * 2 ^ 56) % 2 ^ 64 = encode * 2 ^ 56 := Nat.mod_eq_of_lt (by omega)
  have e2 : (bits * 2 ^ 48) % 2 ^ 64 = bits * 2 ^ 48 := Nat.mod_eq_of_lt (by omega)
  have e3 : (length * 2 ^ 32) % 2 ^ 64 = length * 2 ^ 32 := Nat.mod_eq_of_lt (by omega)
  have e4 : (priv * 2 ^ 16) % 2 ^ 64 = priv * 2 ^ 16 := Nat.mod_eq_of_lt (by omega)
  rw [e1, e2, e3, e4]
  have s1 : encode * 2 ^ 56 ||| bits * 2 ^ 48 = (encode * 2 ^ 8 + bits) * 2 ^ 48 := by
    have h := mul_pow_or_eq_add encode (bits * 2 ^ 48) 56 (by omega)
    rw [h]; omega
  have s2 : (encode * 2 ^ 8 + bits) * 2 ^ 48 ||| length * 2 ^ 32
      = ((encode * 2 ^ 8 + bits) * 2 ^ 16 + length) * 2 ^ 32 := by
    have h := mul_pow_or_eq_add (encode * 2 ^ 8 + bits) (length * 2 ^ 32) 48 (by omega)
    rw [h]; omega
  have s3 : ((encode * 2 ^ 8 + bits) * 2 ^ 16 + length) * 2 ^ 32 ||| priv * 2 ^ 16
      = (((encode * 2 ^ 8 + bits) * 2 ^ 16 + length) * 2 ^ 16 + priv) * 2 ^ 16 := by
    have h := mul_pow_or_eq_add ((encode * 2 ^ 8 + bits) * 2 ^ 16 + length) (priv * 2 ^ 16) 32
      (by omega)
    rw [h]; omega
  rw [s1, s2, s3, mul_pow_or_eq_add _ count 16 hc]
  omega

/-- C1: for 16-bit `count`, `length`, `priv` and 8-bit `bits`, `encode`, unpacking the packed
metadata word gives back exactly the five fields. -/
theorem getMetadata_toMetadata (count length priv bits encode : Nat)
    (hc : count < 2 ^ 16) (hl : length < 2 ^ 16) (hp : priv < 2 ^ 16)
    (hb : bits < 2 ^ 8) (he : encode < 2 ^ 8) :
    getMetadata (toMetadata count length priv bits encode)
      = { Count := count, Length := length, Private := priv, Bits := bits, Encode := encode } := by
  rw [toMetadata_eq_sum count length priv bits encode hc hl hp hb he]
  simp only [getMetadata, Nat.shiftRight_eq_div_pow, ChunkMetadata.mk.injEq]
  refine ⟨?_, ?_, ?_, ?_, ?_⟩ <;> omega

/-- C1 at the fields `count = 513`, `length = 1027`, `priv = 65535`, `bits = 7`, `encode = 1`. -/
theorem getMetadata_toMetadata_witness :
    getMetadata (toMetadata 513 1027 65535 7 1)
      = { Count := 513, Length := 1027, Private := 65535, Bits := 7, Encode := 1 } :=
  getMetadata_toMetadata 513 1027 65535 7 1 (by decide) (by decide) (by decide) (by decide)
    (by decide)

/-- C2: `FromBuffer` fails exactly when the encoding byte (bits 56..63) of the metadata word is
not `EncXOR`, and otherwise returns the chunk over `buffer` whose sample count is the low 16
bits and whose bit count is bits 48..55 of the word; `FromData` fails exactly when its encoding
is not `EncXOR`, and otherwise returns the chunk over its data with the given sample count. -/
theorem FromBuffer_FromData_error_iff (m : Nat) (buffer : List Nat) (e : Nat) (d : List Nat)
    (n : Nat) :
    ((∃ msg, FromBuffer m buffer = .error msg) ↔ (m >>> 56) % 2 ^ 8 ≠ EncXOR)
    ∧ ((m >>> 56) % 2 ^ 8 = EncXOR →
        FromBuffer m buffer
          = .ok { b := { count := (m >>> 48) % 2 ^ 8, stream := buffer }, samples := m % 2 ^ 16 })
    ∧ ((∃ msg, FromData e d n = .error msg) ↔ e ≠ EncXOR)
    ∧ (e = EncXOR → FromData e d n = .ok { b := { count := 0, stream := d }, samples := n }) := by
  refine ⟨?_, ?_, ?_, ?_⟩
  · simp only [FromBuffer, getMetadata]
    by_cases h : (m >>> 56) % 2 ^ 8 = EncXOR
    · rw [if_pos h]
      constructor
      · rintro ⟨msg, hm⟩
        cases hm
      · intro hne
        exact absurd h hne
    · rw [if_neg h]
      exact ⟨fun _ => h, fun _ => ⟨_, rfl⟩⟩
  · intro h
    simp only [FromBuffer, getMetadata]
    rw [if_pos h]
  · simp only [FromData]
    by_cases h : e = EncXOR
    · rw [if_pos h]
      constructor
      · rintro ⟨msg, hm⟩
        cases hm
      · intro hne
        exact absurd h hne
    · rw [if_neg h]
      exact ⟨fun _ => h, fun _ => ⟨_, rfl⟩⟩
  · intro h
    simp only [FromData]
    rw [if_pos h]

end chunkenc

/-! ## Chunk store: `Append` -/

namespace appender

open model

theorem xor1_ne (i : Fin 2) : xor1 i ≠ i := by
  revert i; decide

theorem xor1_xor1 (i : Fin 2) : xor1 (xor1 i) = i := by
  revert i; decide

theorem chunks_setChunk_same {A : Type} (cs : chunkStore A) (i : Fin 2) (c : attrAppender A) :
    (cs.setChunk i c).chunks i = c := by
  by_cases h : i = 0 <;> simp [chunkStore.setChunk, chunkStore.chunks, h]

theorem chunks_setChunk_other {A : Type} (cs : chunkStore A) (i j : Fin 2) (c : attrAppender A)
    (h : j ≠ i) : (cs.setChunk i c).chunks j = cs.chunks j := by
  by_cases hi : i = 0 <;> by_cases hj : j = 0 <;>
    simp [chunkStore.setChunk, chunkStore.chunks, hi, hj]
  all_goals omega

theorem state_setChunk {A : Type} (cs : chunkStore A) (i : Fin 2) (c : attrAppender A) :
    (cs.setChunk i c).state = cs.state := by
  by_cases h : i = 0 <;> simp [chunkStore.setChunk, h]

theorem curChunk_setChunk {A : Type} (cs : chunkStore A) (i : Fin 2) (c : attrAppender A) :
    (cs.setChunk i c).curChunk = cs.curChunk := by
  by_cases h : i = 0 <;> simp [chunkStore.setChunk, h]

theorem pending_setChunk {A : Type} (cs : chunkStore A) (i : Fin 2) (c : attrAppender A) :
    (cs.setChunk i c).pending = cs.pending := by
  by_cases h : i = 0 <;> simp [chunkStore.setChunk, h]

theorem wrapInt64_of_range (x : Int) (h1 : -(2 : Int) ^ 63 ≤ x) (h2 : x < 2 ^ 63) :
    wrapInt64 x = x := by
  unfold wrapInt64
  omega

theorem appendTo_some {A : Type} (d : Deps A) (x : attrAppender A) (a : A) (t : Int)
    (v : float64) (h : x.appender = some a) :
    appendTo d x t v
      = some { x with appender := some (d.chunk.Append a t v), lastT := max x.lastT t } := by
  unfold appendTo
  rw [h]
  by_cases ht : t > x.lastT
  · simp [ht, max_eq_right (le_of_lt ht)]
  · simp [ht, max_eq_left (not_lt.mp ht)]

theorem not_pending_state {A : Type} (cs : chunkStore A)
    (hst : cs.state = .storeStateReady ∨ cs.state = .storeStateUpdate) :
    ¬ (cs.state = .storeStateGet ∨ cs.state = .storeStateInit) := by
  rcases hst with h | h <;> simp [h]

theorem chunks_WF {A : Type} (cs : chunkStore A) (hwf : cs.WF) (i : Fin 2) :
    (cs.chunks i).WF := by
  unfold chunkStore.chunks
  by_cases h : i = 0
  · rw [if_pos h]; exact hwf.1
  · rw [if_neg h]; exact hwf.2.1

/-- C3: in state Ready or Updating, an append at `t ≥ maxt` of the current buffer while the
other slot has `writing = true` returns an error and leaves the whole store unchanged. -/
theorem Append_forward_conflict {A : Type} (d : Deps A) (cs : chunkStore A) (t : Int)
    (v : float64)
    (hst : cs.state = .storeStateReady ∨ cs.state = .storeStateUpdate)
    (ht : t ≥ (cs.chunks cs.curChunk).maxt)
    (hw : (cs.chunks (xor1 cs.curChunk)).writing = true) :
    ∃ e, Append d cs t v = .err e cs := by
  have hns := not_pending_state cs hst
  have hwin : ¬ (t ≥ (cs.chunks cs.curChunk).mint ∧ t < (cs.chunks cs.curChunk).maxt) := by
    intro h; omega
  refine ⟨errInFlight t, ?_⟩
  unfold Append
  rw [if_neg hns]
  simp only []
  rw [if_neg hwin, if_pos ht, if_pos hw]

/-- C5: in state Ready or Updating, an append at `mint ≤ t < maxt` of the current buffer returns
no error, passes exactly the sample `(t, v)` to the current buffer's appender, sets its `lastT`
to `max lastT t`, and changes nothing else in the store. -/
theorem Append_in_window {A : Type} (d : Deps A) (cs : chunkStore A) (t : Int) (v : float64)
    (hwf : cs.WF)
    (hst : cs.state = .storeStateReady ∨ cs.state = .storeStateUpdate)
    (h1 : (cs.chunks cs.curChunk).mint ≤ t) (h2 : t < (cs.chunks cs.curChunk).maxt) :
    ∃ a cs1, (cs.chunks cs.curChunk).appender = some a
      ∧ Append d cs t v = .ok cs1
      ∧ cs1.chunks cs.curChunk
          = { cs.chunks cs.curChunk with
                appender := some (d.chunk.Append a t v),
                lastT := max (cs.chunks cs.curChunk).lastT t }
      ∧ cs1.chunks (xor1 cs.curChunk) = cs.chunks (xor1 cs.curChunk)
      ∧ cs1.curChunk = cs.curChunk ∧ cs1.state = cs.state ∧ cs1.pending = cs.pending := by
  have hns := not_pending_state cs hst
  have hcur : (cs.chunks cs.curChunk).WF := chunks_WF cs hwf cs.curChunk
  have hsome : ∃ a, (cs.chunks cs.curChunk).appender = some a := by
    cases ha : (cs.chunks cs.curChunk).appender with
    | none =>
      have := hcur.1 ha
      omega
    | some a => exact ⟨a, rfl⟩
  obtain ⟨a, ha⟩ := hsome
  refine ⟨a, _, ha, ?_, chunks_setChunk_same _ _ _,
    chunks_setChunk_other _ _ _ _ (xor1_ne _), curChunk_setChunk _ _ _, state_setChunk _ _ _,
    pending_setChunk _ _ _⟩
  unfold Append
  rw [if_neg hns]
  simp only []
  rw [if_pos ⟨h1, h2⟩, appendTo_some d _ a t v ha]

theorem MAX_LATE_WRITE_eq : MAX_LATE_WRITE = 212400000 := by
  unfold MAX_LATE_WRITE; norm_num

/-- The late-write branch of `Append`: reached when `t` is below the window of a well-formed
current buffer. -/
theorem Append_late_eq {A : Type} (d : Deps A) (cs : chunkStore A) (t : Int) (v : float64)
    (hwf : cs.WF)
    (hst : cs.state = .storeStateReady ∨ cs.state = .storeStateUpdate)
    (ht : t < (cs.chunks cs.curChunk).mint) :
    Append d cs t v =
      if t ≥ (cs.chunks (xor1 cs.curChunk)).mint ∧ t < (cs.chunks (xor1 cs.curChunk)).maxt
          ∧ t > (cs.chunks cs.curChunk).lastT - MAX_LATE_WRITE then
        match appendTo d (cs.chunks (xor1 cs.curChunk)) t v with
        | none => .panic
        | some prev1 => .ok (cs.setChunk (xor1 cs.curChunk) prev1)
      else .ok cs := by
  have hns := not_pending_state cs hst
  have hcur := chunks_WF cs hwf cs.curChunk
  have hwin : ¬ (t ≥ (cs.chunks cs.curChunk).mint ∧ t < (cs.chunks cs.curChunk).maxt) := by
    intro h; omega
  have hfw : ¬ (t ≥ (cs.chunks cs.curChunk).maxt) := by
    have := hcur.2.1
    omega
  have hwrap : wrapInt64 ((cs.chunks cs.curChunk).lastT - MAX_LATE_WRITE)
      = (cs.chunks cs.curChunk).lastT - MAX_LATE_WRITE := by
    apply wrapInt64_of_range
    · have := hcur.2.2.1
      rw [MAX_LATE_WRITE_eq]; omega
    · have := hcur.2.2.2
      rw [MAX_LATE_WRITE_eq]; omega
  unfold Append
  rw [if_neg hns]
  simp only []
  rw [if_neg hwin, if_neg hfw, hwrap]

/-- C4: in state Ready or Updating, an append at `t` below the current buffer's `mint` returns
no error; the sample is passed to the previous buffer (whose `lastT` becomes `max lastT t`)
when `mint_prev ≤ t < maxt_prev` and `t > lastT_current - MAX_LATE_WRITE`, and in every other
case the store is left unchanged. In particular a sample at `lastT_current - MAX_LATE_WRITE - 1`
is dropped and one at `lastT_current - MAX_LATE_WRITE + 1` inside the previous window is
accepted. -/
theorem Append_late_write {A : Type} (d : Deps A) (cs : chunkStore A) (t : Int) (v : float64)
    (hwf : cs.WF)
    (hst : cs.state = .storeStateReady ∨ cs.state = .storeStateUpdate)
    (ht : t < (cs.chunks cs.curChunk).mint) :
    (((cs.chunks (xor1 cs.curChunk)).mint ≤ t ∧ t < (cs.chunks (xor1 cs.curChunk)).maxt
        ∧ t > (cs.chunks cs.curChunk).lastT - MAX_LATE_WRITE) →
      ∃ a, (cs.chunks (xor1 cs.curChunk)).appender = some a
        ∧ Append d cs t v = .ok (cs.setChunk (xor1 cs.curChunk)
            { cs.chunks (xor1 cs.curChunk) with
                appender := some (d.chunk.Append a t v),
                lastT := max (cs.chunks (xor1 cs.curChunk)).lastT t }))
    ∧ (¬ ((cs.chunks (xor1 cs.curChunk)).mint ≤ t ∧ t < (cs.chunks (xor1 cs.curChunk)).maxt
        ∧ t > (cs.chunks cs.curChunk).lastT - MAX_LATE_WRITE) →
      Append d cs t v = .ok cs)
    ∧ (t = (cs.chunks cs.curChunk).lastT - MAX_LATE_WRITE - 1 → Append d cs t v = .ok cs)
    ∧ (t = (cs.chunks cs.curChunk).lastT - MAX_LATE_WRITE + 1 →
        (cs.chunks (xor1 cs.curChunk)).mint ≤ t → t < (cs.chunks (xor1 cs.curChunk)).maxt →
        ∃ a, (cs.chunks (xor1 cs.curChunk)).appender = some a
          ∧ Append d cs t v = .ok (cs.setChunk (xor1 cs.curChunk)
              { cs.chunks (xor1 cs.curChunk) with
                  appender := some (d.chunk.Append a t v),
                  lastT := max (cs.chunks (xor1 cs.curChunk)).lastT t })) := by
  have heq := Append_late_eq d cs t v hwf hst ht
  have hprev := chunks_WF cs hwf (xor1 cs.curChunk)
  have accept : ((cs.chunks (xor1 cs.curChunk)).mint ≤ t ∧ t < (cs.chunks (xor1 cs.curChunk)).maxt
        ∧ t > (cs.chunks cs.curChunk).lastT - MAX_LATE_WRITE) →
      ∃ a, (cs.chunks (xor1 cs.curChunk)).appender = some a
        ∧ Append d cs t v = .ok (cs.setChunk (xor1 cs.curChunk)
            { cs.chunks (xor1 cs.curChunk) with
                appender := some (d.chunk.Append a t v),
                lastT := max (cs.chunks (xor1 cs.curChunk)).lastT t }) := by
    intro hc
    cases ha : (cs.chunks (xor1 cs.curChunk)).appender with
    | none =>
      have := hprev.1 ha
      omega
    | some a =>
      refine ⟨a, rfl, ?_⟩
      rw [heq, if_pos hc, appendTo_some d _ a t v ha]
  have drop : (¬ ((cs.chunks (xor1 cs.curChunk)).mint ≤ t ∧ t < (cs.chunks (xor1 cs.curChunk)).maxt
        ∧ t > (cs.chunks cs.curChunk).lastT - MAX_LATE_WRITE) →
      Append d cs t v = .ok cs) := by
    intro hc
    rw [heq, if_neg hc]
  refine ⟨accept, drop, ?_, ?_⟩
  · intro h
    apply drop
    intro hc
    omega
  · intro h h1 h2
    apply accept
    refine ⟨h1, h2, ?_⟩
    omega

/-- C3 at `store2` and `t = 7200000`, the end of the current window, while slot 1 is writing. -/
theorem Append_forward_conflict_witness :
    (store2.state = .storeStateReady ∨ store2.state = .storeStateUpdate)
    ∧ (7200000 : Int) ≥ (store2.chunks store2.curChunk).maxt
    ∧ (store2.chunks (xor1 store2.curChunk)).writing = true
    ∧ ∃ e, Append deps store2 7200000 9 = .err e store2 :=
  ⟨by decide, by decide, by decide,
    Append_forward_conflict deps store2 7200000 9 (by decide) (by decide) (by decide)⟩

/-- C5 at `store2` and `t = 3600005`, inside the current window `[3600000, 7200000)`. -/
theorem Append_in_window_witness :
    store2.WF
    ∧ (store2.state = .storeStateReady ∨ store2.state = .storeStateUpdate)
    ∧ (store2.chunks store2.curChunk).mint ≤ 3600005
    ∧ (3600005 : Int) < (store2.chunks store2.curChunk).maxt
    ∧ ∃ a cs1, (store2.chunks store2.curChunk).appender = some a
      ∧ Append deps store2 3600005 9 = .ok cs1
      ∧ cs1.chunks store2.curChunk
          = { store2.chunks store2.curChunk with
                appender := some (deps.chunk.Append a 3600005 9),
                lastT := max (store2.chunks store2.curChunk).lastT 3600005 }
      ∧ cs1.chunks (xor1 store2.curChunk) = store2.chunks (xor1 store2.curChunk)
      ∧ cs1.curChunk = store2.curChunk ∧ cs1.state = store2.state
      ∧ cs1.pending = store2.pending :=
  ⟨by decide, by decide, by decide, by decide,
    Append_in_window deps store2 3600005 9 (by decide) (by decide) (by decide) (by decide)⟩

/-- C4 at `store2` and `t = 1000`: below the current window, inside the previous window
`[0, 3600000)` and within the look-back of `lastT = 3600000`, so the sample is accepted. -/
theorem Append_late_write_witness :
    store2.WF
    ∧ (store2.state = .storeStateReady ∨ store2.state = .storeStateUpdate)
    ∧ (1000 : Int) < (store2.chunks store2.curChunk).mint
    ∧ Append deps store2 1000 9 = .ok (store2.setChunk 1
        { store2.chunks 1 with
            appender := some { samples := [(0, 5), (1000, 9)], offset := 0 },
            lastT := 1000 }) :=
  ⟨by decide, by decide, by decide, by
    obtain ⟨a, ha, h⟩ := (Append_late_write deps store2 1000 9 (by decide) (by decide)
      (by decide)).1 (by decide)
    cases ha
    exact h⟩

end appender

/-! ## Chunk store: invariants of the reachable stores -/

namespace appender

theorem setChunk_chunks0 {A : Type} (cs : chunkStore A) (i : Fin 2) (c : attrAppender A) :
    (cs.setChunk i c).chunks0 = if i = 0 then c else cs.chunks0 := by
  by_cases h : i = 0 <;> simp [chunkStore.setChunk, h]

theorem setChunk_chunks1 {A : Type} (cs : chunkStore A) (i : Fin 2) (c : attrAppender A) :
    (cs.setChunk i c).chunks1 = if i = 0 then cs.chunks1 else c := by
  by_cases h : i = 0 <;> simp [chunkStore.setChunk, h]

/-- A property of slots that holds of both slots of `cs` and of `c` holds of both slots after
`c` is stored. -/
theorem setChunk_slots {A : Type} (P : attrAppender A → Prop) (cs : chunkStore A) (i : Fin 2)
    (c : attrAppender A) (h0 : P cs.chunks0) (h1 : P cs.chunks1) (hc : P c) :
    P (cs.setChunk i c).chunks0 ∧ P (cs.setChunk i c).chunks1 := by
  rw [setChunk_chunks0, setChunk_chunks1]
  by_cases h : i = 0 <;> simp [h, h0, h1, hc]

theorem chunks_slots {A : Type} (P : attrAppender A → Prop) (cs : chunkStore A) (i : Fin 2)
    (h0 : P cs.chunks0) (h1 : P cs.chunks1) : P (cs.chunks i) := by
  unfold chunkStore.chunks
  by_cases h : i = 0
  · rw [if_pos h]; exact h0
  · rw [if_neg h]; exact h1

/-- What `appendTo` returns when it returns: the slot with a (non-nil) appender, `lastT` raised
to `t` if below, and every other field unchanged. -/
theorem appendTo_eq_some {A : Type} (d : Deps A) (x x1 : attrAppender A) (t : Int) (v : float64)
    (h : appendTo d x t v = some x1) :
    ∃ a, x.appender = some a
      ∧ x1 = { x with appender := some (d.chunk.Append a t v), lastT := max x.lastT t } := by
  cases ha : x.appender with
  | none => simp [appendTo, ha] at h
  | some a =>
    rw [appendTo_some d x a t v ha] at h
    exact ⟨a, rfl, (Option.some.inj h).symm⟩

/-- The shapes of the store after a call of `Append` that did not panic. -/
theorem Append_shape {A : Type} (d : Deps A) (cs cs1 : chunkStore A) (t : Int) (v : float64)
    (h : Append d cs t v = .ok cs1 ∨ ∃ e, Append d cs t v = .err e cs1) :
    cs1 = cs
    ∨ ((cs.state = .storeStateGet ∨ cs.state = .storeStateInit)
        ∧ cs1 = { cs with pending := cs.pending ++ [{ t := t, v := v }] })
    ∨ (¬ (cs.state = .storeStateGet ∨ cs.state = .storeStateInit)
        ∧ ∃ i a, (cs.chunks i).appender = some a
          ∧ (cs.chunks i).mint ≤ t ∧ t < (cs.chunks i).maxt
          ∧ cs1 = cs.setChunk i { cs.chunks i with
              appender := some (d.chunk.Append a t v), lastT := max (cs.chunks i).lastT t })
    ∨ (¬ (cs.state = .storeStateGet ∨ cs.state = .storeStateInit)
        ∧ (cs.chunks (xor1 cs.curChunk)).writing = false
        ∧ ∃ app, d.NewAppender = .ok app
          ∧ cs1 = { cs.setChunk (xor1 cs.curChunk)
              { appender := some (d.chunk.Append app t v), updMarker := 0, updCount := 0,
                lastT := max 0 t, mint := (d.Time2MinMax 0 t).1, maxt := (d.Time2MinMax 0 t).2,
                writing := false } with curChunk := xor1 cs.curChunk }) := by
  unfold Append at h
  by_cases hs : cs.state = .storeStateGet ∨ cs.state = .storeStateInit
  · rw [if_pos hs] at h
    rcases h with h | ⟨e, h⟩
    · right; left
      exact ⟨hs, (Result.ok.inj h).symm⟩
    · cases h
  · rw [if_neg hs] at h
    simp only [] at h
    by_cases hw : t ≥ (cs.chunks cs.curChunk).mint ∧ t < (cs.chunks cs.curChunk).maxt
    · rw [if_pos hw] at h
      cases hap : appendTo d (cs.chunks cs.curChunk) t v with
      | none =>
        rw [hap] at h
        rcases h with h | ⟨e, h⟩ <;> cases h
      | some c1 =>
        rw [hap] at h
        obtain ⟨a, ha, hc1⟩ := appendTo_eq_some d _ _ t v hap
        rcases h with h | ⟨e, h⟩
        · right; right; left
          refine ⟨hs, cs.curChunk, a, ha, hw.1, hw.2, ?_⟩
          rw [← hc1]
          exact (Result.ok.inj h).symm
        · cases h
    · rw [if_neg hw] at h
      by_cases hf : t ≥ (cs.chunks cs.curChunk).maxt
      · rw [if_pos hf] at h
        by_cases hwr : (cs.chunks (xor1 cs.curChunk)).writing = true
        · rw [if_pos hwr] at h
          rcases h with h | ⟨e, h⟩
          · cases h
          · left
            exact (Result.err.inj h).2.symm
        · rw [if_neg hwr] at h
          cases hna : d.NewAppender with
          | error e0 =>
            rw [hna] at h
            rcases h with h | ⟨e, h⟩
            · cases h
            · left
              exact (Result.err.inj h).2.symm
          | ok app =>
            rw [hna] at h
            simp only [] at h
            rw [appendTo_some d _ app t v rfl] at h
            rcases h with h | ⟨e, h⟩
            · right; right; right
              refine ⟨hs, by simpa using hwr, app, rfl, ?_⟩
              rw [← Result.ok.inj h]
              rfl
            · cases h
      · rw [if_neg hf] at h
        by_cases hl : t ≥ (cs.chunks (xor1 cs.curChunk)).mint
            ∧ t < (cs.chunks (xor1 cs.curChunk)).maxt
            ∧ t > wrapInt64 ((cs.chunks cs.curChunk).lastT - MAX_LATE_WRITE)
        · rw [if_pos hl] at h
          cases hap : appendTo d (cs.chunks (xor1 cs.curChunk)) t v with
          | none =>
            rw [hap] at h
            rcases h with h | ⟨e, h⟩ <;> cases h
          | some c1 =>
            rw [hap] at h
            obtain ⟨a, ha, hc1⟩ := appendTo_eq_some d _ _ t v hap
            rcases h with h | ⟨e, h⟩
            · right; right; left
              refine ⟨hs, xor1 cs.curChunk, a, ha, hl.1, hl.2.1, ?_⟩
              rw [← hc1]
              exact (Result.ok.inj h).symm
            · cases h
        · rw [if_neg hl] at h
          rcases h with h | ⟨e, h⟩
          · left
            exact (Result.ok.inj h).symm
          · cases h

/-- The loop of `ProcessWriteResp` over the pending samples keeps every property of the store
that `Append` keeps. -/
theorem replay_inv {A : Type} (d : Deps A) (P : chunkStore A → Prop) (Q : pendingData → Prop)
    (hstep : ∀ cs cs1 x, P cs → Q x →
      (Append d cs x.t x.v = .ok cs1 ∨ ∃ e, Append d cs x.t x.v = .err e cs1) → P cs1) :
    ∀ (xs : List pendingData) (cs cs1 : chunkStore A),
      (∀ x ∈ xs, Q x) → P cs → replay d cs xs = some cs1 → P cs1 := by
  intro xs
  induction xs with
  | nil =>
    intro cs cs1 _ hP h
    simp only [replay] at h
    cases h
    exact hP
  | cons x xs ih =>
    intro cs cs1 hQ hP h
    simp only [replay] at h
    have hx : Q x := hQ x (List.mem_cons_self _ _)
    have hxs : ∀ y ∈ xs, Q y := fun y hy => hQ y (List.mem_cons_of_mem _ hy)
    cases hap : Append d cs x.t x.v with
    | ok s =>
      rw [hap] at h
      exact ih s cs1 hxs (hstep cs s x hP hx (Or.inl hap)) h
    | err e s =>
      rw [hap] at h
      exact ih s cs1 hxs (hstep cs s x hP hx (Or.inr ⟨e, hap⟩)) h
    | panic =>
      rw [hap] at h
      cases h

/-- The shapes of the loop state after one iteration of the loop of `WriteChunks`: nothing
changed, or one slot with an appender holding more samples than `updCount` was flushed. -/
theorem writeChunk_shape {A : Type} (d : Deps A) (acc : WriteAcc A) (i : Nat) :
    writeChunk d acc i = acc
    ∨ ∃ slot a, (acc.cs.chunks slot).appender = some a
        ∧ d.chunk.NumSamples a > (acc.cs.chunks slot).updCount
        ∧ (writeChunk d acc i).cs =
            { acc.cs.setChunk slot
                { acc.cs.chunks slot with
                    updMarker := wrapInt64 ((wrapInt64 ((d.chunk.GetChunkBuffer a).2.1
                      + ((d.chunk.GetChunkBuffer a).2.2.length : Int) - 1)).tdiv 8 * 8),
                    updCount := d.chunk.NumSamples a,
                    writing := true }
              with state := .storeStateUpdate } := by
  unfold writeChunk
  simp only []
  generalize (if i % 2 = 1 then xor1 acc.cs.curChunk else acc.cs.curChunk) = slot
  cases ha : (acc.cs.chunks slot).appender with
  | none => left; rfl
  | some a =>
    simp only []
    by_cases ht : acc.tableId = -1 ∨ acc.tableId = d.Time2TableID (acc.cs.chunks slot).mint
    · rw [if_pos ht]
      by_cases hn : d.chunk.NumSamples a > (acc.cs.chunks slot).updCount
      · rw [if_pos hn]
        right
        refine ⟨slot, a, ha, hn, ?_⟩
        simp only [ha]
      · rw [if_neg hn]; left; rfl
    · rw [if_neg ht]; left; rfl

/-- The slot after the first loop of `ProcessWriteResp`: `writing` is cleared, the appender is
nil only if it was, and the other fields are unchanged. -/
theorem ackChunk_shape {A : Type} (d : Deps A) (c c1 : attrAppender A)
    (h : ackChunk d c = some c1) :
    c1.writing = false ∧ (c1.appender = none → c.appender = none)
      ∧ c1.mint = c.mint ∧ c1.maxt = c.maxt ∧ c1.lastT = c.lastT
      ∧ c1.updMarker = c.updMarker ∧ c1.updCount = c.updCount := by
  unfold ackChunk at h
  by_cases hw : c.writing = true
  · rw [if_pos hw] at h
    cases ha : c.appender with
    | none => rw [ha] at h; cases h
    | some a =>
      rw [ha] at h
      cases h
      simp
  · rw [if_neg hw] at h
    cases h
    simp at hw
    simp [hw]

theorem run_inv {A : Type} (d : Deps A) (P : chunkStore A → Prop)
    (hstep : ∀ cs cs1 op, P cs → step d cs op = some cs1 → P cs1) :
    ∀ (ops : List Op) (cs cs1 : chunkStore A), P cs → run d cs ops = some cs1 → P cs1 := by
  intro ops
  induction ops with
  | nil =>
    intro cs cs1 hP h
    simp only [run] at h
    cases h
    exact hP
  | cons op ops ih =>
    intro cs cs1 hP h
    simp only [run] at h
    cases hs : step d cs op with
    | none => rw [hs] at h; cases h
    | some s =>
      rw [hs] at h
      exact ih s cs1 (hstep cs s op hP hs) h

theorem NewChunkStore_WF (A : Type) : (NewChunkStore A).WF := by
  simp [NewChunkStore, chunkStore.WF, attrAppender.WF, attrAppender.NilEmpty]

theorem setChunk_WF {A : Type} (cs : chunkStore A) (i : Fin 2) (c : attrAppender A)
    (hwf : cs.WF) (hc : c.WF) : (cs.setChunk i c).WF := by
  obtain ⟨h0, h1⟩ := setChunk_slots attrAppender.WF cs i c hwf.1 hwf.2.1 hc
  refine ⟨h0, h1, ?_⟩
  rw [pending_setChunk]
  exact hwf.2.2

/-- `Append` with an `int64` timestamp keeps the store invariant. -/
theorem Append_keeps_WF {A : Type} (d : Deps A) (hd : d.WindowOk) (cs cs1 : chunkStore A)
    (t : Int) (v : float64) (hwf : cs.WF) (ht1 : -(2 : Int) ^ 63 ≤ t) (ht2 : t < 2 ^ 63)
    (h : Append d cs t v = .ok cs1 ∨ ∃ e, Append d cs t v = .err e cs1) : cs1.WF := by
  rcases Append_shape d cs cs1 t v h with h | ⟨_, h⟩ | ⟨_, i, a, ha, _, _, h⟩ | ⟨_, _, app, _, h⟩
  · rw [h]; exact hwf
  · rw [h]
    refine ⟨hwf.1, hwf.2.1, ?_⟩
    intro p hp
    simp only [List.mem_append, List.mem_singleton] at hp
    rcases hp with hp | hp
    · exact hwf.2.2 p hp
    · rw [hp]; exact ⟨ht1, ht2⟩
  · rw [h]
    apply setChunk_WF cs i _ hwf
    have hc := chunks_WF cs hwf i
    refine ⟨?_, hc.2.1, ?_, ?_⟩
    · intro hn; cases hn
    · exact le_max_of_le_left hc.2.2.1
    · exact max_lt hc.2.2.2 ht2
  · rw [h]
    have hs : (cs.setChunk (xor1 cs.curChunk)
        { appender := some (d.chunk.Append app t v), updMarker := 0, updCount := 0,
          lastT := max 0 t, mint := (d.Time2MinMax 0 t).1, maxt := (d.Time2MinMax 0 t).2,
          writing := false }).WF := by
      apply setChunk_WF cs _ _ hwf
      refine ⟨?_, hd t, ?_, ?_⟩
      · intro hn; cases hn
      · exact le_max_left _ _
      · exact max_lt (by norm_num) ht2
    exact hs

theorem writeChunk_keeps_WF {A : Type} (d : Deps A) (acc : WriteAcc A) (i : Nat)
    (hwf : acc.cs.WF) : (writeChunk d acc i).cs.WF := by
  rcases writeChunk_shape d acc i with h | ⟨slot, a, ha, _, h⟩
  · rw [h]; exact hwf
  · rw [h]
    have hc := chunks_WF acc.cs hwf slot
    have hs : (acc.cs.setChunk slot
        { acc.cs.chunks slot with
            updMarker := wrapInt64 ((wrapInt64 ((d.chunk.GetChunkBuffer a).2.1
              + ((d.chunk.GetChunkBuffer a).2.2.length : Int) - 1)).tdiv 8 * 8),
            updCount := d.chunk.NumSamples a,
            writing := true }).WF := by
      apply setChunk_WF acc.cs _ _ hwf
      refine ⟨?_, hc.2.1, hc.2.2.1, hc.2.2.2⟩
      intro hn
      exact hc.1 hn
    exact hs

theorem WriteChunks_keeps_WF {A : Type} (d : Deps A) (cfgPath : String) (metric : MetricState)
    (cs : chunkStore A) (hwf : cs.WF) : (WriteChunks d cfgPath metric cs).cs.WF := by
  unfold WriteChunks
  by_cases hs : cs.state = .storeStateGet
  · rw [if_pos hs]; exact hwf
  · rw [if_neg hs]
    exact writeChunk_keeps_WF d _ 2 (writeChunk_keeps_WF d _ 1 hwf)

theorem ackChunk_keeps_WF {A : Type} (d : Deps A) (c c1 : attrAppender A) (hc : c.WF)
    (h : ackChunk d c = some c1) : c1.WF := by
  obtain ⟨_, hnil, hmint, hmaxt, hlast, _, _⟩ := ackChunk_shape d c c1 h
  refine ⟨?_, ?_, ?_, ?_⟩
  · intro hn
    rw [hmint, hmaxt]
    exact hc.1 (hnil hn)
  · rw [hmint, hmaxt]; exact hc.2.1
  · rw [hlast]; exact hc.2.2.1
  · rw [hlast]; exact hc.2.2.2

/-- The store before the loop over the pending samples, and the loop, in a call of
`ProcessWriteResp` that returns. -/
theorem ProcessWriteResp_eq_some {A : Type} (d : Deps A) (cs cs1 : chunkStore A)
    (h : ProcessWriteResp d cs = some cs1) :
    ∃ c0 c1, ackChunk d cs.chunks0 = some c0 ∧ ackChunk d cs.chunks1 = some c1
      ∧ replay d { cs with chunks0 := c0, chunks1 := c1, state := .storeStateReady } cs.pending
          = some cs1 := by
  unfold ProcessWriteResp at h
  cases h0 : ackChunk d cs.chunks0 with
  | none => rw [h0] at h; cases h
  | some c0 =>
    rw [h0] at h
    cases h1 : ackChunk d cs.chunks1 with
    | none => rw [h1] at h; cases h
    | some c1 =>
      rw [h1] at h
      exact ⟨c0, c1, rfl, rfl, h⟩

theorem ProcessWriteResp_keeps_WF {A : Type} (d : Deps A) (hd : d.WindowOk)
    (cs cs1 : chunkStore A) (hwf : cs.WF) (h : ProcessWriteResp d cs = some cs1) : cs1.WF := by
  obtain ⟨c0, c1, h0, h1, hr⟩ := ProcessWriteResp_eq_some d cs cs1 h
  refine replay_inv d chunkStore.WF (fun x => -(2 : Int) ^ 63 ≤ x.t ∧ x.t < 2 ^ 63) ?_
    cs.pending _ cs1 hwf.2.2 ?_ hr
  · intro s s1 x hs hx hap
    exact Append_keeps_WF d hd s s1 x.t x.v hs hx.1 hx.2 hap
  · exact ⟨ackChunk_keeps_WF d _ _ hwf.1 h0, ackChunk_keeps_WF d _ _ hwf.2.1 h1, hwf.2.2⟩

theorem step_keeps_WF {A : Type} (d : Deps A) (hd : d.WindowOk) (cs cs1 : chunkStore A)
    (op : Op) (hwf : cs.WF) (h : step d cs op = some cs1) : cs1.WF := by
  cases op with
  | append t v =>
    simp only [step] at h
    by_cases ht : -(2 : Int) ^ 63 ≤ t ∧ t < 2 ^ 63
    · rw [if_pos ht] at h
      cases hap : Append d cs t v with
      | ok s =>
        rw [hap] at h
        cases h
        exact Append_keeps_WF d hd cs _ t v hwf ht.1 ht.2 (Or.inl hap)
      | err e s =>
        rw [hap] at h
        cases h
        exact Append_keeps_WF d hd cs _ t v hwf ht.1 ht.2 (Or.inr ⟨e, hap⟩)
      | panic => rw [hap] at h; cases h
    · rw [if_neg ht] at h; cases h
  | writeChunks cfgPath metric =>
    simp only [step] at h
    cases h
    exact WriteChunks_keeps_WF d cfgPath metric cs hwf
  | processWriteResp =>
    simp only [step] at h
    exact ProcessWriteResp_keeps_WF d hd cs cs1 hwf h

/-- Every chunk store reachable from `NewChunkStore()` satisfies the store invariant, whatever
the chunk implementation, as long as `utils.Time2MinMax` returns windows that are not
inverted. -/
theorem Reachable_WF {A : Type} (d : Deps A) (hd : d.WindowOk) (cs : chunkStore A)
    (h : Reachable d cs) : cs.WF := by
  obtain ⟨ops, hops⟩ := h
  exact run_inv d chunkStore.WF (fun s s1 op hs hst => step_keeps_WF d hd s s1 op hs hst)
    ops _ cs (NewChunkStore_WF A) hops

end appender

/-! ## Chunk store: the `writing` flags -/

namespace appender

open model

/-- A call of `Append` keeps the property that a slot is `writing` only in a store whose state
is `Update`. -/
theorem Append_keeps_writing {A : Type} (d : Deps A) (cs cs1 : chunkStore A) (t : Int)
    (v : float64)
    (hP : (cs.chunks0.writing = true → cs.state = .storeStateUpdate)
      ∧ (cs.chunks1.writing = true → cs.state = .storeStateUpdate))
    (h : Append d cs t v = .ok cs1 ∨ ∃ e, Append d cs t v = .err e cs1) :
    (cs1.chunks0.writing = true → cs1.state = .storeStateUpdate)
      ∧ (cs1.chunks1.writing = true → cs1.state = .storeStateUpdate) := by
  rcases Append_shape d cs cs1 t v h with h | ⟨_, h⟩ | ⟨_, i, a, ha, _, _, h⟩ | ⟨_, _, app, _, h⟩
  · rw [h]; exact hP
  · rw [h]; exact hP
  · rw [h, state_setChunk]
    apply setChunk_slots (fun c => c.writing = true → cs.state = .storeStateUpdate) cs i _
      hP.1 hP.2
    exact chunks_slots (fun c => c.writing = true → cs.state = .storeStateUpdate) cs i hP.1 hP.2
  · rw [h]
    have hs := setChunk_slots (fun c => c.writing = true → cs.state = .storeStateUpdate) cs
      (xor1 cs.curChunk)
      { appender := some (d.chunk.Append app t v), updMarker := 0, updCount := 0,
        lastT := max 0 t, mint := (d.Time2MinMax 0 t).1, maxt := (d.Time2MinMax 0 t).2,
        writing := false } hP.1 hP.2 (by intro hw; cases hw)
    simp only [state_setChunk]
    exact hs

theorem writeChunk_keeps_writing {A : Type} (d : Deps A) (acc : WriteAcc A) (i : Nat)
    (hP : (acc.cs.chunks0.writing = true → acc.cs.state = .storeStateUpdate)
      ∧ (acc.cs.chunks1.writing = true → acc.cs.state = .storeStateUpdate)) :
    ((writeChunk d acc i).cs.chunks0.writing = true
        → (writeChunk d acc i).cs.state = .storeStateUpdate)
      ∧ ((writeChunk d acc i).cs.chunks1.writing = true
        → (writeChunk d acc i).cs.state = .storeStateUpdate) := by
  rcases writeChunk_shape d acc i with h | ⟨slot, a, _, _, h⟩
  · rw [h]; exact hP
  · rw [h]
    exact ⟨fun _ => rfl, fun _ => rfl⟩

theorem step_keeps_writing {A : Type} (d : Deps A) (cs cs1 : chunkStore A) (op : Op)
    (hP : (cs.chunks0.writing = true → cs.state = .storeStateUpdate)
      ∧ (cs.chunks1.writing = true → cs.state = .storeStateUpdate))
    (h : step d cs op = some cs1) :
    (cs1.chunks0.writing = true → cs1.state = .storeStateUpdate)
      ∧ (cs1.chunks1.writing = true → cs1.state = .storeStateUpdate) := by
  cases op with
  | append t v =>
    simp only [step] at h
    by_cases ht : -(2 : Int) ^ 63 ≤ t ∧ t < 2 ^ 63
    · rw [if_pos ht] at h
      cases hap : Append d cs t v with
      | ok s =>
        rw [hap] at h
        cases h
        exact Append_keeps_writing d cs _ t v hP (Or.inl hap)
      | err e s =>
        rw [hap] at h
        cases h
        exact Append_keeps_writing d cs _ t v hP (Or.inr ⟨e, hap⟩)
      | panic => rw [hap] at h; cases h
    · rw [if_neg ht] at h; cases h
  | writeChunks cfgPath metric =>
    simp only [step] at h
    cases h
    unfold WriteChunks
    by_cases hs : cs.state = .storeStateGet
    · rw [if_pos hs]; exact hP
    · rw [if_neg hs]
      exact writeChunk_keeps_writing d _ 2 (writeChunk_keeps_writing d _ 1 hP)
  | processWriteResp =>
    simp only [step] at h
    obtain ⟨c0, c1, h0, h1, hr⟩ := ProcessWriteResp_eq_some d cs cs1 h
    refine replay_inv d
      (fun s => (s.chunks0.writing = true → s.state = .storeStateUpdate)
        ∧ (s.chunks1.writing = true → s.state = .storeStateUpdate))
      (fun _ => True) ?_ cs.pending _ cs1 (fun _ _ => trivial) ?_ hr
    · intro s s1 x hs _ hap
      exact Append_keeps_writing d s s1 x.t x.v hs hap
    · have w0 := (ackChunk_shape d _ _ h0).1
      have w1 := (ackChunk_shape d _ _ h1).1
      constructor
      · intro hw
        simp only [w0] at hw
        cases hw
      · intro hw
        simp only [w1] at hw
        cases hw

/-- C6, as the code has it: in every chunk store reachable from `NewChunkStore()` by calls of
`Append`, `WriteChunks` and `ProcessWriteResp`, a slot has `writing = true` only while the
store is in state `Update`; in the states `Init` and `Ready` no slot is writing. -/
theorem writing_only_in_update {A : Type} (d : Deps A) (cs : chunkStore A)
    (h : Reachable d cs) (i : Fin 2) (hw : (cs.chunks i).writing = true) :
    cs.state = .storeStateUpdate := by
  obtain ⟨ops, hops⟩ := h
  have hP := run_inv d
    (fun s => (s.chunks0.writing = true → s.state = .storeStateUpdate)
      ∧ (s.chunks1.writing = true → s.state = .storeStateUpdate))
    (fun s s1 op hs hst => step_keeps_writing d s s1 op hs hst)
    ops _ cs (by simp [NewChunkStore]) hops
  exact chunks_slots (fun c => c.writing = true → cs.state = .storeStateUpdate) cs i
    hP.1 hP.2 hw

/-- C6 at `store2`, reached by `opsStore2`, and its writing slot 1. -/
theorem writing_only_in_update_witness :
    Reachable deps store2 ∧ (store2.chunks 1).writing = true
      ∧ store2.state = .storeStateUpdate :=
  ⟨⟨opsStore2, by decide⟩, by decide,
    writing_only_in_update deps store2 ⟨opsStore2, by decide⟩ 1 (by decide)⟩

/-- C6 as stated fails: after `opsOneFlush` a single `WriteChunks` has flushed both buffers and
both slots have `writing = true`; after `opsTwoFlushes` the second `WriteChunks` has set
`writing` on slot 0 while the flush of slot 1 is still outstanding (this run does not depend on
the table ids: the slot flushed first has no new samples at the second call). -/
theorem both_slots_writing :
    (run deps (NewChunkStore Chunk) opsOneFlush).map
        (fun cs => (cs.chunks0.writing, cs.chunks1.writing)) = some (true, true)
    ∧ (run deps (NewChunkStore Chunk) opsTwoFlushes).map
        (fun cs => (cs.chunks0.writing, cs.chunks1.writing)) = some (true, true) := by
  constructor <;> decide

end appender

/-! ## Chunk store: `WriteChunks` and slots without new samples -/

namespace appender

open model

/-- An iteration of the loop of `WriteChunks` leaves `curChunk` as it is. -/
theorem writeChunk_curChunk {A : Type} (d : Deps A) (acc : WriteAcc A) (i : Nat) :
    (writeChunk d acc i).cs.curChunk = acc.cs.curChunk := by
  rcases writeChunk_shape d acc i with h | ⟨slot, a, _, _, h⟩
  · rw [h]
  · rw [h]
    exact curChunk_setChunk _ _ _

/-- An iteration of the loop of `WriteChunks` on a slot that has no appender, or whose chunk
holds no more samples than `updCount`, changes nothing. -/
theorem writeChunk_skip {A : Type} (d : Deps A) (acc : WriteAcc A) (i : Nat)
    (h : ∀ a, (acc.cs.chunks (if i % 2 = 1 then xor1 acc.cs.curChunk else acc.cs.curChunk)).appender
        = some a →
      d.chunk.NumSamples a
        ≤ (acc.cs.chunks (if i % 2 = 1 then xor1 acc.cs.curChunk else acc.cs.curChunk)).updCount) :
    writeChunk d acc i = acc := by
  unfold writeChunk
  simp only []
  revert h
  generalize (if i % 2 = 1 then xor1 acc.cs.curChunk else acc.cs.curChunk) = slot
  intro h
  cases ha : (acc.cs.chunks slot).appender with
  | none => rfl
  | some a =>
    simp only []
    have hn : ¬ d.chunk.NumSamples a > (acc.cs.chunks slot).updCount := not_lt.mpr (h a ha)
    rw [if_neg hn]
    simp

/-- An iteration of the loop of `WriteChunks` reads the loop variables, `curChunk` and the
visited slot only, and writes the loop variables and the visited slot only. -/
theorem writeChunk_congr {A : Type} (d : Deps A) (acc acc1 : WriteAcc A) (i : Nat)
    (ht : acc.tableId = acc1.tableId) (he : acc.expr = acc1.expr)
    (hn : acc.notInitialized = acc1.notInitialized)
    (hc : acc.cs.curChunk = acc1.cs.curChunk)
    (hs : acc.cs.chunks (if i % 2 = 1 then xor1 acc.cs.curChunk else acc.cs.curChunk)
      = acc1.cs.chunks (if i % 2 = 1 then xor1 acc.cs.curChunk else acc.cs.curChunk)) :
    (writeChunk d acc i).tableId = (writeChunk d acc1 i).tableId
    ∧ (writeChunk d acc i).expr = (writeChunk d acc1 i).expr
    ∧ (writeChunk d acc i).notInitialized = (writeChunk d acc1 i).notInitialized
    ∧ (∀ j, j ≠ (if i % 2 = 1 then xor1 acc.cs.curChunk else acc.cs.curChunk) →
        (writeChunk d acc i).cs.chunks j = acc.cs.chunks j
        ∧ (writeChunk d acc1 i).cs.chunks j = acc1.cs.chunks j) := by
  unfold writeChunk
  simp only []
  rw [← hc]
  revert hs
  generalize (if i % 2 = 1 then xor1 acc.cs.curChunk else acc.cs.curChunk) = slot
  intro hs
  rw [← hs, ← ht, ← he]
  cases ha : (acc.cs.chunks slot).appender with
  | none => exact ⟨ht, he, hn, fun j _ => ⟨rfl, rfl⟩⟩
  | some a =>
    simp only []
    by_cases h1 : acc.tableId = -1 ∨ acc.tableId = d.Time2TableID (acc.cs.chunks slot).mint
    · rw [if_pos h1, if_pos h1]
      by_cases h2 : d.chunk.NumSamples a > (acc.cs.chunks slot).updCount
      · rw [if_pos h2, if_pos h2]
        refine ⟨rfl, rfl, rfl, fun j hj => ⟨?_, ?_⟩⟩
        · exact chunks_setChunk_other _ _ _ _ hj
        · exact chunks_setChunk_other _ _ _ _ hj
      · rw [if_neg h2, if_neg h2]
        exact ⟨ht, he, hn, fun j _ => ⟨rfl, rfl⟩⟩
    · rw [if_neg h1, if_neg h1]
      exact ⟨ht, he, hn, fun j _ => ⟨rfl, rfl⟩⟩

theorem fin2_cases (i c : Fin 2) : i = c ∨ i = xor1 c := by
  revert i c; decide

theorem slot_one (c : Fin 2) : (if 1 % 2 = 1 then xor1 c else c) = xor1 c := rfl

theorem slot_two (c : Fin 2) : (if 2 % 2 = 1 then xor1 c else c) = c := rfl

/-- The loop of `WriteChunks` on a store in which slot `i` has nothing to flush, against the
same loop on a store that agrees with it outside slot `i`, where slot `i` has no appender. -/
theorem writeChunk_twice_skip {A : Type} (d : Deps A) (acc acc1 : WriteAcc A) (i : Fin 2)
    (h : ∀ a, (acc.cs.chunks i).appender = some a →
      d.chunk.NumSamples a ≤ (acc.cs.chunks i).updCount)
    (h1 : (acc1.cs.chunks i).appender = none)
    (ht : acc.tableId = acc1.tableId) (he : acc.expr = acc1.expr)
    (hn : acc.notInitialized = acc1.notInitialized)
    (hc : acc.cs.curChunk = acc1.cs.curChunk)
    (hs : ∀ j, j ≠ i → acc.cs.chunks j = acc1.cs.chunks j) :
    (writeChunk d (writeChunk d acc 1) 2).cs.chunks i = acc.cs.chunks i
    ∧ (writeChunk d (writeChunk d acc 1) 2).expr = (writeChunk d (writeChunk d acc1 1) 2).expr
    ∧ (writeChunk d (writeChunk d acc 1) 2).notInitialized
        = (writeChunk d (writeChunk d acc1 1) 2).notInitialized := by
  have hskip1 : ∀ (x : WriteAcc A) (k : Nat),
      (x.cs.chunks (if k % 2 = 1 then xor1 x.cs.curChunk else x.cs.curChunk)).appender = none →
      writeChunk d x k = x := by
    intro x k hx
    apply writeChunk_skip
    intro a ha
    rw [hx] at ha
    cases ha
  rcases fin2_cases i acc.cs.curChunk with hi | hi
  · -- slot `i` is the current slot, visited second
    have hj : xor1 acc.cs.curChunk ≠ i := by rw [hi]; exact xor1_ne _
    obtain ⟨c1, c2, c3, c4⟩ := writeChunk_congr d acc acc1 1 ht he hn hc
      (by rw [slot_one]; exact hs _ hj)
    rw [slot_one] at c4
    have k1 := c4 i (by intro h'; exact hj h'.symm)
    have e1 : writeChunk d (writeChunk d acc 1) 2 = writeChunk d acc 1 := by
      apply writeChunk_skip
      rw [slot_two, writeChunk_curChunk, ← hi, k1.1]
      exact h
    have e2 : writeChunk d (writeChunk d acc1 1) 2 = writeChunk d acc1 1 := by
      apply hskip1
      rw [slot_two, writeChunk_curChunk, ← hc, ← hi, k1.2]
      exact h1
    rw [e1, e2]
    exact ⟨k1.1, c2, c3⟩
  · -- slot `i` is the other slot, visited first
    have e1 : writeChunk d acc 1 = acc := by
      apply writeChunk_skip
      rw [slot_one, ← hi]
      exact h
    have e2 : writeChunk d acc1 1 = acc1 := by
      apply hskip1
      rw [slot_one, ← hc, ← hi]
      exact h1
    rw [e1, e2]
    have hj : acc.cs.curChunk ≠ i := by
      rw [hi]; exact (xor1_ne _).symm
    obtain ⟨c1, c2, c3, c4⟩ := writeChunk_congr d acc acc1 2 ht he hn hc
      (by rw [slot_two]; exact hs _ hj)
    rw [slot_two] at c4
    exact ⟨(c4 i (by intro h'; exact hj h'.symm)).1, c2, c3⟩

/-- C7, as the code has it: `WriteChunks` decides by the sample count, not by `writing`. A slot
whose chunk holds no more samples than its `updCount` (so a writing slot to which nothing was
appended since its outstanding flush) is left unchanged, `updMarker` and `updCount` included,
and contributes nothing to the update expression: the request is the one built for the same
store with no appender in that slot. -/
theorem WriteChunks_skips_flushed_slot {A : Type} (d : Deps A) (cfgPath : String)
    (metric : MetricState) (cs : chunkStore A) (i : Fin 2)
    (h : ∀ a, (cs.chunks i).appender = some a →
      d.chunk.NumSamples a ≤ (cs.chunks i).updCount) :
    (WriteChunks d cfgPath metric cs).cs.chunks i = cs.chunks i
    ∧ (WriteChunks d cfgPath metric cs).request
        = (WriteChunks d cfgPath metric
            (cs.setChunk i { cs.chunks i with appender := none })).request := by
  unfold WriteChunks
  rw [state_setChunk]
  by_cases hs : cs.state = .storeStateGet
  · rw [if_pos hs, if_pos hs]
    exact ⟨rfl, rfl⟩
  · rw [if_neg hs, if_neg hs]
    simp only []
    obtain ⟨k1, k2, k3⟩ := writeChunk_twice_skip d
      { cs := cs, tableId := -1, expr := "", notInitialized := false }
      { cs := cs.setChunk i { cs.chunks i with appender := none }, tableId := -1, expr := "",
        notInitialized := false } i h
      (by simp only [chunks_setChunk_same]) rfl rfl rfl (curChunk_setChunk _ _ _).symm
      (fun j hj => (chunks_setChunk_other _ _ _ _ hj).symm)
    refine ⟨k1, ?_⟩
    rw [k2, k3]

/-- C7 at `store1`, whose slot 1 is writing and holds exactly the one sample already flushed. -/
theorem WriteChunks_skips_flushed_slot_witness :
    (store1.chunks 1).writing = true
    ∧ (∀ a, (store1.chunks 1).appender = some a →
        deps.chunk.NumSamples a ≤ (store1.chunks 1).updCount)
    ∧ (WriteChunks deps "p" metric store1).cs.chunks 1 = store1.chunks 1
    ∧ (WriteChunks deps "p" metric store1).request
        = (WriteChunks deps "p" metric
            (store1.setChunk 1 { store1.chunks 1 with appender := none })).request :=
  have h : ∀ a, (store1.chunks 1).appender = some a →
      deps.chunk.NumSamples a ≤ (store1.chunks 1).updCount := by
    intro a ha
    cases ha
    decide
  ⟨by decide, h, WriteChunks_skips_flushed_slot deps "p" metric store1 1 h⟩

/-- C7 as stated fails: `store4`, reached by `opsStore4`, has `writing = true` on slot 1 with
`updMarker = 8` and `updCount = 1`, and one sample appended since that flush; `WriteChunks`
flushes the slot again, moving `updMarker` to 24 and `updCount` to 2, and the slot's
assignments make up the update expression. -/
theorem WriteChunks_flushes_writing_slot :
    run deps (NewChunkStore Chunk) opsStore4 = some store4
    ∧ store4.chunks1.writing = true
    ∧ store4.chunks1.updMarker = 8 ∧ store4.chunks1.updCount = 1
    ∧ (WriteChunks deps "p" metric store4).cs.chunks1.updMarker = 24
    ∧ (WriteChunks deps "p" metric store4).cs.chunks1.updCount = 2
    ∧ (WriteChunks deps "p" metric store4).request
        = some ("p/cpu.7",
            "_name='cpu'; host='a'; _lset='cpu.host=a'; _meta_v=init_array(24,'int'); "
              ++ "_v0=init_array(1024,'int'); _meta_v[0]=72057731476881410; "
              ++ "_v0[0]=0; _v0[1]=5; _v0[2]=5; _v0[3]=7; _maxtime=5") := by
  refine ⟨by decide, by decide, by decide, by decide, by decide, by decide, ?_⟩
  rfl

end appender

/-! ## Chunk store: the pending samples -/

namespace appender

open model

/-- In the states `Init` and `Get` a call of `Append` returns no error and only adds the sample
at the end of `pending`. -/
theorem Append_pending {A : Type} (d : Deps A) (cs : chunkStore A) (t : Int) (v : float64)
    (hst : cs.state = .storeStateInit ∨ cs.state = .storeStateGet) :
    Append d cs t v = .ok { cs with pending := cs.pending ++ [{ t := t, v := v }] } := by
  unfold Append
  rw [if_pos (Or.symm hst)]

/-- In the states `Ready` and `Update` a call of `Append` neither reads nor writes `pending`,
and leaves the state as it is. -/
theorem Append_frame {A : Type} (d : Deps A) (cs : chunkStore A) (p : List pendingData)
    (t : Int) (v : float64)
    (hst : cs.state = .storeStateReady ∨ cs.state = .storeStateUpdate) :
    Append d { cs with pending := p } t v
      = (Append d cs t v).map (fun s => { s with pending := p }) := by
  have hns := not_pending_state cs hst
  have hset : ∀ (i : Fin 2) (c : attrAppender A),
      ({ cs with pending := p } : chunkStore A).setChunk i c
        = { cs.setChunk i c with pending := p } := by
    intro i c
    by_cases h : i = 0 <;> simp [chunkStore.setChunk, h]
  have hch : ∀ (i : Fin 2), ({ cs with pending := p } : chunkStore A).chunks i = cs.chunks i := by
    intro i
    by_cases h : i = 0 <;> simp [chunkStore.chunks, h]
  unfold Append
  simp only [hch, hset]
  rw [if_neg hns, if_neg hns]
  by_cases hw : t ≥ (cs.chunks cs.curChunk).mint ∧ t < (cs.chunks cs.curChunk).maxt
  · rw [if_pos hw, if_pos hw]
    cases appendTo d (cs.chunks cs.curChunk) t v <;> rfl
  · rw [if_neg hw, if_neg hw]
    by_cases hf : t ≥ (cs.chunks cs.curChunk).maxt
    · rw [if_pos hf, if_pos hf]
      by_cases hwr : (cs.chunks (xor1 cs.curChunk)).writing = true
      · rw [if_pos hwr, if_pos hwr]; rfl
      · rw [if_neg hwr, if_neg hwr]
        cases d.NewAppender with
        | error e => rfl
        | ok app =>
          simp only []
          rw [appendTo_some d _ app t v rfl]
          rfl
    · rw [if_neg hf, if_neg hf]
      by_cases hl : t ≥ (cs.chunks (xor1 cs.curChunk)).mint
          ∧ t < (cs.chunks (xor1 cs.curChunk)).maxt
          ∧ t > wrapInt64 ((cs.chunks cs.curChunk).lastT - MAX_LATE_WRITE)
      · rw [if_pos hl, if_pos hl]
        cases appendTo d (cs.chunks (xor1 cs.curChunk)) t v <;> rfl
      · rw [if_neg hl, if_neg hl]; rfl

theorem Append_keeps_state {A : Type} (d : Deps A) (cs cs1 : chunkStore A) (t : Int)
    (v : float64) (h : Append d cs t v = .ok cs1 ∨ ∃ e, Append d cs t v = .err e cs1) :
    cs1.state = cs.state := by
  rcases Append_shape d cs cs1 t v h with h | ⟨_, h⟩ | ⟨_, i, a, _, _, _, h⟩ | ⟨_, _, app, _, h⟩
  · rw [h]
  · rw [h]
  · rw [h, state_setChunk]
  · rw [h]
    exact state_setChunk _ _ _

theorem appendEach_pending {A : Type} (d : Deps A) :
    ∀ (xs : List pendingData) (cs : chunkStore A),
      (cs.state = .storeStateInit ∨ cs.state = .storeStateGet) →
      appendEach d cs xs = some { cs with pending := cs.pending ++ xs } := by
  intro xs
  induction xs with
  | nil =>
    intro cs _
    simp [appendEach]
  | cons x xs ih =>
    intro cs hst
    simp only [appendEach]
    rw [Append_pending d cs x.t x.v hst]
    simp only []
    rw [ih { cs with pending := cs.pending ++ [{ t := x.t, v := x.v }] } hst]
    simp

/-- The replay loop of `ProcessWriteResp` on a store in state `Ready` or `Update` does what a
caller appending the same samples one by one does; `pending` is carried along unread. -/
theorem replay_eq_appendEach {A : Type} (d : Deps A) (p : List pendingData) :
    ∀ (xs : List pendingData) (cs : chunkStore A),
      (cs.state = .storeStateReady ∨ cs.state = .storeStateUpdate) →
      replay d { cs with pending := p } xs
        = (appendEach d cs xs).map (fun s => { s with pending := p }) := by
  intro xs
  induction xs with
  | nil =>
    intro cs _
    simp [replay, appendEach]
  | cons x xs ih =>
    intro cs hst
    simp only [replay, appendEach]
    rw [Append_frame d cs p x.t x.v hst]
    cases hap : Append d cs x.t x.v with
    | ok s =>
      have hs : s.state = cs.state := Append_keeps_state d cs s x.t x.v (Or.inl hap)
      simp only [Result.map]
      exact ih s (by rw [hs]; exact hst)
    | err e s =>
      have hs : s.state = cs.state := Append_keeps_state d cs s x.t x.v (Or.inr ⟨e, hap⟩)
      simp only [Result.map]
      exact ih s (by rw [hs]; exact hst)
    | panic =>
      simp [Result.map]

theorem appendEach_keeps_state {A : Type} (d : Deps A) :
    ∀ (xs : List pendingData) (cs cs1 : chunkStore A),
      appendEach d cs xs = some cs1 → cs1.state = cs.state := by
  intro xs
  induction xs with
  | nil =>
    intro cs cs1 h
    simp only [appendEach] at h
    cases h
    rfl
  | cons x xs ih =>
    intro cs cs1 h
    simp only [appendEach] at h
    cases hap : Append d cs x.t x.v with
    | ok s =>
      rw [hap] at h
      rw [ih s cs1 h, Append_keeps_state d cs s x.t x.v (Or.inl hap)]
    | err e s =>
      rw [hap] at h
      rw [ih s cs1 h, Append_keeps_state d cs s x.t x.v (Or.inr ⟨e, hap⟩)]
    | panic => rw [hap] at h; cases h

/-- On a store whose slots without an appender have the empty window, `Append` does not
panic. -/
theorem Append_returns {A : Type} (d : Deps A) (cs : chunkStore A) (t : Int) (v : float64)
    (h0 : cs.chunks0.NilEmpty) (h1 : cs.chunks1.NilEmpty) :
    ∃ cs1, Append d cs t v = .ok cs1 ∨ ∃ e, Append d cs t v = .err e cs1 := by
  have hsome : ∀ i, (cs.chunks i).mint ≤ t → t < (cs.chunks i).maxt →
      ∃ c, appendTo d (cs.chunks i) t v = some c := by
    intro i hm hx
    cases ha : (cs.chunks i).appender with
    | none =>
      have := chunks_slots attrAppender.NilEmpty cs i h0 h1 ha
      omega
    | some a => exact ⟨_, appendTo_some d _ a t v ha⟩
  unfold Append
  by_cases hs : cs.state = .storeStateGet ∨ cs.state = .storeStateInit
  · rw [if_pos hs]
    exact ⟨_, Or.inl rfl⟩
  · rw [if_neg hs]
    simp only []
    by_cases hw : t ≥ (cs.chunks cs.curChunk).mint ∧ t < (cs.chunks cs.curChunk).maxt
    · rw [if_pos hw]
      obtain ⟨c, hc⟩ := hsome cs.curChunk hw.1 hw.2
      rw [hc]
      exact ⟨_, Or.inl rfl⟩
    · rw [if_neg hw]
      by_cases hf : t ≥ (cs.chunks cs.curChunk).maxt
      · rw [if_pos hf]
        by_cases hwr : (cs.chunks (xor1 cs.curChunk)).writing = true
        · rw [if_pos hwr]
          exact ⟨_, Or.inr ⟨_, rfl⟩⟩
        · rw [if_neg hwr]
          cases d.NewAppender with
          | error e => exact ⟨_, Or.inr ⟨_, rfl⟩⟩
          | ok app =>
            simp only []
            rw [appendTo_some d _ app t v rfl]
            exact ⟨_, Or.inl rfl⟩
      · rw [if_neg hf]
        by_cases hl : t ≥ (cs.chunks (xor1 cs.curChunk)).mint
            ∧ t < (cs.chunks (xor1 cs.curChunk)).maxt
            ∧ t > wrapInt64 ((cs.chunks cs.curChunk).lastT - MAX_LATE_WRITE)
        · rw [if_pos hl]
          obtain ⟨c, hc⟩ := hsome (xor1 cs.curChunk) hl.1 hl.2.1
          rw [hc]
          exact ⟨_, Or.inl rfl⟩
        · rw [if_neg hl]
          exact ⟨_, Or.inl rfl⟩

theorem Append_keeps_NilEmpty {A : Type} (d : Deps A) (cs cs1 : chunkStore A) (t : Int)
    (v : float64) (hP : cs.chunks0.NilEmpty ∧ cs.chunks1.NilEmpty)
    (h : Append d cs t v = .ok cs1 ∨ ∃ e, Append d cs t v = .err e cs1) :
    cs1.chunks0.NilEmpty ∧ cs1.chunks1.NilEmpty := by
  rcases Append_shape d cs cs1 t v h with h | ⟨_, h⟩ | ⟨_, i, a, ha, _, _, h⟩ | ⟨_, _, app, _, h⟩
  · rw [h]; exact hP
  · rw [h]; exact hP
  · rw [h]
    exact setChunk_slots attrAppender.NilEmpty cs i _ hP.1 hP.2 (by intro hn; cases hn)
  · rw [h]
    exact setChunk_slots attrAppender.NilEmpty cs (xor1 cs.curChunk) _ hP.1 hP.2
      (by intro hn; cases hn)

theorem appendEach_returns {A : Type} (d : Deps A) :
    ∀ (xs : List pendingData) (cs : chunkStore A),
      cs.chunks0.NilEmpty → cs.chunks1.NilEmpty → ∃ cs1, appendEach d cs xs = some cs1 := by
  intro xs
  induction xs with
  | nil =>
    intro cs _ _
    exact ⟨cs, rfl⟩
  | cons x xs ih =>
    intro cs h0 h1
    simp only [appendEach]
    obtain ⟨s, hs⟩ := Append_returns d cs x.t x.v h0 h1
    have hn := Append_keeps_NilEmpty d cs s x.t x.v ⟨h0, h1⟩ hs
    rcases hs with hs | ⟨e, hs⟩
    · rw [hs]; exact ih s hn.1 hn.2
    · rw [hs]; exact ih s hn.1 hn.2

theorem ackChunk_not_writing {A : Type} (d : Deps A) (c : attrAppender A)
    (h : c.writing = false) : ackChunk d c = some c := by
  unfold ackChunk
  rw [h]
  rfl

/-- The pending list is the same after `ProcessWriteResp` as before: the samples are replayed
and stay in the list. -/
theorem ProcessWriteResp_keeps_pending {A : Type} (d : Deps A) (cs cs1 : chunkStore A)
    (h : ProcessWriteResp d cs = some cs1) : cs1.pending = cs.pending := by
  obtain ⟨c0, c1, _, _, hr⟩ := ProcessWriteResp_eq_some d cs cs1 h
  have hP := replay_inv d
    (fun s => s.pending = cs.pending
      ∧ (s.state = .storeStateReady ∨ s.state = .storeStateUpdate))
    (fun _ => True) ?_ cs.pending
    { cs with chunks0 := c0, chunks1 := c1, state := .storeStateReady } cs1
    (fun _ _ => trivial) ⟨rfl, Or.inl rfl⟩ hr
  · exact hP.1
  · intro s s1 x hs _ hap
    have hst := Append_keeps_state d s s1 x.t x.v hap
    have hns := not_pending_state s hs.2
    refine ⟨?_, by rw [hst]; exact hs.2⟩
    rcases Append_shape d s s1 x.t x.v hap with
      h | ⟨hh, _⟩ | ⟨_, i, a, _, _, _, h⟩ | ⟨_, _, app, _, h⟩
    · rw [h]; exact hs.1
    · exact absurd hh hns
    · rw [h, pending_setChunk]; exact hs.1
    · rw [h]
      simp only []
      rw [pending_setChunk]
      exact hs.1

/-- C8 on the code: a sample appended in state `Init` is replayed by the first
`ProcessWriteResp` and is still in `pending` afterwards; the second `ProcessWriteResp` replays
it again, so the buffer holds it twice. -/
theorem pending_replayed_by_every_response :
    (run deps (NewChunkStore Chunk) opsOneResponse).map
        (fun cs => (cs.pending, cs.chunks1.appender))
      = some ([{ t := 5, v := 9 }], some { samples := [(5, 9)], offset := 0 })
    ∧ (run deps (NewChunkStore Chunk) opsTwoResponses).map
        (fun cs => (cs.pending, cs.chunks1.appender))
      = some ([{ t := 5, v := 9 }], some { samples := [(5, 9), (5, 9)], offset := 0 }) := by
  constructor <;> decide

/-- C9: on a store in state `Init` or `Get` with empty `pending` and no slot writing, each
`Append` of a list `xs` of samples returns no error and only extends `pending`; a following
`ProcessWriteResp` then yields what appending `xs` one by one, in the same order, to the same
store in state `Ready` yields, up to `pending`: the state is `Ready`, and both buffers and
`curChunk` are the same. On a store whose slots without an appender have the empty window both
return. -/
theorem pending_replay_order {A : Type} (d : Deps A) (cs : chunkStore A)
    (xs : List pendingData)
    (hst : cs.state = .storeStateInit ∨ cs.state = .storeStateGet)
    (hp : cs.pending = [])
    (hw0 : cs.chunks0.writing = false) (hw1 : cs.chunks1.writing = false) :
    (∀ pre x post, xs = pre ++ x :: post →
        Append d { cs with pending := pre } x.t x.v = .ok { cs with pending := pre ++ [x] })
    ∧ appendEach d cs xs = some { cs with pending := xs }
    ∧ ProcessWriteResp d { cs with pending := xs }
        = (appendEach d { cs with state := .storeStateReady } xs).map
            (fun s => { s with pending := xs })
    ∧ (∀ s, appendEach d { cs with state := .storeStateReady } xs = some s →
        s.state = .storeStateReady)
    ∧ (cs.chunks0.NilEmpty → cs.chunks1.NilEmpty →
        ∃ s1 s2, ProcessWriteResp d { cs with pending := xs } = some s1
          ∧ appendEach d { cs with state := .storeStateReady } xs = some s2
          ∧ s1.state = .storeStateReady
          ∧ s1.chunks0 = s2.chunks0 ∧ s1.chunks1 = s2.chunks1
          ∧ s1.curChunk = s2.curChunk) := by
  have h3 : ProcessWriteResp d { cs with pending := xs }
      = (appendEach d { cs with state := .storeStateReady } xs).map
          (fun s => { s with pending := xs }) := by
    unfold ProcessWriteResp
    simp only []
    rw [ackChunk_not_writing d _ hw0, ackChunk_not_writing d _ hw1]
    simp only []
    have := replay_eq_appendEach d xs xs { cs with state := .storeStateReady } (Or.inl rfl)
    rw [← this]
  have h4 : ∀ s, appendEach d { cs with state := .storeStateReady } xs = some s →
      s.state = .storeStateReady := by
    intro s hs
    exact appendEach_keeps_state d xs _ s hs
  refine ⟨?_, ?_, h3, h4, ?_⟩
  · intro pre x post _
    exact Append_pending d { cs with pending := pre } x.t x.v hst
  · have := appendEach_pending d xs cs hst
    rw [hp] at this
    simpa using this
  · intro h0 h1
    obtain ⟨s2, hs2⟩ := appendEach_returns d xs { cs with state := .storeStateReady } h0 h1
    refine ⟨{ s2 with pending := xs }, s2, ?_, hs2, h4 s2 hs2, rfl, rfl, rfl⟩
    rw [h3, hs2]
    rfl

/-- C9 at a new store in state `Get` and the three samples `samples3`. -/
theorem pending_replay_order_witness :
    (storeGet.state = .storeStateInit ∨ storeGet.state = .storeStateGet)
    ∧ storeGet.pending = []
    ∧ storeGet.chunks0.writing = false ∧ storeGet.chunks1.writing = false
    ∧ ProcessWriteResp deps { storeGet with pending := samples3 }
        = (appendEach deps { storeGet with state := .storeStateReady } samples3).map
            (fun s => { s with pending := samples3 }) :=
  ⟨by decide, by decide, by decide, by decide,
    (pending_replay_order deps storeGet samples3 (by decide) (by decide) (by decide)
      (by decide)).2.2.1⟩

end appender

/-! ## Chunk store: the flush decisions for every chunk implementation -/

namespace appender

/-- Whatever the chunk implementation and the `utils` helpers are, as long as a new appender
is obtained and reports at least one sample after an append: two flushes without a response in
between leave both slots writing. -/
theorem two_flushes_both_writing {A : Type} (d : Deps A) (app : A) (v w : float64)
    (cfgPath : String) (metric : MetricState)
    (hnew : d.NewAppender = .ok app)
    (hpos : ∀ t x, 0 < d.chunk.NumSamples (d.chunk.Append app t x))
    (h1 : -(2 : Int) ^ 63 ≤ (d.Time2MinMax 0 0).2) (h2 : (d.Time2MinMax 0 0).2 < 2 ^ 63) :
    ∃ cs, run d (NewChunkStore A)
        [.processWriteResp, .append 0 v, .writeChunks cfgPath metric,
          .append (d.Time2MinMax 0 0).2 w, .writeChunks cfgPath metric] = some cs
      ∧ cs.chunks0.writing = true ∧ cs.chunks1.writing = true := by
  have p1 := hpos 0 v
  have p2 := hpos (d.Time2MinMax 0 0).2 w
  have hr : -(2 : Int) ^ 63 ≤ (d.Time2MinMax 0 0).2 ∧ (d.Time2MinMax 0 0).2 < 2 ^ 63 := ⟨h1, h2⟩
  have ha : ∀ (x : attrAppender A) (t : Int) (u : float64), x.appender = some app →
      appendTo d x t u
        = some { x with appender := some (d.chunk.Append app t u), lastT := max x.lastT t } :=
    fun x t u hx => appendTo_some d x app t u hx
  simp only [run, step, ProcessWriteResp, ackChunk, replay, NewChunkStore, Append, hnew,
    chunkStore.chunks, chunkStore.setChunk, xor1, attrAppender.clear, WriteChunks, writeChunk,
    if_pos hr]
  simp [ha, p1, p2]

/-- Whatever the `writing` flag of the previous buffer is: when its chunk holds more samples
than `updCount`, `WriteChunks` flushes it (it is visited first, so the table id always
matches). -/
theorem WriteChunks_flushes_previous {A : Type} (d : Deps A) (cfgPath : String)
    (metric : MetricState) (cs : chunkStore A) (a : A)
    (hs : cs.state ≠ .storeStateGet)
    (ha : (cs.chunks (xor1 cs.curChunk)).appender = some a)
    (hn : d.chunk.NumSamples a > (cs.chunks (xor1 cs.curChunk)).updCount) :
    ((WriteChunks d cfgPath metric cs).cs.chunks (xor1 cs.curChunk)).updCount
        = d.chunk.NumSamples a
    ∧ ((WriteChunks d cfgPath metric cs).cs.chunks (xor1 cs.curChunk)).writing = true := by
  unfold WriteChunks
  rw [if_neg hs]
  simp only []
  have h1 : writeChunk d { cs := cs, tableId := -1, expr := "", notInitialized := false } 1
      = { cs := { cs.setChunk (xor1 cs.curChunk)
                    { cs.chunks (xor1 cs.curChunk) with
                        updMarker := wrapInt64 ((wrapInt64 ((d.chunk.GetChunkBuffer a).2.1
                          + ((d.chunk.GetChunkBuffer a).2.2.length : Int) - 1)).tdiv 8 * 8),
                        updCount := d.chunk.NumSamples a,
                        writing := true }
                  with state := .storeStateUpdate },
          tableId := d.Time2TableID (cs.chunks (xor1 cs.curChunk)).mint,
          expr := "" ++ Chunkbuf2Expr d (d.chunk.GetChunkBuffer a).2.1 (d.chunk.GetChunkBuffer a).1
            (d.chunk.GetChunkBuffer a).2.2 (cs.chunks (xor1 cs.curChunk)).mint
            (cs.chunks (xor1 cs.curChunk)).lastT,
          notInitialized := decide ((d.chunk.GetChunkBuffer a).2.1 = 0) } := by
    unfold writeChunk
    simp only [if_true, true_or, ha]
    rw [if_pos hn]
  have h2 := (writeChunk_congr d
    (writeChunk d { cs := cs, tableId := -1, expr := "", notInitialized := false } 1)
    (writeChunk d { cs := cs, tableId := -1, expr := "", notInitialized := false } 1)
    2 rfl rfl rfl rfl rfl).2.2.2 (xor1 cs.curChunk)
  rw [slot_two, writeChunk_curChunk] at h2
  rw [(h2 (xor1_ne _)).1, h1]
  simp only []
  have hc : ({ cs.setChunk (xor1 cs.curChunk)
                { cs.chunks (xor1 cs.curChunk) with
                    updMarker := wrapInt64 ((wrapInt64 ((d.chunk.GetChunkBuffer a).2.1
                      + ((d.chunk.GetChunkBuffer a).2.2.length : Int) - 1)).tdiv 8 * 8),
                    updCount := d.chunk.NumSamples a,
                    writing := true }
              with state := .storeStateUpdate } : chunkStore A).chunks (xor1 cs.curChunk)
      = { cs.chunks (xor1 cs.curChunk) with
            updMarker := wrapInt64 ((wrapInt64 ((d.chunk.GetChunkBuffer a).2.1
              + ((d.chunk.GetChunkBuffer a).2.2.length : Int) - 1)).tdiv 8 * 8),
            updCount := d.chunk.NumSamples a,
            writing := true } :=
    chunks_setChunk_same cs _ _
  rw [hc]
  exact ⟨rfl, rfl⟩

end appender

/-! ## Partition addressing: `TimeToChunkId` -/

namespace partmgr

/-- On a non-negative time `TimeToDHM` returns the number of whole days and the hour of the
day. -/
theorem TimeToDHM_of_nonneg (x : Int) (hx : 0 ≤ x) :
    TimeToDHM x = (x / 86400000, (x / 3600000) % 24) := by
  unfold TimeToDHM
  simp only []
  have h1 : x.tdiv 1000 = x / 1000 := Int.tdiv_eq_ediv hx (by norm_num)
  have h1n : 0 ≤ x / 1000 := Int.ediv_nonneg hx (by norm_num)
  have h2 : (x / 1000).tdiv 3600 = x / 1000 / 3600 := Int.tdiv_eq_ediv h1n (by norm_num)
  have h2n : 0 ≤ x / 1000 / 3600 := Int.ediv_nonneg h1n (by norm_num)
  have h3 : (x / 1000 / 3600).tdiv 24 = x / 1000 / 3600 / 24 :=
    Int.tdiv_eq_ediv h2n (by norm_num)
  rw [h1, h2, h3]
  refine Prod.ext ?_ ?_
  · show x / 1000 / 3600 / 24 = x / 86400000
    omega
  · show x / 1000 / 3600 - x / 1000 / 3600 / 24 * 24 = x / 3600000 % 24
    omega

/-- C10, as the code has it: for a partition with `days > 1` and `hoursInChunk ≥ 1` and an
`int64` time `t ≥ startTime` whose distance to `startTime` is an `int64`, with `dayIndex` the
number of whole days in `t - startTime` modulo `days` and `hourOfDay` the hour within the day,
`TimeToChunkId t` is `dayIndex*24/hoursInChunk + hourOfDay/hoursInChunk`: each term is divided on
its own. When `hoursInChunk` divides 24 this is `(dayIndex*24 + hourOfDay) / hoursInChunk`. -/
theorem TimeToChunkId_eq (p : DBPartition) (t : Int)
    (hd : 1 < p.days) (hh : 1 ≤ p.hoursInChunk)
    (ht : p.startTime ≤ t) (hr : t - p.startTime < 2 ^ 63) :
    p.TimeToChunkId t
        = some ((((t - p.startTime) / 86400000) % p.days * 24) / p.hoursInChunk
            + (((t - p.startTime) / 3600000) % 24) / p.hoursInChunk)
    ∧ (p.hoursInChunk ∣ 24 →
        p.TimeToChunkId t
          = some ((((t - p.startTime) / 86400000) % p.days * 24
              + ((t - p.startTime) / 3600000) % 24) / p.hoursInChunk)) := by
  have hx : 0 ≤ t - p.startTime := by omega
  have hw : wrapInt64 (t - p.startTime) = t - p.startTime :=
    appender.wrapInt64_of_range _ (by omega) hr
  have hdn : 0 ≤ (t - p.startTime) / 86400000 := Int.ediv_nonneg hx (by norm_num)
  have hday : (t - p.startTime) / 86400000
      - ((t - p.startTime) / 86400000).tdiv p.days * p.days
      = (t - p.startTime) / 86400000 % p.days := by
    rw [Int.tdiv_eq_ediv hdn (by omega), Int.emod_def, Int.mul_comm]
  have hin : 0 ≤ (t - p.startTime) / 86400000 % p.days := Int.emod_nonneg _ (by omega)
  have hhn : 0 ≤ (t - p.startTime) / 3600000 % 24 := Int.emod_nonneg _ (by norm_num)
  have main : p.TimeToChunkId t
        = some ((((t - p.startTime) / 86400000) % p.days * 24) / p.hoursInChunk
            + (((t - p.startTime) / 3600000) % 24) / p.hoursInChunk) := by
    unfold DBPartition.TimeToChunkId
    rw [hw, TimeToDHM_of_nonneg _ hx]
    simp only []
    rw [if_neg (by omega), if_neg (by omega), hday,
      Int.tdiv_eq_ediv (by omega) (by omega), Int.tdiv_eq_ediv hhn (by omega)]
  refine ⟨main, ?_⟩
  intro hdvd
  rw [main, Int.add_ediv_of_dvd_left (Dvd.dvd.mul_left hdvd _)]

/-- C10 at the partition of five days with two-hour chunks and `t` = day 7, hour 5: the chunk
id is `(2*24 + 5) / 2 = 26`. -/
theorem TimeToChunkId_eq_witness :
    (1 : Int) < part5x2.days ∧ (1 : Int) ≤ part5x2.hoursInChunk
    ∧ part5x2.startTime ≤ 622800000 ∧ (622800000 : Int) - part5x2.startTime < 2 ^ 63
    ∧ part5x2.hoursInChunk ∣ 24
    ∧ part5x2.TimeToChunkId 622800000 = some 26 :=
  ⟨by decide, by decide, by decide, by decide, by decide,
    ((TimeToChunkId_eq part5x2 622800000 (by decide) (by decide) (by decide)
      (by decide)).2 (by decide)).trans (by decide)⟩

/-- C10 as stated fails where `hoursInChunk` does not divide 24: with two days of five-hour
chunks and `t` = day 1, hour 1, the code returns `24/5 + 1/5 = 4`, not `(24 + 1)/5 = 5`. It
also fails where `t - startTime` leaves the `int64` range: with `startTime = -1` and
`t = 2^63 - 1` the code returns `-31`, not `(1*24 + 7)/1 = 31`. -/
theorem TimeToChunkId_divides_each_term :
    part2x5.TimeToChunkId 90000000 = some 4
    ∧ ((90000000 - part2x5.startTime) / 86400000 % part2x5.days * 24
        + (90000000 - part2x5.startTime) / 3600000 % 24) / part2x5.hoursInChunk = 5
    ∧ part2x1.TimeToChunkId (2 ^ 63 - 1) = some (-31)
    ∧ ((2 ^ 63 - 1 - part2x1.startTime) / 86400000 % part2x1.days * 24
        + (2 ^ 63 - 1 - part2x1.startTime) / 3600000 % 24) / part2x1.hoursInChunk = 31 := by
  refine ⟨by decide, by decide, by decide, by decide⟩

end partmgr

/-! ## Partition addressing: bounds and chunk windows -/

namespace partmgr

/-- The value of `TimeToChunkId` at a time not before `startTime`, as long as the distance to
`startTime` is an `int64`: the hour of the day in a partition of at most one day, and else the
chunks of the whole days before plus the chunk within the day. -/
theorem TimeToChunkId_value (p : DBPartition) (t : Int) (hh : 1 ≤ p.hoursInChunk)
    (ht : p.startTime ≤ t) (hr : t - p.startTime < 2 ^ 63) :
    p.TimeToChunkId t
      = some (if p.days ≤ 1 then (t - p.startTime) / 3600000 % 24
          else ((t - p.startTime) / 86400000 % p.days * 24) / p.hoursInChunk
            + ((t - p.startTime) / 3600000 % 24) / p.hoursInChunk) := by
  have hx : 0 ≤ t - p.startTime := by omega
  have hw : wrapInt64 (t - p.startTime) = t - p.startTime :=
    appender.wrapInt64_of_range _ (by omega) hr
  unfold DBPartition.TimeToChunkId
  rw [hw, TimeToDHM_of_nonneg _ hx]
  simp only []
  by_cases hd : p.days ≤ 1
  · rw [if_pos hd, if_pos hd]
  · rw [if_neg hd, if_neg hd, if_neg (by omega)]
    have hdn : 0 ≤ (t - p.startTime) / 86400000 := Int.ediv_nonneg hx (by norm_num)
    have hday : (t - p.startTime) / 86400000
        - ((t - p.startTime) / 86400000).tdiv p.days * p.days
        = (t - p.startTime) / 86400000 % p.days := by
      rw [Int.tdiv_eq_ediv hdn (by omega), Int.emod_def, Int.mul_comm]
    have hin : 0 ≤ (t - p.startTime) / 86400000 % p.days := Int.emod_nonneg _ (by omega)
    have hhn : 0 ≤ (t - p.startTime) / 3600000 % 24 := Int.emod_nonneg _ (by norm_num)
    rw [hday, Int.tdiv_eq_ediv (by omega) (by omega), Int.tdiv_eq_ediv hhn (by omega)]

/-- C11, as the code has it: for a partition with `days ≥ 1` and `hoursInChunk ≥ 1` and an
`int64` time `t ≥ startTime` whose distance to `startTime` is an `int64`, `TimeToChunkId t`
returns an id that is not negative. The id is below `days*24/hoursInChunk` when `hoursInChunk`
divides 24 and either `days > 1` or `hoursInChunk = 1`; in a partition of one day the id is the
hour of the day and is below 24, whatever `hoursInChunk` is. -/
theorem TimeToChunkId_bound (p : DBPartition) (t : Int)
    (hd : 1 ≤ p.days) (hh : 1 ≤ p.hoursInChunk)
    (ht : p.startTime ≤ t) (hr : t - p.startTime < 2 ^ 63) :
    ∃ id, p.TimeToChunkId t = some id ∧ 0 ≤ id
      ∧ (p.days = 1 → id < 24)
      ∧ (p.hoursInChunk ∣ 24 → (1 < p.days ∨ p.hoursInChunk = 1) →
          id < p.days * 24 / p.hoursInChunk) := by
  refine ⟨_, TimeToChunkId_value p t hh ht hr, ?_, ?_, ?_⟩
  · by_cases h1 : p.days ≤ 1
    · rw [if_pos h1]
      exact Int.emod_nonneg _ (by norm_num)
    · rw [if_neg h1]
      have a1 : 0 ≤ (t - p.startTime) / 86400000 % p.days := Int.emod_nonneg _ (by omega)
      have a2 : 0 ≤ (t - p.startTime) / 3600000 % 24 := Int.emod_nonneg _ (by norm_num)
      exact Int.add_nonneg (Int.ediv_nonneg (by omega) (by omega))
        (Int.ediv_nonneg a2 (by omega))
  · intro h1
    rw [if_pos (by omega)]
    exact Int.emod_lt_of_pos _ (by norm_num)
  · intro hdvd hcase
    obtain ⟨c, hc⟩ := hdvd
    have hcpos : 0 < c := by
      by_contra hneg
      have : p.hoursInChunk * c ≤ 0 :=
        Int.mul_nonpos_of_nonneg_of_nonpos (by omega) (by omega)
      omega
    have hbound : p.days * 24 / p.hoursInChunk = p.days * c := by
      rw [hc, show p.days * (p.hoursInChunk * c) = p.hoursInChunk * (p.days * c) by ring]
      exact Int.mul_ediv_cancel_left _ (by omega)
    rw [hbound]
    by_cases h1 : p.days ≤ 1
    · rw [if_pos h1]
      have hh1 : p.hoursInChunk = 1 := by omega
      have hd1 : p.days = 1 := by omega
      have hc24 : c = 24 := by rw [hh1] at hc; omega
      rw [hd1, hc24]
      have := Int.emod_lt_of_pos ((t - p.startTime) / 3600000) (show (0 : Int) < 24 by norm_num)
      omega
    · rw [if_neg h1]
      have a1 : 0 ≤ (t - p.startTime) / 86400000 % p.days := Int.emod_nonneg _ (by omega)
      have a1' : (t - p.startTime) / 86400000 % p.days < p.days :=
        Int.emod_lt_of_pos _ (by omega)
      have a2 : (t - p.startTime) / 3600000 % 24 < 24 := Int.emod_lt_of_pos _ (by norm_num)
      have e1 : (t - p.startTime) / 86400000 % p.days * 24 / p.hoursInChunk
          = (t - p.startTime) / 86400000 % p.days * c := by
        rw [hc, show (t - p.startTime) / 86400000 % p.days * (p.hoursInChunk * c)
          = p.hoursInChunk * ((t - p.startTime) / 86400000 % p.days * c) by ring]
        exact Int.mul_ediv_cancel_left _ (by omega)
      have e2 : (t - p.startTime) / 3600000 % 24 / p.hoursInChunk < c := by
        apply Int.ediv_lt_of_lt_mul (by omega)
        rw [Int.mul_comm, ← hc]
        exact a2
      rw [e1]
      nlinarith

end partmgr

namespace partmgr

/-- C11 at the partition of five days with two-hour chunks and `t` = day 7, hour 5. -/
theorem TimeToChunkId_bound_witness :
    (1 : Int) ≤ part5x2.days ∧ (1 : Int) ≤ part5x2.hoursInChunk
    ∧ part5x2.startTime ≤ 622800000 ∧ (622800000 : Int) - part5x2.startTime < 2 ^ 63
    ∧ ∃ id, part5x2.TimeToChunkId 622800000 = some id ∧ 0 ≤ id
      ∧ (part5x2.days = 1 → id < 24)
      ∧ (part5x2.hoursInChunk ∣ 24 → (1 < part5x2.days ∨ part5x2.hoursInChunk = 1) →
          id < part5x2.days * 24 / part5x2.hoursInChunk) :=
  ⟨by decide, by decide, by decide, by decide,
    TimeToChunkId_bound part5x2 622800000 (by decide) (by decide) (by decide) (by decide)⟩

/-- C11 as stated fails. In a partition of one day the id is the hour of the day: with two-hour
chunks the hour 23 has id 23, not below `1*24/2 = 12`. With two days of seven-hour chunks
day 1, hour 23 has id `24/7 + 23/7 = 6`, not below `2*24/7 = 6`. With `startTime = -1` and
`t = 2^63 - 1` the `int64` subtraction wraps and the id is `-31`. -/
theorem TimeToChunkId_exceeds_bound :
    part1x2.TimeToChunkId 82800000 = some 23
    ∧ part1x2.days * 24 / part1x2.hoursInChunk = 12
    ∧ part2x7.TimeToChunkId 169200000 = some 6
    ∧ part2x7.days * 24 / part2x7.hoursInChunk = 6
    ∧ part2x1.startTime ≤ 2 ^ 63 - 1
    ∧ part2x1.TimeToChunkId (2 ^ 63 - 1) = some (-31) := by
  refine ⟨by decide, by decide, by decide, by decide, by decide, by decide⟩

/-- The list built by `Range2Cids` when the id of `maxt` is below the id of `mint`: the first
loop stops at the constant 24, whatever the size of the ring. -/
theorem Range2Cids_wrap (p : DBPartition) (mint maxt start last : Int)
    (h1 : p.TimeToChunkId mint = some start) (h2 : p.TimeToChunkId maxt = some last)
    (h : last < start) :
    p.Range2Cids mint maxt = some (intRange start 24 ++ intRange 0 (last + 1)) := by
  unfold DBPartition.Range2Cids
  rw [h1, h2]
  simp only []
  rw [if_pos h]

/-- C12 on the code: with `days = 5` and `hoursInChunk = 1` the largest chunk id is 119; for the
range from the last hour of day 4 (id 119) to the first hour of the next cycle (id 0) the code
returns `[0]`, where the claim has `[119, 0]`: the loop `for i := start; i < 24; i++` adds
nothing from 119 on. -/
theorem Range2Cids_drops_head :
    part5x1.TimeToChunkId 428400000 = some 119
    ∧ part5x1.TimeToChunkId 432000000 = some 0
    ∧ part5x1.days * 24 / part5x1.hoursInChunk - 1 = 119
    ∧ part5x1.Range2Cids 428400000 432000000 = some [0] := by
  refine ⟨by decide, by decide, by decide, by decide⟩

end partmgr

namespace partmgr

/-- The value of `GetChunkMint` at a non-negative `int64` time: no product leaves the `int64`
range. -/
theorem GetChunkMint_value (p : DBPartition) (t : Int) (hh : 1 ≤ p.hoursInChunk)
    (ht : 0 ≤ t) (hr : t < 2 ^ 63) :
    p.GetChunkMint t = some (t / 3600000 / p.hoursInChunk * (p.hoursInChunk * 3600000))
    ∧ t / 3600000 / p.hoursInChunk * (p.hoursInChunk * 3600000) ≤ t
    ∧ t < t / 3600000 / p.hoursInChunk * (p.hoursInChunk * 3600000)
        + p.hoursInChunk * 3600000 := by
  have h1 : t.tdiv 3600 = t / 3600 := Int.tdiv_eq_ediv ht (by norm_num)
  have h1n : 0 ≤ t / 3600 := Int.ediv_nonneg ht (by norm_num)
  have h2 : (t / 3600).tdiv 1000 = t / 3600000 := by
    rw [Int.tdiv_eq_ediv h1n (by norm_num)]; omega
  have h2n : 0 ≤ t / 3600000 := Int.ediv_nonneg ht (by norm_num)
  have h3 : (t / 3600000).tdiv p.hoursInChunk = t / 3600000 / p.hoursInChunk :=
    Int.tdiv_eq_ediv h2n (by omega)
  have hq : 0 ≤ t / 3600000 / p.hoursInChunk := Int.ediv_nonneg h2n (by omega)
  have hdiv := Int.emod_add_ediv (t / 3600000) p.hoursInChunk
  have hr0 : 0 ≤ t / 3600000 % p.hoursInChunk := Int.emod_nonneg _ (by omega)
  have hr1 : t / 3600000 % p.hoursInChunk < p.hoursInChunk := Int.emod_lt_of_pos _ (by omega)
  have hqle : t / 3600000 / p.hoursInChunk ≤ p.hoursInChunk * (t / 3600000 / p.hoursInChunk) := by
    nlinarith
  have e1 : t / 3600000 / p.hoursInChunk * 3600
      = 3600 * (t / 3600000 / p.hoursInChunk) := by ring
  have e2 : t / 3600000 / p.hoursInChunk * 3600 * 1000
      = 3600000 * (t / 3600000 / p.hoursInChunk) := by ring
  have e3 : t / 3600000 / p.hoursInChunk * 3600 * 1000 * p.hoursInChunk
      = 3600000 * (p.hoursInChunk * (t / 3600000 / p.hoursInChunk)) := by ring
  have e4 : t / 3600000 / p.hoursInChunk * (p.hoursInChunk * 3600000)
      = 3600000 * (p.hoursInChunk * (t / 3600000 / p.hoursInChunk)) := by ring
  refine ⟨?_, ?_, ?_⟩
  · unfold DBPartition.GetChunkMint
    rw [if_neg (by omega), h1, h2, h3]
    simp only []
    have w1 : wrapInt64 (t / 3600000 / p.hoursInChunk * 3600)
        = t / 3600000 / p.hoursInChunk * 3600 :=
      appender.wrapInt64_of_range _ (by rw [e1]; omega) (by rw [e1]; omega)
    have w2 : wrapInt64 (t / 3600000 / p.hoursInChunk * 3600 * 1000)
        = t / 3600000 / p.hoursInChunk * 3600 * 1000 :=
      appender.wrapInt64_of_range _ (by rw [e2]; omega) (by rw [e2]; omega)
    have w3 : wrapInt64 (t / 3600000 / p.hoursInChunk * 3600 * 1000 * p.hoursInChunk)
        = t / 3600000 / p.hoursInChunk * 3600 * 1000 * p.hoursInChunk :=
      appender.wrapInt64_of_range _ (by rw [e3]; omega) (by rw [e3]; omega)
    rw [w1, w2, w3, e3, e4]
  · rw [e4]; omega
  · rw [e4]; omega

/-- C13, as the code has it: for a partition with `hoursInChunk ≥ 1` and an `int64` time
`t ≥ 0`, with `w = hoursInChunk*3600000`: `GetChunkMint t` returns a multiple `m` of `w` with
`m ≤ t < m + w`. When the end `m + w` of the window is an `int64`, `t` is in the chunk range of
`m` and not ahead of it, while `m + w` is not in that range and is ahead of it. When `m + w` is
not an `int64` (and `w` is one), the sum `mint + w` of the code wraps to a negative number:
`t` is not in the chunk range of `m` and is ahead of it. -/
theorem GetChunkMint_window (p : DBPartition) (t : Int) (hh : 1 ≤ p.hoursInChunk)
    (ht : 0 ≤ t) (ht2 : t < 2 ^ 63) :
    ∃ m, p.GetChunkMint t = some m
      ∧ (p.hoursInChunk * 3600000) ∣ m
      ∧ m ≤ t ∧ t < m + p.hoursInChunk * 3600000
      ∧ (m + p.hoursInChunk * 3600000 < 2 ^ 63 →
          p.InChunkRange m t = true ∧ p.IsAheadOfChunk m t = false
          ∧ p.InChunkRange m (m + p.hoursInChunk * 3600000) = false
          ∧ p.IsAheadOfChunk m (m + p.hoursInChunk * 3600000) = true)
      ∧ (2 ^ 63 ≤ m + p.hoursInChunk * 3600000 → p.hoursInChunk * 3600000 < 2 ^ 63 →
          p.InChunkRange m t = false ∧ p.IsAheadOfChunk m t = true) := by
  obtain ⟨hm, hle, hlt⟩ := GetChunkMint_value p t hh ht ht2
  have hq : 0 ≤ t / 3600000 / p.hoursInChunk :=
    Int.ediv_nonneg (Int.ediv_nonneg ht (by norm_num)) (by omega)
  have hm0 : 0 ≤ t / 3600000 / p.hoursInChunk * (p.hoursInChunk * 3600000) :=
    Int.mul_nonneg hq (by omega)
  refine ⟨_, hm, Dvd.intro_left _ rfl, hle, hlt, ?_, ?_⟩
  · intro hend
    have hw : wrapInt64 (3600000 * p.hoursInChunk) = p.hoursInChunk * 3600000 := by
      rw [appender.wrapInt64_of_range _ (by omega) (by omega)]; ring
    have hwe : wrapInt64 (t / 3600000 / p.hoursInChunk * (p.hoursInChunk * 3600000)
        + p.hoursInChunk * 3600000)
        = t / 3600000 / p.hoursInChunk * (p.hoursInChunk * 3600000)
          + p.hoursInChunk * 3600000 :=
      appender.wrapInt64_of_range _ (by omega) hend
    refine ⟨?_, ?_, ?_, ?_⟩
    · simp only [DBPartition.InChunkRange, hw, hwe, decide_eq_true_eq]
      exact ⟨hle, hlt⟩
    · simp only [DBPartition.IsAheadOfChunk, hw, hwe, decide_eq_false_iff_not]
      omega
    · simp only [DBPartition.InChunkRange, hw, hwe, decide_eq_false_iff_not]
      omega
    · simp only [DBPartition.IsAheadOfChunk, hw, hwe, decide_eq_true_eq]
      omega
  · intro hend hwr
    have hw : wrapInt64 (3600000 * p.hoursInChunk) = p.hoursInChunk * 3600000 := by
      rw [appender.wrapInt64_of_range _ (by omega) (by omega)]; ring
    have hwe : wrapInt64 (t / 3600000 / p.hoursInChunk * (p.hoursInChunk * 3600000)
        + p.hoursInChunk * 3600000)
        = t / 3600000 / p.hoursInChunk * (p.hoursInChunk * 3600000)
          + p.hoursInChunk * 3600000 - 2 ^ 64 := by
      unfold wrapInt64
      omega
    refine ⟨?_, ?_⟩
    · simp only [DBPartition.InChunkRange, hw, hwe, decide_eq_false_iff_not]
      omega
    · simp only [DBPartition.IsAheadOfChunk, hw, hwe, decide_eq_true_eq]
      omega

/-- C13 at the partition of five days with two-hour chunks and `t` = 3 h 20 min: the chunk
starts at 2 h, `t` is in its range, and the end of the window, 4 h, is ahead of it. -/
theorem GetChunkMint_window_witness :
    ∃ m, part5x2.GetChunkMint 12000000 = some m
      ∧ m = 7200000
      ∧ part5x2.InChunkRange m 12000000 = true ∧ part5x2.IsAheadOfChunk m 12000000 = false
      ∧ part5x2.InChunkRange m (m + 7200000) = false
      ∧ part5x2.IsAheadOfChunk m (m + 7200000) = true := by
  obtain ⟨m, hm, ⟨c, hc⟩, hle, hlt, hin, _⟩ :=
    GetChunkMint_window part5x2 12000000 (by decide) (by decide) (by decide)
  have h2 : part5x2.hoursInChunk * 3600000 = 7200000 := by decide
  rw [h2] at hc hlt hin
  obtain ⟨h1, h3, h4, h5⟩ := hin (by omega)
  exact ⟨m, hm, by omega, h1, h3, h4, h5⟩

/-- C13 as stated fails at the end of the `int64` range: for one-hour chunks and
`t = 2^63 - 1`, `GetChunkMint t` is `9223372036854000000`, less than an hour before `2^63`; the
sum `mint + 3600*1000*1` wraps, so `t` is not in the chunk range of `GetChunkMint t` and is
ahead of it. -/
theorem GetChunkMint_window_wraps :
    (1 : Int) ≤ part5x1.hoursInChunk ∧ (0 : Int) ≤ 9223372036854775807
    ∧ (9223372036854775807 : Int) < 2 ^ 63
    ∧ part5x1.GetChunkMint 9223372036854775807 = some 9223372036854000000
    ∧ part5x1.InChunkRange 9223372036854000000 9223372036854775807 = false
    ∧ part5x1.IsAheadOfChunk 9223372036854000000 9223372036854775807 = true := by
  have e1 : wrapInt64 ((3600000 : Int) * 1) = 3600000 := by decide
  have e2 : wrapInt64 ((9223372036854000000 : Int) + 3600000) = -9223372036851951616 := by
    decide
  refine ⟨by decide, by decide, by decide, ?_, ?_, ?_⟩
  · exact (GetChunkMint_value part5x1 9223372036854775807 (by decide) (by decide)
      (by decide)).1.trans (by decide)
  · simp only [DBPartition.InChunkRange, part5x1, e1, e2]
    decide
  · simp only [DBPartition.IsAheadOfChunk, part5x1, e1, e2]
    decide

end partmgr

namespace partmgr

/-- The value of `CyclicMinTime` for a manager that ignores the wrap, at `maxt ≥ 0`, as long as
the start of the window is an `int64`. -/
theorem CyclicMinTime_value (now : Int) (p : DBPartition) (mint maxt : Int)
    (hi : p.manager.ignoreWrap = true)
    (hm : 0 ≤ maxt) (hm2 : maxt < 2 ^ 63)
    (hlo : -(2 : Int) ^ 63 ≤ (maxt / 3600000 - p.days * 24 + 1) * 3600000)
    (hhi : (maxt / 3600000 - p.days * 24 + 1) * 3600000 < 2 ^ 63) :
    p.CyclicMinTime now mint maxt = max mint ((maxt / 3600000 - p.days * 24 + 1) * 3600000) := by
  have h1 : maxt.tdiv 1000 = maxt / 1000 := Int.tdiv_eq_ediv hm (by norm_num)
  have h1n : 0 ≤ maxt / 1000 := Int.ediv_nonneg hm (by norm_num)
  have h2 : (maxt / 1000).tdiv 3600 = maxt / 3600000 := by
    rw [Int.tdiv_eq_ediv h1n (by norm_num)]; omega
  have w1 : wrapInt64 (p.days * 24) = p.days * 24 :=
    appender.wrapInt64_of_range _ (by omega) (by omega)
  have w2 : wrapInt64 (maxt / 3600000 - p.days * 24) = maxt / 3600000 - p.days * 24 :=
    appender.wrapInt64_of_range _ (by omega) (by omega)
  have w3 : wrapInt64 (maxt / 3600000 - p.days * 24 + 1)
      = maxt / 3600000 - p.days * 24 + 1 :=
    appender.wrapInt64_of_range _ (by omega) (by omega)
  have w4 : wrapInt64 ((maxt / 3600000 - p.days * 24 + 1) * 3600)
      = (maxt / 3600000 - p.days * 24 + 1) * 3600 :=
    appender.wrapInt64_of_range _ (by omega) (by omega)
  have e5 : (maxt / 3600000 - p.days * 24 + 1) * 3600 * 1000
      = (maxt / 3600000 - p.days * 24 + 1) * 3600000 := by ring
  have w5 : wrapInt64 ((maxt / 3600000 - p.days * 24 + 1) * 3600 * 1000)
      = (maxt / 3600000 - p.days * 24 + 1) * 3600000 := by
    rw [e5]
    exact appender.wrapInt64_of_range _ hlo hhi
  simp only [DBPartition.CyclicMinTime, hi, Bool.not_true, Bool.false_eq_true, if_false, h1, h2,
    w1, w2, w3, w4, w5]
  by_cases hc : mint > (maxt / 3600000 - p.days * 24 + 1) * 3600000
  · rw [if_pos hc, max_eq_left (le_of_lt hc)]
  · rw [if_neg hc, max_eq_right (not_lt.mp hc)]

/-- C14, as the code has it: for the partition of a manager created by `NewPartitionMngr`
(`ignoreWrap = true`) and `maxt ≥ 0`, `CyclicMinTime mint maxt` is `max mint windowStart`, where
`windowStart = (floor(maxt/3600000) - days*24 + 1) * 3600000` is the hour-aligned start of the
window of `days` days (the days per partition, not the retention days) ending at `maxt`, as long
as `windowStart` is an `int64`. -/
theorem CyclicMinTime_eq (now DaysPerObj HrInChunk DaysRetention mint maxt : Int)
    (hm : 0 ≤ maxt) (hm2 : maxt < 2 ^ 63)
    (hlo : -(2 : Int) ^ 63 ≤ (maxt / 3600000 - DaysPerObj * 24 + 1) * 3600000)
    (hhi : (maxt / 3600000 - DaysPerObj * 24 + 1) * 3600000 < 2 ^ 63) :
    (NewPartitionMngr DaysPerObj HrInChunk DaysRetention).2.CyclicMinTime now mint maxt
      = max mint ((maxt / 3600000 - DaysPerObj * 24 + 1) * 3600000) :=
  CyclicMinTime_value now (NewPartitionMngr DaysPerObj HrInChunk DaysRetention).2 mint maxt rfl
    hm hm2 hlo hhi

/-- C14 at a manager with one day per partition and `maxt` = 10 days: the window starts at
9 days and 1 hour. -/
theorem CyclicMinTime_eq_witness :
    (0 : Int) ≤ 864000000 ∧ (864000000 : Int) < 2 ^ 63
    ∧ -(2 : Int) ^ 63 ≤ (864000000 / 3600000 - 1 * 24 + 1) * 3600000
    ∧ ((864000000 : Int) / 3600000 - 1 * 24 + 1) * 3600000 < 2 ^ 63
    ∧ (NewPartitionMngr 1 1 2).2.CyclicMinTime 0 0 864000000 = 781200000 :=
  ⟨by decide, by decide, by decide, by decide,
    (CyclicMinTime_eq 0 1 1 2 0 864000000 (by decide) (by decide) (by decide)
      (by decide)).trans (by decide)⟩

/-- C14 as stated fails where the retention days differ from the days per partition: with one
day per partition and two retention days, `maxt` = 10 days and `mint = 0`, the code returns
9 days 1 hour (`781200000`), and the window of two retention days would start at 8 days 1 hour
(`694800000`). -/
theorem CyclicMinTime_uses_days :
    (NewPartitionMngr 1 1 2).1.ignoreWrap = true
    ∧ (NewPartitionMngr 1 1 2).2.retentionDays = 2
    ∧ (NewPartitionMngr 1 1 2).2.CyclicMinTime 0 0 864000000 = 781200000
    ∧ max (0 : Int) ((864000000 / 3600000 - (NewPartitionMngr 1 1 2).2.retentionDays * 24 + 1)
        * 3600000) = 694800000 := by
  refine ⟨by decide, by decide, ?_, by decide⟩
  exact (CyclicMinTime_value 0 (NewPartitionMngr 1 1 2).2 0 864000000 rfl (by decide)
    (by decide) (by decide) (by decide)).trans (by decide)

end partmgr

namespace partmgr

/-- With chunks of `hic` hours, `c` of them to the day: the day of an hour count `H` and the
chunk within the day are the quotient and the remainder of the chunk count `H / hic` by `c`. -/
theorem hours_split (H hic c : Int) (hh : 1 ≤ hic) (hc : 24 = hic * c) :
    H / 24 = H / hic / c ∧ H % 24 / hic = H / hic % c := by
  have hcpos : 0 < c := by
    by_contra hneg
    have : hic * c ≤ 0 := Int.mul_nonpos_of_nonneg_of_nonpos (by omega) (by omega)
    omega
  have hr0 : 0 ≤ H % hic := Int.emod_nonneg _ (by omega)
  have hr1 : H % hic < hic := Int.emod_lt_of_pos _ (by omega)
  have hk0 : 0 ≤ H / hic % c := Int.emod_nonneg _ (by omega)
  have hk1 : H / hic % c < c := Int.emod_lt_of_pos _ hcpos
  have eH := Int.emod_add_ediv H hic
  have ek := Int.emod_add_ediv (H / hic) c
  have hmul : hic * (H / hic % c) ≤ hic * (c - 1) :=
    Int.mul_le_mul_of_nonneg_left (by omega) (by omega)
  have hmul0 : 0 ≤ hic * (H / hic % c) := Int.mul_nonneg (by omega) hk0
  have hexp : hic * (c - 1) = 24 - hic := by rw [hc]; ring
  have hsum : (H % hic + hic * (H / hic % c)) + 24 * (H / hic / c) = H := by
    have : hic * (H / hic) = hic * (H / hic % c) + 24 * (H / hic / c) := by
      rw [hc]
      have e2 : hic * (H / hic) = hic * (H / hic % c + c * (H / hic / c)) := by rw [ek]
      rw [e2]; ring
    omega
  have huniq := (Int.ediv_emod_unique (a := H) (b := 24)
    (r := H % hic + hic * (H / hic % c)) (q := H / hic / c) (by norm_num)).mpr
    ⟨hsum, by omega, by omega⟩
  refine ⟨huniq.1, ?_⟩
  rw [huniq.2]
  exact ((Int.ediv_emod_unique (a := H % hic + hic * (H / hic % c)) (b := hic)
    (r := H % hic) (q := H / hic % c) (by omega)).mpr ⟨rfl, hr0, hr1⟩).1

/-- C15, as the code has it: for a partition with `startTime = 0`, `days ≥ 1` and
`hoursInChunk ≥ 1` dividing 24, with `days > 1` or `hoursInChunk = 1`, two `int64` times
`t1, t2 ≥ 0` in the same chunk window (`GetChunkMint t1 = GetChunkMint t2`) have the same chunk
id, hence the same attribute name `ChunkID2Attr col id`. -/
theorem same_window_same_id (p : DBPartition) (t1 t2 : Int)
    (hs : p.startTime = 0) (hd : 1 ≤ p.days) (hh : 1 ≤ p.hoursInChunk)
    (hdvd : p.hoursInChunk ∣ 24) (hcase : 1 < p.days ∨ p.hoursInChunk = 1)
    (h1 : 0 ≤ t1) (h1r : t1 < 2 ^ 63) (h2 : 0 ≤ t2) (h2r : t2 < 2 ^ 63)
    (hm : p.GetChunkMint t1 = p.GetChunkMint t2) :
    ∃ id, p.TimeToChunkId t1 = some id ∧ p.TimeToChunkId t2 = some id
      ∧ ∀ col, (p.TimeToChunkId t1).map (p.ChunkID2Attr col)
          = (p.TimeToChunkId t2).map (p.ChunkID2Attr col) := by
  have hk : t1 / 3600000 / p.hoursInChunk = t2 / 3600000 / p.hoursInChunk := by
    rw [(GetChunkMint_value p t1 hh h1 h1r).1, (GetChunkMint_value p t2 hh h2 h2r).1] at hm
    exact Int.eq_of_mul_eq_mul_right (by omega) (Option.some.inj hm)
  obtain ⟨c, hc⟩ := hdvd
  have v1 := TimeToChunkId_value p t1 hh (by omega) (by omega)
  have v2 := TimeToChunkId_value p t2 hh (by omega) (by omega)
  rw [hs] at v1 v2
  simp only [sub_zero] at v1 v2
  have s1 := hours_split (t1 / 3600000) p.hoursInChunk c hh hc
  have s2 := hours_split (t2 / 3600000) p.hoursInChunk c hh hc
  have d1 : t1 / 86400000 = t1 / 3600000 / 24 := by omega
  have d2 : t2 / 86400000 = t2 / 3600000 / 24 := by omega
  have hid : (if p.days ≤ 1 then t1 / 3600000 % 24
          else (t1 / 86400000 % p.days * 24) / p.hoursInChunk
            + (t1 / 3600000 % 24) / p.hoursInChunk)
      = (if p.days ≤ 1 then t2 / 3600000 % 24
          else (t2 / 86400000 % p.days * 24) / p.hoursInChunk
            + (t2 / 3600000 % 24) / p.hoursInChunk) := by
    by_cases hle : p.days ≤ 1
    · rw [if_pos hle, if_pos hle]
      have hh1 : p.hoursInChunk = 1 := by omega
      rw [hh1] at hk
      simp only [Int.ediv_one] at hk
      rw [hk]
    · rw [if_neg hle, if_neg hle, d1, d2, s1.1, s1.2, s2.1, s2.2, hk]
  refine ⟨_, v1, ?_, ?_⟩
  · rw [v2, hid]
  · intro col
    rw [v1, v2, hid]

/-- C15 at the partition of five days with two-hour chunks and the times 2 h and 3 h 20 min
of the same chunk. -/
theorem same_window_same_id_witness :
    part5x2.GetChunkMint 7200000 = part5x2.GetChunkMint 12000000
    ∧ ∃ id, part5x2.TimeToChunkId 7200000 = some id ∧ part5x2.TimeToChunkId 12000000 = some id
      ∧ ∀ col, (part5x2.TimeToChunkId 7200000).map (part5x2.ChunkID2Attr col)
          = (part5x2.TimeToChunkId 12000000).map (part5x2.ChunkID2Attr col) :=
  ⟨by decide,
    same_window_same_id part5x2 7200000 12000000 (by decide) (by decide) (by decide)
      (by decide) (by decide) (by decide) (by decide) (by decide) (by decide) (by decide)⟩

/-- C15 as stated fails. In a partition of one day with two-hour chunks the times 0 h and 1 h
are in the same chunk window and have the ids 0 and 1 (the hour of the day). With two days of
five-hour chunks the times 25 h and 29 h are in the same chunk window and have the ids 4
and 5. -/
theorem same_window_other_id :
    part1x2.GetChunkMint 0 = part1x2.GetChunkMint 3600000
    ∧ part1x2.TimeToChunkId 0 = some 0 ∧ part1x2.TimeToChunkId 3600000 = some 1
    ∧ part2x5.GetChunkMint 90000000 = part2x5.GetChunkMint 104400000
    ∧ part2x5.TimeToChunkId 90000000 = some 4 ∧ part2x5.TimeToChunkId 104400000 = some 5 := by
  refine ⟨by decide, by decide, by decide, by decide, by decide, by decide⟩

end partmgr

/-! ## Byte buffers as 64-bit words: `ToUint64` -/

namespace chunkenc

/-- The loop of `ToUint64` does not depend on the fuel, once there is enough of it. -/
theorem toWords_fuel : ∀ (f1 f2 : Nat) (bs : List Nat), bs.length ≤ f1 → bs.length ≤ f2 →
    toWords f1 bs = toWords f2 bs := by
  intro f1
  induction f1 with
  | zero =>
    intro f2 bs h1 _
    have hb : bs = [] := List.length_eq_zero.mp (by omega)
    subst hb
    cases f2 <;> simp [toWords]
  | succ n ih =>
    intro f2 bs h1 h2
    cases f2 with
    | zero =>
      have hb : bs = [] := List.length_eq_zero.mp (by omega)
      subst hb
      simp [toWords]
    | succ m =>
      simp only [toWords]
      by_cases h8 : 8 ≤ bs.length
      · rw [if_pos h8, if_pos h8]
        have hl : (bs.drop 8).length = bs.length - 8 := List.length_drop 8 bs
        rw [ih m (bs.drop 8) (by omega) (by omega)]
      · rw [if_neg h8, if_neg h8]

/-- One step of the loop of `ToUint64` on a buffer that starts with eight bytes. -/
theorem toWords_step (f : Nat) (w : List Nat) (rest : List Nat) (hw : w.length = 8)
    (hf : (w ++ rest).length ≤ f) :
    toWords f (w ++ rest) = leUint64 w :: toWords f rest := by
  cases f with
  | zero =>
    rw [List.length_append] at hf
    omega
  | succ n =>
    simp only [toWords]
    rw [List.length_append] at hf
    have h8 : 8 ≤ (w ++ rest).length := by rw [List.length_append]; omega
    rw [if_pos h8]
    have hd : (w ++ rest).drop 8 = rest := by
      rw [← hw]; exact List.drop_left w rest
    have hl : leUint64 (w ++ rest) = leUint64 w := by
      unfold leUint64
      rw [← hw, List.take_left w rest, List.take_length]
    rw [hd, hl, toWords_fuel n (n + 1) rest (by omega) (by omega)]
    simp only [toWords]

/-- The words of a buffer whose first part has a length that is a multiple of eight are the
words of the first part followed by the words of the rest. -/
theorem toWords_append : ∀ (n : Nat) (a b : List Nat) (f : Nat), a.length = 8 * n →
    (a ++ b).length ≤ f → toWords f (a ++ b) = toWords f a ++ toWords f b := by
  intro n
  induction n with
  | zero =>
    intro a b f ha hf
    have : a = [] := List.length_eq_zero.mp (by omega)
    subst this
    cases f <;> simp [toWords]
  | succ n ih =>
    intro a b f ha hf
    have hsplit : a = a.take 8 ++ a.drop 8 := (List.take_append_drop 8 a).symm
    have ht : (a.take 8).length = 8 := by rw [List.length_take]; omega
    have hdl : (a.drop 8).length = 8 * n := by rw [List.length_drop]; omega
    rw [List.length_append] at hf
    have e1 : a ++ b = a.take 8 ++ (a.drop 8 ++ b) := by
      rw [← List.append_assoc, List.take_append_drop]
    have hfa : (a.take 8 ++ a.drop 8).length ≤ f := by
      rw [List.take_append_drop]; omega
    have hfb : (a.take 8 ++ (a.drop 8 ++ b)).length ≤ f := by
      rw [← e1, List.length_append]; omega
    have hfc : (a.drop 8 ++ b).length ≤ f := by
      rw [List.length_append]; omega
    rw [e1, toWords_step f (a.take 8) (a.drop 8 ++ b) ht hfb, ih (a.drop 8) b f hdl hfc]
    have e2 : toWords f a = leUint64 (a.take 8) :: toWords f (a.drop 8) := by
      have := toWords_step f (a.take 8) (a.drop 8) ht hfa
      rw [List.take_append_drop] at this
      exact this
    rw [e2]
    rfl

/-- The loop of `ToUint64` returns one word per complete group of eight bytes. -/
theorem toWords_length : ∀ (f : Nat) (bs : List Nat), bs.length ≤ f →
    (toWords f bs).length = bs.length / 8 := by
  intro f
  induction f with
  | zero =>
    intro bs h
    have hb : bs = [] := List.length_eq_zero.mp (by omega)
    subst hb
    simp [toWords]
  | succ n ih =>
    intro bs h
    simp only [toWords]
    by_cases h8 : 8 ≤ bs.length
    · rw [if_pos h8, List.length_cons, ih (bs.drop 8) (by rw [List.length_drop]; omega),
        List.length_drop]
      omega
    · rw [if_neg h8]
      simp only [List.length_nil]
      omega

end chunkenc

namespace chunkenc

/-- Reading eight bytes as a little-endian word and writing the word back gives the bytes. -/
theorem leBytes_leUint64 (w : List Nat) (hw : w.length = 8) (hb : ∀ b ∈ w, b < 256) :
    leBytes (leUint64 w) = w := by
  match w, hw, hb with
  | [b0, b1, b2, b3, b4, b5, b6, b7], _, hb =>
    have h0 := hb b0 (by simp)
    have h1 := hb b1 (by simp)
    have h2 := hb b2 (by simp)
    have h3 := hb b3 (by simp)
    have h4 := hb b4 (by simp)
    have h5 := hb b5 (by simp)
    have h6 := hb b6 (by simp)
    have h7 := hb b7 (by simp)
    simp only [leUint64, leBytes, List.take, List.foldr]
    norm_num
    refine ⟨?_, ?_, ?_, ?_, ?_, ?_, ?_, ?_⟩ <;> omega

/-- The words of a buffer of whole words, written back byte by byte, are the buffer. -/
theorem toWords_bytes : ∀ (n : Nat) (a : List Nat) (f : Nat), a.length = 8 * n →
    a.length ≤ f → (∀ b ∈ a, b < 256) → (toWords f a).flatMap leBytes = a := by
  intro n
  induction n with
  | zero =>
    intro a f ha _ _
    have : a = [] := List.length_eq_zero.mp (by omega)
    subst this
    cases f <;> simp [toWords]
  | succ n ih =>
    intro a f ha hf hb
    have ht : (a.take 8).length = 8 := by rw [List.length_take]; omega
    have hdl : (a.drop 8).length = 8 * n := by rw [List.length_drop]; omega
    have hfa : (a.take 8 ++ a.drop 8).length ≤ f := by
      rw [List.take_append_drop]; omega
    have e2 : toWords f a = leUint64 (a.take 8) :: toWords f (a.drop 8) := by
      have := toWords_step f (a.take 8) (a.drop 8) ht hfa
      rw [List.take_append_drop] at this
      exact this
    rw [e2, List.flatMap_cons,
      leBytes_leUint64 (a.take 8) ht (fun b hbm => hb b (List.mem_of_mem_take hbm)),
      ih (a.drop 8) f hdl (by omega) (fun b hbm => hb b (List.mem_of_mem_drop hbm)),
      List.take_append_drop]

/-- The buffer read by the word loop of `ToUint64`: the bytes followed by the zero bytes that
fill the last word. -/
theorem ToUint64_eq (s : List Nat) :
    ToUint64 s = toWords (s ++ List.replicate (8 * ((s.length + 7) / 8) - s.length) 0).length
      (s ++ List.replicate (8 * ((s.length + 7) / 8) - s.length) 0) := by
  unfold ToUint64
  simp only []
  by_cases hr : s.length - s.length / 8 * 8 > 0
  · rw [if_pos hr]
    have : 8 - (s.length - s.length / 8 * 8) = 8 * ((s.length + 7) / 8) - s.length := by omega
    rw [this]
  · rw [if_neg hr]
    have : 8 * ((s.length + 7) / 8) - s.length = 0 := by omega
    rw [this]
    simp

theorem wordsExpr_append (attr : String) : ∀ (xs ys : List Nat) (o : Int),
    appender.wordsExpr attr o (xs ++ ys)
      = appender.wordsExpr attr o xs ++ appender.wordsExpr attr (o + xs.length) ys := by
  intro xs
  induction xs with
  | nil =>
    intro ys o
    simp [appender.wordsExpr]
  | cons x xs ih =>
    intro ys o
    simp only [List.cons_append, appender.wordsExpr, List.length_cons, List.append_eq]
    rw [ih ys (o + 1)]
    have : o + 1 + (xs.length : Int) = o + ((xs.length + 1 : Nat) : Int) := by
      push_cast; ring
    rw [this]
    simp only [String.append_assoc]

/-- C16: for a byte sequence `s` and an offset `k ≤ len s` that is a multiple of 8,
`ToUint64 s` is `ToUint64 (s[0:k])` followed by `ToUint64 (s[k:])`, so the assignments that
`Chunkbuf2Expr` writes for `s` from word index 0 are those for `s[0:k]` followed by those for
the tail from word index `k/8`. Every result has `ceil(len s / 8)` words, and its little-endian
serialisation is `s` followed by zero bytes. -/
theorem ToUint64_split (s : List Nat) (k : Nat) (hk : k ≤ s.length) (h8 : k % 8 = 0) :
    ToUint64 s = ToUint64 (s.take k) ++ ToUint64 (s.drop k)
    ∧ (∀ attr, appender.wordsExpr attr 0 (ToUint64 s)
        = appender.wordsExpr attr 0 (ToUint64 (s.take k))
          ++ appender.wordsExpr attr ((k : Int).tdiv 8) (ToUint64 (s.drop k)))
    ∧ (ToUint64 s).length = (s.length + 7) / 8
    ∧ ((∀ b ∈ s, b < 256) →
        (ToUint64 s).flatMap leBytes
          = s ++ List.replicate (8 * ((s.length + 7) / 8) - s.length) 0) := by
  have hlen : ∀ (x : List Nat),
      (x ++ List.replicate (8 * ((x.length + 7) / 8) - x.length) 0).length
        = 8 * ((x.length + 7) / 8) := by
    intro x
    rw [List.length_append, List.length_replicate]
    omega
  have hlenS : (ToUint64 s).length = (s.length + 7) / 8 := by
    rw [ToUint64_eq, toWords_length _ _ (le_refl _), hlen]
    omega
  have htl : (s.take k).length = k := by rw [List.length_take]; omega
  have hdl : (s.drop k).length = s.length - k := List.length_drop k s
  have hz1 : 8 * (((s.take k).length + 7) / 8) - (s.take k).length = 0 := by
    rw [htl]; omega
  have hz2 : 8 * (((s.drop k).length + 7) / 8) - (s.drop k).length
      = 8 * ((s.length + 7) / 8) - s.length := by
    rw [hdl]; omega
  have hsplit : ToUint64 s = ToUint64 (s.take k) ++ ToUint64 (s.drop k) := by
    rw [ToUint64_eq s, ToUint64_eq (s.take k), ToUint64_eq (s.drop k), hz1, hz2]
    simp only [List.replicate_zero, List.append_nil]
    have e : s ++ List.replicate (8 * ((s.length + 7) / 8) - s.length) 0
        = s.take k ++ (s.drop k ++ List.replicate (8 * ((s.length + 7) / 8) - s.length) 0) := by
      rw [← List.append_assoc, List.take_append_drop]
    have hl2 : (s.take k
        ++ (s.drop k ++ List.replicate (8 * ((s.length + 7) / 8) - s.length) 0)).length
        = 8 * ((s.length + 7) / 8) := by
      rw [← e]; exact hlen s
    have hl3 : (s.drop k ++ List.replicate (8 * ((s.length + 7) / 8) - s.length) 0).length
        ≤ 8 * ((s.length + 7) / 8) := by
      rw [List.length_append, List.length_replicate, hdl]; omega
    rw [e, toWords_append (k / 8) (s.take k) _ _ (by rw [htl]; omega) (le_refl _), hl2,
      toWords_fuel _ (s.take k).length (s.take k) (by rw [htl]; omega) (le_refl _),
      toWords_fuel _ _ _ hl3 (le_refl _)]
  refine ⟨hsplit, ?_, hlenS, ?_⟩
  · intro attr
    rw [hsplit, wordsExpr_append]
    have hl : ((ToUint64 (s.take k)).length : Int) = (k : Int).tdiv 8 := by
      have h1 : (ToUint64 (s.take k)).length = k / 8 := by
        rw [ToUint64_eq, toWords_length _ _ (le_refl _), hz1]
        simp only [List.replicate_zero, List.append_nil]
        rw [htl]
      rw [h1, Int.tdiv_eq_ediv (by omega) (by norm_num)]
      omega
    rw [zero_add, hl]
  · intro hb
    rw [ToUint64_eq]
    apply toWords_bytes ((s.length + 7) / 8) _ _ (hlen s) (le_refl _)
    intro b hbm
    rw [List.mem_append] at hbm
    rcases hbm with h | h
    · exact hb b h
    · rw [(List.mem_replicate.mp h).2]
      norm_num

/-- C16 at a buffer of eleven bytes split at byte 8. -/
theorem ToUint64_split_witness :
    8 ≤ [1, 2, 3, 4, 5, 6, 7, 8, 9, 10, 11].length ∧ 8 % 8 = 0
    ∧ ToUint64 [1, 2, 3, 4, 5, 6, 7, 8, 9, 10, 11]
        = ToUint64 ([1, 2, 3, 4, 5, 6, 7, 8, 9, 10, 11].take 8)
          ++ ToUint64 ([1, 2, 3, 4, 5, 6, 7, 8, 9, 10, 11].drop 8) :=
  ⟨by decide, by decide,
    (ToUint64_split [1, 2, 3, 4, 5, 6, 7, 8, 9, 10, 11] 8 (by decide) (by decide)).1⟩

end chunkenc

/-! ## Chunk store: the late-write look-back -/

namespace appender

open model

/-- C17 on the code: `MAX_LATE_WRITE` is `59 * 3600 * 1000`, 59 hours in milliseconds, and not
the 59 minutes (`59 * 60 * 1000 = 3540000`) of its comment. A sample 7199 seconds behind the
newest one, more than 59 minutes, is appended to the previous buffer. -/
theorem MAX_LATE_WRITE_is_59_hours :
    MAX_LATE_WRITE = 59 * 60 * 60 * 1000
    ∧ MAX_LATE_WRITE ≠ 59 * 60 * 1000
    ∧ (7200000 : Int) - 1000 > 59 * 60 * 1000
    ∧ (run deps (NewChunkStore Chunk) opsLate).map
        (fun cs => (cs.curChunk, (cs.chunks (xor1 cs.curChunk)).appender))
      = some (0, some { samples := [(0, 5), (1000, 7)], offset := 0 }) := by
  refine ⟨by decide, by decide, by decide, by decide⟩

end appender

/-! ## Sample cache: duplicate timestamps -/

namespace tvcache

/-- C20 on the code. After `append(10, 1)` and `append(5, 2)` the data is `[10, 5]`, not sorted.
The binary search of `append(7, 3)` ends at the length of the data, and the sample is dropped as
a duplicate although no sample has the timestamp 7. `append(5, 4)` finds the sample at
`t = 10`, returns false and stores a second sample with the timestamp 5. On the empty list,
whose `maxtime` is 0, `append(0, 4)` is dropped as a duplicate. -/
theorem append_duplicate_check :
    list105.data = [{ t := 10, v := 1 }, { t := 5, v := 2 }]
    ∧ list105.append 7 3 = (true, list105)
    ∧ (list105.append 5 4).1 = false
    ∧ (list105.append 5 4).2.data
        = [{ t := 10, v := 1 }, { t := 5, v := 2 }, { t := 5, v := 4 }]
    ∧ (samplesList.empty Nat).append 0 4 = (true, samplesList.empty Nat) := by
  refine ⟨by decide, by decide, by decide, by decide, by decide⟩

end tvcache

/-! ## Collector: server-side aggregates -/

namespace pquerier

open chunkenc

/-- Reading back the eight bytes written for a 64-bit word gives the word. -/
theorem leUint64_leBytes (v : Nat) (rest : List Nat) (hv : v < 2 ^ 64) :
    leUint64 (leBytes v ++ rest) = v := by
  simp only [leUint64, leBytes, List.cons_append, List.take, List.foldr]
  norm_num
  omega

/-- The loop over the cells of an array, from the end of a prefix `pre` of `16 + 8*k` bytes on,
when the rest of the array is the serialisation of the words `vals`: one call per word, in
order. -/
theorem cellsLoop_cells (inp : ServerAggInput) (fn : Nat) (hi : inp.interval ≠ 0) :
    ∀ (vals : List Nat) (pre : List Nat) (k fuel : Nat), pre.length = 16 + 8 * k →
      vals.length ≤ fuel → (∀ v ∈ vals, v < 2 ^ 64) →
      cellsLoop inp fn (pre ++ vals.flatMap leBytes) fuel (16 + 8 * k)
        = some ((List.enumFrom k vals).map (fun kv =>
            (currentCell inp (16 + 8 * kv.1),
              if inp.IsCountAggregate fn then float64OfUint64 kv.2
              else Float64frombits kv.2))) := by
  intro vals
  induction vals with
  | nil =>
    intro pre k fuel hp _ _
    cases fuel with
    | zero => rfl
    | succ n =>
      simp only [cellsLoop, List.flatMap_nil, List.append_nil, List.enumFrom_nil, List.map_nil]
      rw [if_neg (by omega)]
  | cons v vals ih =>
    intro pre k fuel hp hf hv
    cases fuel with
    | zero => simp at hf
    | succ n =>
      have hlen : (leBytes v).length = 8 := rfl
      have hle : 16 + 8 * k + 8 ≤ (pre ++ (v :: vals).flatMap leBytes).length := by
        rw [List.flatMap_cons, List.length_append, List.length_append, hlen]
        omega
      have hdrop : (pre ++ (v :: vals).flatMap leBytes).drop (16 + 8 * k)
          = leBytes v ++ vals.flatMap leBytes := by
        rw [← hp, List.drop_left, List.flatMap_cons]
      have hpre : pre ++ (v :: vals).flatMap leBytes
          = (pre ++ leBytes v) ++ vals.flatMap leBytes := by
        rw [List.flatMap_cons, List.append_assoc]
      have hnext := ih (pre ++ leBytes v) (k + 1) n
        (by rw [List.length_append, hlen]; omega) (by simpa using hf)
        (fun x hx => hv x (List.mem_cons_of_mem _ hx))
      have hidx : 16 + 8 * k + 8 = 16 + 8 * (k + 1) := by omega
      simp only [cellsLoop]
      rw [if_pos hle, if_neg hi, hdrop, leUint64_leBytes v _ (hv v (List.mem_cons_self _ _)),
        hidx, hpre, hnext]
      rfl

end pquerier

namespace pquerier

open chunkenc

theorem length_flatMap_leBytes (vals : List Nat) :
    (vals.flatMap leBytes).length = 8 * vals.length := by
  induction vals with
  | nil => rfl
  | cons v vals ih =>
    rw [List.flatMap_cons, List.length_append, ih, List.length_cons]
    have : (leBytes v).length = 8 := rfl
    omega

/-- The loop over the cells of an array that holds at least one cell after its 16-byte header,
when the interval is zero: the first division `/ Interval` panics. -/
theorem cellsLoop_zero_interval (inp : ServerAggInput) (fn : Nat) (bytes : List Nat)
    (hi : inp.interval = 0) (hlen : 16 + 8 ≤ bytes.length) :
    cellsLoop inp fn bytes bytes.length 16 = none := by
  cases hb : bytes.length with
  | zero => omega
  | succ n =>
    simp only [cellsLoop]
    rw [if_pos (by omega), if_pos hi]

/-- C18, as the code has it: for a concrete column of a count-style aggregate of the metric of
the response, and a response byte array made of a header of 16 bytes followed by 8-byte
little-endian cells: with a non-zero interval, `aggregateServerAggregates` sets, for each cell
in order, the bucket of the cell to `float64(val)`, the cell's unsigned integer value, and not
to the `float64` with the bits of the cell; the array of a header followed by the cell
`[8,0,0,0,0,0,0,0]` sets one bucket to 8.0 (bits `0x4020000000000000`). With the interval zero
and at least one cell the division by the interval panics and no bucket is set. -/
theorem count_cells_as_integers (inp : ServerAggInput) (col : columnSpec)
    (hdr : List Nat) (vals : List Nat)
    (hm : col.metric = inp.name) (hf : col.function ≠ 0) (hc : col.concrete = true)
    (hcount : inp.IsCountAggregate col.function = true)
    (hh : hdr.length = 16) (hv : ∀ v ∈ vals, v < 2 ^ 64)
    (hfield : inp.fields (inp.ToAttrName col.function) = some (hdr ++ vals.flatMap leBytes)) :
    (inp.interval ≠ 0 →
      columnCalls inp col
          = some ((List.enumFrom 0 vals).map (fun kv =>
              (currentCell inp (16 + 8 * kv.1), float64OfUint64 kv.2)))
      ∧ (inp.columns = [col] →
          aggregateServerAggregates inp
            = some [(List.enumFrom 0 vals).map (fun kv =>
                (currentCell inp (16 + 8 * kv.1), float64OfUint64 kv.2))])
      ∧ (vals = [8] → columnCalls inp col = some [(currentCell inp 16, 0x4020000000000000)]))
    ∧ (inp.interval = 0 → vals ≠ [] →
        columnCalls inp col = none
        ∧ (inp.columns = [col] → aggregateServerAggregates inp = none))
    ∧ float64OfUint64 8 ≠ Float64frombits 8 := by
  refine ⟨?_, ?_, by decide⟩
  · intro hi
    have main : columnCalls inp col
          = some ((List.enumFrom 0 vals).map (fun kv =>
              (currentCell inp (16 + 8 * kv.1), float64OfUint64 kv.2))) := by
      unfold columnCalls
      rw [if_pos ⟨hm, hf, hc⟩, hfield]
      simp only []
      have h := cellsLoop_cells inp col.function hi vals hdr 0
        (hdr ++ vals.flatMap leBytes).length (by rw [hh])
        (by rw [List.length_append, length_flatMap_leBytes]; omega) hv
      simp only [Nat.mul_zero, Nat.add_zero, hcount, if_true] at h
      exact h
    refine ⟨main, ?_, ?_⟩
    · intro hcols
      unfold aggregateServerAggregates
      rw [hcols]
      simp only [columnsLoop, main]
    · intro h8
      rw [main, h8]
      rfl
  · intro hi hne
    have hpos : 0 < vals.length := List.length_pos.mpr hne
    have main : columnCalls inp col = none := by
      unfold columnCalls
      rw [if_pos ⟨hm, hf, hc⟩, hfield]
      simp only []
      exact cellsLoop_zero_interval inp col.function _ hi
        (by rw [List.length_append, length_flatMap_leBytes, hh]; omega)
    refine ⟨main, ?_⟩
    intro hcols
    unfold aggregateServerAggregates
    rw [hcols]
    simp only [columnsLoop, main]

/-- The first cell of the example response falls into bucket 1. -/
theorem currentCell_countInput (bytes : List Nat) : currentCell (countInput bytes) 16 = 1 := by
  have e0 : (((16 : Nat) : Int) - 16).tdiv 8 = 0 := by decide
  have e1 : wrapInt64 ((0 : Int) + 1) = 1 := by decide
  have e2 : wrapInt64 ((1 : Int) * 3600000) = 3600000 := by decide
  have e3 : wrapInt64 ((0 : Int) + 3600000) = 3600000 := by decide
  have e4 : wrapInt64 ((3600000 : Int) - 0) = 3600000 := by decide
  have e5 : (3600000 : Int).tdiv 3600000 = 1 := by decide
  have e6 : wrapInt64 1 = 1 := by decide
  simp only [currentCell, countInput, e0, e1, e2, e3, e4, e5, e6]

/-- C18 at the example response whose array is a header of 16 bytes and the cell holding 8:
bucket 1 is set to 8.0; with the interval zero the call panics. -/
theorem count_cells_as_integers_witness :
    aggregateServerAggregates (countInput header16Cell) = some [[(1, 0x4020000000000000)]]
    ∧ aggregateServerAggregates (countInputZero header16Cell) = none :=
  ⟨(((count_cells_as_integers (countInput header16Cell)
    { metric := "cpu", function := 1, concrete := true }
    [0, 0, 0, 0, 0, 0, 0, 0, 0, 0, 0, 0, 0, 0, 0, 0] [8]
    rfl (by decide) rfl rfl rfl
    (by intro v hv; rw [List.mem_singleton] at hv; rw [hv]; norm_num)
    rfl).1 (by decide)).2.1 rfl).trans (by
      have h8 : float64OfUint64 8 = 0x4020000000000000 := by decide
      simp only [List.enumFrom, List.map, Nat.mul_zero, Nat.add_zero, h8,
        currentCell_countInput]),
   ((count_cells_as_integers (countInputZero header16Cell)
    { metric := "cpu", function := 1, concrete := true }
    [0, 0, 0, 0, 0, 0, 0, 0, 0, 0, 0, 0, 0, 0, 0, 0] [8]
    rfl (by decide) rfl rfl rfl
    (by intro v hv; rw [List.mem_singleton] at hv; rw [hv]; norm_num)
    rfl).2.1 rfl (by decide)).2 rfl⟩

/-- C18 as stated fails: the cells start at byte 16. For the array of a header of 8 bytes
followed by the cell `[8,0,0,0,0,0,0,0]`, 16 bytes in all, the loop
`for i := 16; i+8 <= len(bytes)` has nothing to read and no bucket is set. -/
theorem header_is_16_bytes :
    header8Cell.length = 16
    ∧ aggregateServerAggregates (countInput header8Cell) = some [[]] := by
  refine ⟨by decide, by decide⟩

end pquerier

/-! ## Collector: downsampling -/

namespace pquerier

/-- The loop body of `downsampleRawData` does not panic when the step is not zero. -/
theorem downsampleBucket_total {I : Type} (inp : DownsampleInput I) (prevLastT : Int)
    (prevLastV : float64) (st : DownsampleState I) (currBucket : Nat) (hstep : inp.step ≠ 0) :
    ∃ r, downsampleBucket inp prevLastT prevLastV st currBucket = some r := by
  unfold downsampleBucket
  simp only [if_neg hstep]
  repeat' split
  all_goals exact ⟨_, rfl⟩

/-- The loop of `downsampleRawData` does not panic when the step is not zero, and makes one
call of `SetDataAt` per bucket. -/
theorem downsampleLoop_total {I : Type} (inp : DownsampleInput I) (prevLastT : Int)
    (prevLastV : float64) (hstep : inp.step ≠ 0) :
    ∀ (n currBucket : Nat) (st : DownsampleState I),
      ∃ calls st1, downsampleLoop inp prevLastT prevLastV n currBucket st = some (calls, st1)
        ∧ calls.length = n := by
  intro n
  induction n with
  | zero =>
    intro currBucket st
    exact ⟨[], st, rfl, rfl⟩
  | succ n ih =>
    intro currBucket st
    obtain ⟨⟨st1, value⟩, hb⟩ := downsampleBucket_total inp prevLastT prevLastV st currBucket hstep
    obtain ⟨calls, st2, hl, hlen⟩ := ih (currBucket + 1) st1
    refine ⟨(currBucket, value) :: calls, st2, ?_, by rw [List.length_cons, hlen]⟩
    simp only [downsampleLoop, hb, hl]

/-- One iteration of the loop of `downsampleRawData`. -/
theorem downsampleLoop_succ {I : Type} (inp : DownsampleInput I) (prevLastT : Int)
    (prevLastV : float64) (n currBucket : Nat) (st : DownsampleState I) :
    downsampleLoop inp prevLastT prevLastV (n + 1) currBucket st
      = match downsampleBucket inp prevLastT prevLastV st currBucket with
        | none => none
        | some (st1, value) =>
          match downsampleLoop inp prevLastT prevLastV n (currBucket + 1) st1 with
          | none => none
          | some (calls, st2) => some ((currBucket, value) :: calls, st2) := rfl

/-- The loop of `downsampleRawData` over `k + (n + 1)` buckets: the calls of the first `k`
buckets, then the call of the bucket `currBucket + k` on the state they leave, then `n` more
calls. -/
theorem downsampleLoop_split {I : Type} (inp : DownsampleInput I) (prevLastT : Int)
    (prevLastV : float64) (hstep : inp.step ≠ 0) (n : Nat) :
    ∀ (k currBucket : Nat) (st st1 st2 : DownsampleState I) (pre : List (Nat × float64))
      (value : float64),
      downsampleLoop inp prevLastT prevLastV k currBucket st = some (pre, st1) →
      downsampleBucket inp prevLastT prevLastV st1 (currBucket + k) = some (st2, value) →
      ∃ post st3, downsampleLoop inp prevLastT prevLastV (k + (n + 1)) currBucket st
          = some (pre ++ (currBucket + k, value) :: post, st3)
        ∧ pre.length = k := by
  intro k
  induction k with
  | zero =>
    intro currBucket st st1 st2 pre value hpre hb
    simp only [downsampleLoop, Option.some.injEq, Prod.mk.injEq] at hpre
    obtain ⟨hp, hs⟩ := hpre
    subst hp hs
    obtain ⟨post, st3, hl, _⟩ :=
      downsampleLoop_total inp prevLastT prevLastV hstep n (currBucket + 1) st2
    refine ⟨post, st3, ?_, rfl⟩
    rw [Nat.zero_add]
    rw [Nat.add_zero] at hb
    simp only [downsampleLoop, hb, hl, List.nil_append, Nat.add_zero]
  | succ k ih =>
    intro currBucket st st1 st2 pre value hpre hb
    obtain ⟨⟨sta, va⟩, hba⟩ := downsampleBucket_total inp prevLastT prevLastV st currBucket hstep
    simp only [downsampleLoop, hba] at hpre
    cases hrest : downsampleLoop inp prevLastT prevLastV k (currBucket + 1) sta with
    | none => rw [hrest] at hpre; cases hpre
    | some r =>
      obtain ⟨pre1, stb⟩ := r
      rw [hrest] at hpre
      simp only [Option.some.injEq, Prod.mk.injEq] at hpre
      obtain ⟨hp, hs⟩ := hpre
      subst hp hs
      have hidx : currBucket + 1 + k = currBucket + (k + 1) := by omega
      obtain ⟨post, st3, hl, hlen⟩ := ih (currBucket + 1) sta stb st2 pre1 value hrest
        (by rw [hidx]; exact hb)
      refine ⟨post, st3, ?_, by rw [List.length_cons, hlen]⟩
      have hn : k + 1 + (n + 1) = (k + (n + 1)) + 1 := by omega
      rw [hn, downsampleLoop_succ, hba]
      simp only [hl, hidx, List.cons_append]

/-- The loop body of `downsampleRawData` for the bucket `currBucket` of time
`B = currBucket*step + mint`, when the seek lands on a raw sample at `B+b` with `0 < b < step`
whose preceding raw sample is at `B-a` with `B-a ≠ 0`, and no `int64` operation wraps: the
bucket is set to not-a-number when `a + b > tolerance`, and to the result of the interpolation
function otherwise. -/
theorem downsampleBucket_same_bucket {I : Type} (inp : DownsampleInput I)
    (prevLastT : Int) (prevLastV : float64) (st : DownsampleState I) (currBucket : Nat)
    (B a b : Int) (v prevV : float64) (it1 : I)
    (hB : B = (currBucket : Int) * inp.step + inp.mint)
    (hr2 : -(2 : Int) ^ 63 ≤ B) (hr3 : B + b < 2 ^ 63)
    (hr4 : (currBucket : Int) * inp.step + b < 2 ^ 63) (hr5 : a + b < 2 ^ 63)
    (hb0 : 0 < b) (hb1 : b < inp.step) (ha : 0 < a) (hne : B - a ≠ 0)
    (hseek : inp.iter.Seek st.it B = (true, it1))
    (hat : inp.iter.At it1 = (B + b, v))
    (hpk : inp.iter.PeakBack it1 = (B - a, prevV)) :
    downsampleBucket inp prevLastT prevLastV st currBucket
      = if a + b > inp.tolerance then some ({ st with it := it1 }, NaN)
        else some ({ st with it := it1 },
          (inp.interpolateFunc (B - a) (B + b) B prevV v).2) := by
  have hmul0 : 0 ≤ (currBucket : Int) * inp.step :=
    Int.mul_nonneg (Int.ofNat_nonneg _) (by omega)
  have w1 : wrapInt64 ((currBucket : Int) * inp.step) = (currBucket : Int) * inp.step :=
    appender.wrapInt64_of_range _ (by omega) (by omega)
  have w2 : wrapInt64 ((currBucket : Int) * inp.step + inp.mint) = B := by
    rw [← hB]
    exact appender.wrapInt64_of_range _ hr2 (by omega)
  have w3 : wrapInt64 (B + b - inp.mint) = (currBucket : Int) * inp.step + b := by
    have : B + b - inp.mint = (currBucket : Int) * inp.step + b := by rw [hB]; ring
    rw [this]
    exact appender.wrapInt64_of_range _ (by omega) hr4
  have hdiv : ((currBucket : Int) * inp.step + b).tdiv inp.step = (currBucket : Int) := by
    rw [Int.tdiv_eq_ediv (by omega) (by omega),
      show (currBucket : Int) * inp.step + b = b + (currBucket : Int) * inp.step by ring,
      Int.add_mul_ediv_right _ _ (by omega), Int.ediv_eq_zero_of_lt (by omega) hb1]
    ring
  have hcb : (currBucket : Int) < 2 ^ 63 := by
    have : (currBucket : Int) ≤ (currBucket : Int) * inp.step := by
      have h1 : (1 : Int) ≤ inp.step := by omega
      nlinarith [Int.ofNat_nonneg currBucket]
    omega
  have w4 : wrapInt64 (currBucket : Int) = (currBucket : Int) :=
    appender.wrapInt64_of_range _ (by have := Int.ofNat_nonneg currBucket; omega) hcb
  have w5 : wrapInt64 (B + b - (B - a)) = a + b := by
    have : B + b - (B - a) = a + b := by ring
    rw [this]
    exact appender.wrapInt64_of_range _ (by omega) hr5
  have hstep : ¬ inp.step = 0 := by omega
  have hneq : ¬ B + b = B := by omega
  unfold downsampleBucket
  simp only [w1, w2, hseek, hat, hpk, if_true, if_neg hstep, w3, hdiv, w4, if_neg hneq,
    if_neg hne]
  by_cases htol : a + b > inp.tolerance
  · rw [if_pos ⟨hne, by rw [w5]; exact htol⟩, if_pos htol]
  · rw [if_neg (by rw [w5]; intro h; exact htol h.2), if_neg htol]

/-- C19, as the code has it: `downsampleRawData` returns, with one call of `SetDataAt` per
bucket of the column. For a bucket `currBucket` of the column with time
`B = currBucket*step + mint`, when the seek on the state `st` left by the buckets before it
lands on a raw sample at `B+b` with `0 < b < step` whose preceding raw sample is at `B-a` with
`a > 0` and `B-a ≠ 0`, the call for the bucket sets it to `interpolateFunc(B-a, B+b, B, prevV, v)`
whenever `tolerance ≥ a+b`, and to not-a-number whenever `tolerance < a`; this holds when `B`
and `B+b` are `int64` values and the two differences of the code do not wrap:
`t - mint = currBucket*step + b < 2^63` and `t - prevT = a + b < 2^63`. -/
theorem downsample_interpolation {I : Type} (inp : DownsampleInput I) (it0 : I)
    (prevLastT : Int) (prevLastV : float64) (currBucket : Nat)
    (B a b : Int) (v prevV : float64)
    (hk : currBucket < inp.colLen)
    (hB : B = (currBucket : Int) * inp.step + inp.mint)
    (hr2 : -(2 : Int) ^ 63 ≤ B) (hr3 : B + b < 2 ^ 63)
    (hr4 : (currBucket : Int) * inp.step + b < 2 ^ 63) (hr5 : a + b < 2 ^ 63)
    (hb0 : 0 < b) (hb1 : b < inp.step) (ha : 0 < a) (hne : B - a ≠ 0) :
    ∃ calls last pre st,
      downsampleRawData inp it0 prevLastT prevLastV = some (calls, last)
      ∧ calls.length = inp.colLen
      ∧ downsampleLoop inp prevLastT prevLastV currBucket 0 { it := it0, lastT := 0, lastV := 0 }
          = some (pre, st)
      ∧ ∀ it1, inp.iter.Seek st.it B = (true, it1) → inp.iter.At it1 = (B + b, v) →
          inp.iter.PeakBack it1 = (B - a, prevV) →
          (inp.tolerance ≥ a + b →
            calls[currBucket]?
              = some (currBucket, (inp.interpolateFunc (B - a) (B + b) B prevV v).2))
          ∧ (inp.tolerance < a → calls[currBucket]? = some (currBucket, NaN)) := by
  have hstep : inp.step ≠ 0 := by omega
  obtain ⟨pre, st, hpre, hprelen⟩ := downsampleLoop_total inp prevLastT prevLastV hstep
    currBucket 0 { it := it0, lastT := 0, lastV := 0 }
  obtain ⟨⟨st2, value⟩, hb⟩ := downsampleBucket_total inp prevLastT prevLastV st (0 + currBucket)
    hstep
  obtain ⟨post, st3, hall, _⟩ := downsampleLoop_split inp prevLastT prevLastV hstep
    (inp.colLen - currBucket - 1) currBucket 0 _ st st2 pre value hpre hb
  have hcol : currBucket + (inp.colLen - currBucket - 1 + 1) = inp.colLen := by omega
  rw [hcol] at hall
  obtain ⟨calls, st4, hall2, hlen⟩ := downsampleLoop_total inp prevLastT prevLastV hstep
    inp.colLen 0 { it := it0, lastT := 0, lastV := 0 }
  have hcalls : calls = pre ++ (0 + currBucket, value) :: post := by
    rw [hall] at hall2
    simp only [Option.some.injEq, Prod.mk.injEq] at hall2
    exact hall2.1.symm
  have hidx : calls[currBucket]? = some (currBucket, value) := by
    rw [hcalls, List.getElem?_append_right (by omega), hprelen, Nat.sub_self, Nat.zero_add]
    exact List.getElem?_cons_zero
  refine ⟨calls, (st4.lastT, st4.lastV), pre, st, ?_, hlen, hpre, ?_⟩
  · unfold downsampleRawData
    rw [hall2]
  · intro it1 hseek hat hpk
    have hbody := downsampleBucket_same_bucket inp prevLastT prevLastV st currBucket B a b v
      prevV it1 hB hr2 hr3 hr4 hr5 hb0 hb1 ha hne hseek hat hpk
    rw [Nat.zero_add] at hb
    rw [hb] at hbody
    constructor
    · intro htol
      rw [if_neg (by omega)] at hbody
      simp only [Option.some.injEq, Prod.mk.injEq] at hbody
      rw [hidx, hbody.2]
    · intro htol
      rw [if_pos (by omega)] at hbody
      simp only [Option.some.injEq, Prod.mk.injEq] at hbody
      rw [hidx, hbody.2]

/-- C19 at the example column, bucket 1 (`B = 10`), with raw samples at 5 (value 100) and at 15
(value 200), so `a = b = 5`: with tolerance 10 the call for bucket 1 sets it to the result of
the interpolation function, with tolerance 4 to not-a-number. -/
theorem downsample_interpolation_witness :
    (∃ calls last, downsampleRawData (stepInput 10) twoSamples 0 0 = some (calls, last)
      ∧ calls.length = 3 ∧ calls[1]? = some (1, 100))
    ∧ (∃ calls last, downsampleRawData (stepInput 4) twoSamples 0 0 = some (calls, last)
      ∧ calls.length = 3 ∧ calls[1]? = some (1, NaN)) := by
  constructor
  · obtain ⟨calls, last, pre, st, hraw, hlen, hpre, h⟩ :=
      downsample_interpolation (stepInput 10) twoSamples 0 0 1 10 5 5 200 100
        (by decide) (by decide) (by decide) (by decide) (by decide) (by decide) (by decide)
        (by decide) (by decide) (by decide)
    have hst : downsampleLoop (stepInput 10) 0 0 1 0 { it := twoSamples, lastT := 0, lastV := 0 }
        = some ([(0, 0)], { it := twoSamples, lastT := 0, lastV := 0 }) := rfl
    rw [hst] at hpre
    simp only [Option.some.injEq, Prod.mk.injEq] at hpre
    obtain ⟨_, hs⟩ := hpre
    subst hs
    exact ⟨calls, last, hraw, hlen,
      (h { twoSamples with pos := 1 } (by decide) (by decide) (by decide)).1 (by decide)⟩
  · obtain ⟨calls, last, pre, st, hraw, hlen, hpre, h⟩ :=
      downsample_interpolation (stepInput 4) twoSamples 0 0 1 10 5 5 200 100
        (by decide) (by decide) (by decide) (by decide) (by decide) (by decide) (by decide)
        (by decide) (by decide) (by decide)
    have hst : downsampleLoop (stepInput 4) 0 0 1 0 { it := twoSamples, lastT := 0, lastV := 0 }
        = some ([(0, 0)], { it := twoSamples, lastT := 0, lastV := 0 }) := rfl
    rw [hst] at hpre
    simp only [Option.some.injEq, Prod.mk.injEq] at hpre
    obtain ⟨_, hs⟩ := hpre
    subst hs
    exact ⟨calls, last, hraw, hlen,
      (h { twoSamples with pos := 1 } (by decide) (by decide) (by decide)).2 (by decide)⟩

/-- C19 as stated fails where the difference `t - prevT` leaves the `int64` range: in the
example column with tolerance 5 and raw samples at `11 - 2^63` (value 100) and at 11 (value
200), the seek for bucket 1 (`B = 10`) lands on the sample at `B + 1` whose preceding sample is
at `B - a` with `a = 2^63 - 1`. The tolerance is below `a`, but `t - prevT = 2^63` wraps to
`-2^63`, which is not above the tolerance: the bucket is set to the result of the
interpolation function, 100, and not to not-a-number. -/
theorem downsample_interpolation_wraps :
    downsampleLoop (stepInput 5) 0 0 1 0 { it := farSamples, lastT := 0, lastV := 0 }
      = some ([(0, NaN)], { it := { farSamples with pos := 1 }, lastT := 0, lastV := 0 })
    ∧ listIter.Seek { farSamples with pos := 1 } 10 = (true, { farSamples with pos := 1 })
    ∧ listIter.At { farSamples with pos := 1 } = (10 + 1, 200)
    ∧ listIter.PeakBack { farSamples with pos := 1 } = (10 - 9223372036854775807, 100)
    ∧ (1 : Int) < (stepInput 5).step
    ∧ (stepInput 5).tolerance < 9223372036854775807
    ∧ wrapInt64 (11 - (10 - 9223372036854775807)) = -9223372036854775808
    ∧ downsampleRawData (stepInput 5) farSamples 0 0
        = some ([(0, NaN), (1, 100), (2, NaN)], (0, 0))
    ∧ ((stepInput 5).interpolateFunc (10 - 9223372036854775807) (10 + 1) 10 100 200).2 = 100
    ∧ (100 : float64) ≠ NaN := by
  refine ⟨rfl, by decide, by decide, by decide, by decide, by decide, by decide, by decide,
    rfl, by decide⟩

end pquerier

/-! ## Chunk metadata word: packing the unpacked fields -/

namespace chunkenc

/-- The five fields unpacked from any word are in the range of their bit widths. -/
theorem getMetadata_range (w : Nat) :
    (getMetadata w).Count < 2 ^ 16 ∧ (getMetadata w).Length < 2 ^ 16
      ∧ (getMetadata w).Private < 2 ^ 16 ∧ (getMetadata w).Bits < 2 ^ 8
      ∧ (getMetadata w).Encode < 2 ^ 8 := by
  simp only [getMetadata]
  refine ⟨?_, ?_, ?_, ?_, ?_⟩ <;> exact Nat.mod_lt _ (by norm_num)

/-- Packing the fields unpacked from a 64-bit word gives the word back. -/
theorem toMetadata_getMetadata_value (w : Nat) (hw : w < 2 ^ 64) :
    toMetadata (getMetadata w).Count (getMetadata w).Length (getMetadata w).Private
      (getMetadata w).Bits (getMetadata w).Encode = w := by
  obtain ⟨hc, hl, hp, hb, he⟩ := getMetadata_range w
  rw [toMetadata_eq_sum _ _ _ _ _ hc hl hp hb he]
  simp only [getMetadata, Nat.shiftRight_eq_div_pow]
  omega

/-- C24: for every 64-bit word `w`, packing the five fields of `getMetadata w` with `toMetadata`
gives `w` back; the five fields are in the range of their widths (16, 16, 16, 8 and 8 bits), the
packed word of in-range fields is a 64-bit word that unpacks to them, and two 64-bit words with
the same fields are equal: the two functions are inverse bijections between the 64-bit words and
the in-range fields. -/
theorem toMetadata_getMetadata (w : Nat) (hw : w < 2 ^ 64) :
    toMetadata (getMetadata w).Count (getMetadata w).Length (getMetadata w).Private
        (getMetadata w).Bits (getMetadata w).Encode = w
    ∧ ((getMetadata w).Count < 2 ^ 16 ∧ (getMetadata w).Length < 2 ^ 16
        ∧ (getMetadata w).Private < 2 ^ 16 ∧ (getMetadata w).Bits < 2 ^ 8
        ∧ (getMetadata w).Encode < 2 ^ 8)
    ∧ (∀ w2 : Nat, w2 < 2 ^ 64 → getMetadata w2 = getMetadata w → w2 = w)
    ∧ (∀ count length priv bits encode : Nat, count < 2 ^ 16 → length < 2 ^ 16 →
        priv < 2 ^ 16 → bits < 2 ^ 8 → encode < 2 ^ 8 →
        toMetadata count length priv bits encode < 2 ^ 64
        ∧ getMetadata (toMetadata count length priv bits encode)
            = { Count := count, Length := length, Private := priv, Bits := bits,
                Encode := encode }) := by
  refine ⟨toMetadata_getMetadata_value w hw, getMetadata_range w, ?_, ?_⟩
  · intro w2 hw2 h
    rw [← toMetadata_getMetadata_value w2 hw2, h]
    exact toMetadata_getMetadata_value w hw
  · intro count length priv bits encode hc hl hp hb he
    rw [toMetadata_eq_sum count length priv bits encode hc hl hp hb he]
    refine ⟨by omega, ?_⟩
    simp only [getMetadata, Nat.shiftRight_eq_div_pow, ChunkMetadata.mk.injEq]
    refine ⟨?_, ?_, ?_, ?_, ?_⟩ <;> omega

/-- C24 at the word `0x0107030202010201`: its fields are `Count = 513`, `Length = 770`,
`Private = 513`, `Bits = 7`, `Encode = 1`, and packing them gives the word back. -/
theorem toMetadata_getMetadata_witness :
    (74031226033340929 : Nat) < 2 ^ 64
    ∧ getMetadata 74031226033340929
        = { Count := 513, Length := 770, Private := 513, Bits := 7, Encode := 1 }
    ∧ toMetadata (getMetadata 74031226033340929).Count (getMetadata 74031226033340929).Length
        (getMetadata 74031226033340929).Private (getMetadata 74031226033340929).Bits
        (getMetadata 74031226033340929).Encode = 74031226033340929 :=
  ⟨by decide, by decide, (toMetadata_getMetadata 74031226033340929 (by decide)).1⟩

end chunkenc

/-! ## Chunk ids of `utils.TimeToChunkId` -/

namespace utils

/-- On a non-negative time `utils.TimeToDHM` returns the number of whole days and the hour of
the day. -/
theorem TimeToDHM_day_hour (x : Int) (hx : 0 ≤ x) :
    TimeToDHM x = (x / 86400000, (x / 3600000) % 24) := by
  unfold TimeToDHM
  simp only []
  have h1 : x.tdiv 1000 = x / 1000 := Int.tdiv_eq_ediv hx (by norm_num)
  have h1n : 0 ≤ x / 1000 := Int.ediv_nonneg hx (by norm_num)
  have h2 : (x / 1000).tdiv 3600 = x / 1000 / 3600 := Int.tdiv_eq_ediv h1n (by norm_num)
  have h2n : 0 ≤ x / 1000 / 3600 := Int.ediv_nonneg h1n (by norm_num)
  have h3 : (x / 1000 / 3600).tdiv 24 = x / 1000 / 3600 / 24 :=
    Int.tdiv_eq_ediv h2n (by norm_num)
  rw [h1, h2, h3]
  refine Prod.ext ?_ ?_
  · show x / 1000 / 3600 / 24 = x / 86400000
    omega
  · show x / 1000 / 3600 - x / 1000 / 3600 / 24 * 24 = x / 3600000 % 24
    omega

/-- The value of `utils.TimeToChunkId` for at least two days per object and a non-negative
time: the hour within the object, divided by half the number of days. -/
theorem TimeToChunkId_of_two_days (cfg : TsdbConfig) (tmilli : Int)
    (hd : 2 ≤ cfg.DaysPerObj) (ht : 0 ≤ tmilli) :
    TimeToChunkId cfg tmilli
      = some (((tmilli / 86400000) % cfg.DaysPerObj * 24 + (tmilli / 3600000) % 24)
          / (cfg.DaysPerObj / 2)) := by
  have hd0 : (0 : Int) ≤ cfg.DaysPerObj := by omega
  have hdn : 0 ≤ tmilli / 86400000 := Int.ediv_nonneg ht (by norm_num)
  have hhalf : cfg.DaysPerObj.tdiv 2 = cfg.DaysPerObj / 2 :=
    Int.tdiv_eq_ediv hd0 (by norm_num)
  have hq : (tmilli / 86400000).tdiv cfg.DaysPerObj = tmilli / 86400000 / cfg.DaysPerObj :=
    Int.tdiv_eq_ediv hdn hd0
  have hidx : tmilli / 86400000 - tmilli / 86400000 / cfg.DaysPerObj * cfg.DaysPerObj
      = (tmilli / 86400000) % cfg.DaysPerObj := by
    rw [Int.emod_def, Int.mul_comm]
  have hidx0 : 0 ≤ (tmilli / 86400000) % cfg.DaysPerObj :=
    Int.emod_nonneg _ (by omega)
  have hm : 0 ≤ cfg.DaysPerObj / 2 := by omega
  have hnum : 0 ≤ (tmilli / 86400000) % cfg.DaysPerObj * 24 + (tmilli / 3600000) % 24 := by
    omega
  unfold TimeToChunkId
  simp only [TimeToDHM_day_hour tmilli ht]
  rw [if_neg (by omega), if_neg (by omega), hhalf, if_neg (by omega), hq, hidx,
    Int.tdiv_eq_ediv hnum hm]

/-- C22: for every configuration with `DaysPerObj ≥ 1` and every `tmilli ≥ 0`,
`utils.TimeToChunkId` does not divide by zero (it returns an id) and the id is between 0 and
71, so an object has at most 72 distinct chunk ids. -/
theorem TimeToChunkId_at_most_72 (cfg : TsdbConfig) (tmilli : Int)
    (hd : 1 ≤ cfg.DaysPerObj) (ht : 0 ≤ tmilli) :
    ∃ id, TimeToChunkId cfg tmilli = some id ∧ 0 ≤ id ∧ id ≤ 71 := by
  by_cases h1 : cfg.DaysPerObj = 1
  · refine ⟨(tmilli / 3600000) % 24, ?_, by omega, by omega⟩
    unfold TimeToChunkId
    simp only [TimeToDHM_day_hour tmilli ht]
    rw [if_pos h1]
  · have hd2 : 2 ≤ cfg.DaysPerObj := by omega
    refine ⟨_, TimeToChunkId_of_two_days cfg tmilli hd2 ht, ?_, ?_⟩
    · have hidx0 : 0 ≤ (tmilli / 86400000) % cfg.DaysPerObj :=
        Int.emod_nonneg _ (by omega)
      exact Int.ediv_nonneg (by omega) (by omega)
    · have hidx0 : 0 ≤ (tmilli / 86400000) % cfg.DaysPerObj :=
        Int.emod_nonneg _ (by omega)
      have hidx1 : (tmilli / 86400000) % cfg.DaysPerObj < cfg.DaysPerObj :=
        Int.emod_lt_of_pos _ (by omega)
      have hm : 0 < cfg.DaysPerObj / 2 := by omega
      have hlt : (tmilli / 86400000) % cfg.DaysPerObj * 24 + (tmilli / 3600000) % 24
          < 72 * (cfg.DaysPerObj / 2) := by omega
      have := Int.ediv_lt_of_lt_mul hm hlt
      omega

/-- C22 at three days per object and the last millisecond of the third day: the id is 71, the
largest one. -/
theorem TimeToChunkId_at_most_72_witness :
    TimeToChunkId { DaysPerObj := 3 } 259199999 = some 71
    ∧ ∃ id, TimeToChunkId { DaysPerObj := 3 } 259199999 = some id ∧ 0 ≤ id ∧ id ≤ 71 :=
  ⟨by decide, TimeToChunkId_at_most_72 { DaysPerObj := 3 } 259199999 (by decide) (by decide)⟩

end utils

/-! ## Samples list: the sent part becomes history -/

namespace tvcache

/-- Inside the bounds the slice `s[low:]` is the list without its first `low` elements. -/
theorem sliceFrom_of_bounds {V : Type} (s : List V) (low : Int) (h0 : 0 ≤ low)
    (h1 : low ≤ s.length) : sliceFrom s low = some (s.drop low.toNat) := by
  unfold sliceFrom
  rw [if_pos ⟨h0, h1⟩]

/-- C23: for every samples list with `0 ≤ historyPtr ≤ len(data)` and every `k` with
`0 ≤ k ≤ len(getPending())`, `updateSentIndex(k)` followed by `sendConfirmed()` does not panic
and leaves a list whose data is the old `getPending()` (the old history is cropped), whose
history part `data[0:historyPtr]` is the first `k` samples of the old `getPending()`, whose
`getPending()` is the old one without its first `k` samples, and whose `sentPtr` equals
`historyPtr`, both being `k`; the other fields are unchanged. The length of a Go slice is an
`int`, which is the hypothesis `hlen`. -/
theorem sendConfirmed_after_updateSentIndex {V : Type} (l : samplesList V) (k : Int)
    (pend : List (pendingData V)) (hlen : (l.data.length : Int) < 2 ^ 63)
    (h0 : 0 ≤ l.historyPtr) (h1 : l.historyPtr ≤ l.data.length)
    (hp : l.getPending = some pend) (hk0 : 0 ≤ k) (hk1 : k ≤ pend.length) :
    ∃ l1, (l.updateSentIndex k).sendConfirmed = some l1
      ∧ l1.data = pend
      ∧ pend = l.data.drop l.historyPtr.toNat
      ∧ l1.historyPtr = k
      ∧ l1.data.take l1.historyPtr.toNat = pend.take k.toNat
      ∧ l1.getPending = some (pend.drop k.toNat)
      ∧ l1.sentPtr = l1.historyPtr
      ∧ l1.maxtime = l.maxtime ∧ l1.unordered = l.unordered := by
  have hs := sliceFrom_of_bounds l.data l.historyPtr h0 h1
  have hpe : pend = l.data.drop l.historyPtr.toNat := by
    unfold samplesList.getPending at hp
    rw [hs] at hp
    exact (Option.some.inj hp).symm
  have hpl : (pend.length : Int) = l.data.length - l.historyPtr := by
    rw [hpe, List.length_drop]
    omega
  have w1 : wrapInt64 (l.historyPtr + k) = l.historyPtr + k :=
    appender.wrapInt64_of_range _ (by omega) (by omega)
  have w2 : wrapInt64 (l.historyPtr + k - l.historyPtr) = k := by
    rw [appender.wrapInt64_of_range _ (by omega) (by omega)]
    omega
  have hfin : (l.updateSentIndex k).sendConfirmed
      = some { l with data := pend, historyPtr := k, sentPtr := k } := by
    unfold samplesList.sendConfirmed samplesList.updateSentIndex
    simp only [hs, w1, w2, hpe]
  refine ⟨_, hfin, rfl, hpe, rfl, rfl, ?_, rfl, rfl, rfl⟩
  show sliceFrom pend k = some (pend.drop k.toNat)
  exact sliceFrom_of_bounds pend k hk0 hk1

/-- C23 at the list `list4` (four samples, the first one history) and `k = 2`: the pending
samples were those at the times 2, 3 and 4; afterwards the data is these three, the history is
the samples at 2 and 3, and the sample at 4 is pending. -/
theorem sendConfirmed_after_updateSentIndex_witness :
    list4.getPending = some [{ t := 2, v := 20 }, { t := 3, v := 30 }, { t := 4, v := 40 }]
    ∧ (list4.updateSentIndex 2).sendConfirmed
        = some { unordered := false, maxtime := 4, sentPtr := 2, historyPtr := 2,
                 data := [{ t := 2, v := 20 }, { t := 3, v := 30 }, { t := 4, v := 40 }] }
    ∧ ∃ l1, (list4.updateSentIndex 2).sendConfirmed = some l1
      ∧ l1.data = [{ t := 2, v := 20 }, { t := 3, v := 30 }, { t := 4, v := 40 }]
      ∧ [{ t := 2, v := 20 }, { t := 3, v := 30 }, { t := 4, v := 40 }]
          = list4.data.drop list4.historyPtr.toNat
      ∧ l1.historyPtr = 2
      ∧ l1.data.take l1.historyPtr.toNat
          = [{ t := 2, v := 20 }, { t := 3, v := 30 }, { t := 4, v := 40 }].take (2 : Int).toNat
      ∧ l1.getPending
          = some ([{ t := 2, v := 20 }, { t := 3, v := 30 }, { t := 4, v := 40 }].drop
              (2 : Int).toNat)
      ∧ l1.sentPtr = l1.historyPtr
      ∧ l1.maxtime = list4.maxtime ∧ l1.unordered = list4.unordered :=
  ⟨by decide, by decide,
    sendConfirmed_after_updateSentIndex list4 2
      [{ t := 2, v := 20 }, { t := 3, v := 30 }, { t := 4, v := 40 }]
      (by decide) (by decide) (by decide) (by decide) (by decide) (by decide)⟩

end tvcache

/-! ## Chunk store: the update expression of a flush of both buffers -/

namespace appender

open model

set_option maxRecDepth 8000

/-- The expression of `Chunkbuf2Expr` ends with the assignment of `_maxtime`, with nothing
after the number. -/
theorem Chunkbuf2Expr_ends_with_maxtime {A : Type} (d : Deps A) (offsetByte : Int) (meta : Nat)
    (bytes : List Nat) (mint maxt : Int) :
    ∃ body, Chunkbuf2Expr d offsetByte meta bytes mint maxt
      = body ++ "_maxtime=" ++ toString maxt :=
  ⟨_, rfl⟩

/-- An iteration of the loop of `WriteChunks` on a slot that is flushed: the `Chunkbuf2Expr` of
the slot is appended to the expression as it is. -/
theorem writeChunk_flush_expr {A : Type} (d : Deps A) (acc : WriteAcc A) (i : Nat) (a : A)
    (ha : (acc.cs.chunks (if i % 2 = 1 then xor1 acc.cs.curChunk else acc.cs.curChunk)).appender
      = some a)
    (ht : acc.tableId = -1 ∨ acc.tableId = d.Time2TableID
      (acc.cs.chunks (if i % 2 = 1 then xor1 acc.cs.curChunk else acc.cs.curChunk)).mint)
    (hn : d.chunk.NumSamples a
      > (acc.cs.chunks (if i % 2 = 1 then xor1 acc.cs.curChunk else acc.cs.curChunk)).updCount) :
    (writeChunk d acc i).expr
        = acc.expr ++ Chunkbuf2Expr d (d.chunk.GetChunkBuffer a).2.1 (d.chunk.GetChunkBuffer a).1
            (d.chunk.GetChunkBuffer a).2.2
            (acc.cs.chunks (if i % 2 = 1 then xor1 acc.cs.curChunk else acc.cs.curChunk)).mint
            (acc.cs.chunks (if i % 2 = 1 then xor1 acc.cs.curChunk else acc.cs.curChunk)).lastT
    ∧ (writeChunk d acc i).tableId = d.Time2TableID
        (acc.cs.chunks (if i % 2 = 1 then xor1 acc.cs.curChunk else acc.cs.curChunk)).mint
    ∧ (writeChunk d acc i).notInitialized = decide ((d.chunk.GetChunkBuffer a).2.1 = 0)
    ∧ ∃ c, (writeChunk d acc i).cs
        = { acc.cs.setChunk (if i % 2 = 1 then xor1 acc.cs.curChunk else acc.cs.curChunk) c
            with state := .storeStateUpdate } := by
  unfold writeChunk
  simp only []
  generalize (if i % 2 = 1 then xor1 acc.cs.curChunk else acc.cs.curChunk) = slot at ha ht hn ⊢
  simp only [ha]
  rw [if_pos ht, if_pos hn]
  exact ⟨rfl, rfl, rfl, _, rfl⟩

/-- The update expression of a call of `WriteChunks` that flushes both buffers, for every
chunk implementation: the `Chunkbuf2Expr` of the previous buffer is directly followed by the
`Chunkbuf2Expr` of the current buffer. -/
theorem WriteChunks_two_buffers_concat {A : Type} (d : Deps A) (cfgPath : String)
    (metric : MetricState) (cs : chunkStore A) (a1 a0 : A)
    (hst : cs.state ≠ .storeStateGet)
    (ha1 : (cs.chunks (xor1 cs.curChunk)).appender = some a1)
    (ha0 : (cs.chunks cs.curChunk).appender = some a0)
    (hn1 : d.chunk.NumSamples a1 > (cs.chunks (xor1 cs.curChunk)).updCount)
    (hn0 : d.chunk.NumSamples a0 > (cs.chunks cs.curChunk).updCount)
    (htid : d.Time2TableID (cs.chunks (xor1 cs.curChunk)).mint
      = d.Time2TableID (cs.chunks cs.curChunk).mint) :
    ∃ pre, (WriteChunks d cfgPath metric cs).request
      = some (cfgPath ++ "/" ++ metric.name ++ "." ++ toString metric.hash,
          pre
            ++ (Chunkbuf2Expr d (d.chunk.GetChunkBuffer a1).2.1 (d.chunk.GetChunkBuffer a1).1
                (d.chunk.GetChunkBuffer a1).2.2 (cs.chunks (xor1 cs.curChunk)).mint
                (cs.chunks (xor1 cs.curChunk)).lastT
              ++ Chunkbuf2Expr d (d.chunk.GetChunkBuffer a0).2.1 (d.chunk.GetChunkBuffer a0).1
                (d.chunk.GetChunkBuffer a0).2.2 (cs.chunks cs.curChunk).mint
                (cs.chunks cs.curChunk).lastT)) := by
  let acc0 : WriteAcc A := { cs := cs, tableId := -1, expr := "", notInitialized := false }
  obtain ⟨e1, t1, _, c1, s1⟩ := writeChunk_flush_expr d acc0 1 a1 ha1 (Or.inl rfl) hn1
  have hcur : (writeChunk d acc0 1).cs.curChunk = cs.curChunk := writeChunk_curChunk d acc0 1
  have hslot : (writeChunk d acc0 1).cs.chunks
      (if 2 % 2 = 1 then xor1 (writeChunk d acc0 1).cs.curChunk
        else (writeChunk d acc0 1).cs.curChunk) = cs.chunks cs.curChunk := by
    rw [slot_two, hcur, s1]
    show (acc0.cs.setChunk (if 1 % 2 = 1 then xor1 acc0.cs.curChunk else acc0.cs.curChunk)
      c1).chunks cs.curChunk = cs.chunks cs.curChunk
    rw [slot_one]
    exact chunks_setChunk_other cs _ _ c1 (xor1_ne cs.curChunk).symm
  obtain ⟨e2, _, _, _⟩ := writeChunk_flush_expr d (writeChunk d acc0 1) 2 a0
    (by rw [hslot]; exact ha0)
    (by rw [hslot, t1]; exact Or.inr htid)
    (by rw [hslot]; exact hn0)
  rw [hslot, e1] at e2
  have e2f : (writeChunk d (writeChunk d acc0 1) 2).expr
      = Chunkbuf2Expr d (d.chunk.GetChunkBuffer a1).2.1 (d.chunk.GetChunkBuffer a1).1
          (d.chunk.GetChunkBuffer a1).2.2 (cs.chunks (xor1 cs.curChunk)).mint
          (cs.chunks (xor1 cs.curChunk)).lastT
        ++ Chunkbuf2Expr d (d.chunk.GetChunkBuffer a0).2.1 (d.chunk.GetChunkBuffer a0).1
          (d.chunk.GetChunkBuffer a0).2.2 (cs.chunks cs.curChunk).mint
          (cs.chunks cs.curChunk).lastT := by
    rw [e2]
    show "" ++ _ ++ _ = _
    rw [String.empty_append, slot_one]
  unfold WriteChunks
  rw [if_neg hst]
  simp only []
  by_cases hni : (writeChunk d (writeChunk d acc0 1) 2).notInitialized = true
  · refine ⟨lblExpr metric.Lset ++ ("_lset='" ++ metric.key ++ "'; _meta_v=init_array("
      ++ toString (24 : Int) ++ ",'int'); "), ?_⟩
    rw [← e2f]
    show some (_, if (writeChunk d (writeChunk d acc0 1) 2).notInitialized = true then _ else _)
      = _
    rw [if_pos hni]
  · refine ⟨"", ?_⟩
    rw [← e2f, String.empty_append]
    show some (_, if (writeChunk d (writeChunk d acc0 1) 2).notInitialized = true then _ else _)
      = _
    rw [if_neg hni]

/-- C21 fails on a call that flushes both buffers: on `storeTwoBuffers`, the store after
`ProcessWriteResp`, `Append(0, 5)` and `Append(3600000, 6)`, `WriteChunks` sets `writing` on
both slots and submits an expression in which the assignment `_maxtime=0` of the previous
buffer is followed by the first statement of the current buffer with no `;` in between, and
which assigns `_maxtime` twice. On `storeOneBuffer`, the store after the first two calls, only
one buffer is flushed and the expression has the stated shape. -/
theorem WriteChunks_two_buffers_expr :
    run deps (NewChunkStore Chunk) opsBeforeFlush = some storeTwoBuffers
    ∧ (WriteChunks deps "p" metric storeTwoBuffers).cs.chunks0.writing = true
    ∧ (WriteChunks deps "p" metric storeTwoBuffers).cs.chunks1.writing = true
    ∧ (WriteChunks deps "p" metric storeTwoBuffers).request
        = some ("p/cpu.7",
            "_name='cpu'; host='a'; _lset='cpu.host=a'; _meta_v=init_array(24,'int'); "
              ++ "_v0=init_array(1024,'int'); _meta_v[0]=72057662757404673; "
              ++ "_v0[0]=0; _v0[1]=5; _maxtime=0"
              ++ "_v1=init_array(1024,'int'); _meta_v[1]=72057662757404673; "
              ++ "_v1[0]=3600000; _v1[1]=6; _maxtime=3600000")
    ∧ run deps (NewChunkStore Chunk) (opsBeforeFlush.take 2) = some storeOneBuffer
    ∧ (WriteChunks deps "p" metric storeOneBuffer).request
        = some ("p/cpu.7",
            "_name='cpu'; host='a'; _lset='cpu.host=a'; _meta_v=init_array(24,'int'); "
              ++ "_v0=init_array(1024,'int'); _meta_v[0]=72057662757404673; "
              ++ "_v0[0]=0; _v0[1]=5; _maxtime=0") := by
  refine ⟨by decide, by decide, by decide, ?_, by decide, ?_⟩
  · rfl
  · rfl

end appender
